import Mathlib

/-!
# go-bc: Merkle trees, Merkle paths and block headers

A shallow embedding of `merkle_root.go`, `merkle_path.go` and `block_header.go`.

Conventions of the embedding:

* a Go `[]byte` and a Go `string` are both a `List Nat` of bytes (a string literal is
  written `str "..."`, the list of its ASCII codes); theorems that need the elements to
  be bytes say so with `IsBytes`;
* a Go `uint32` is a `Nat` below `2 ^ 32`, a `uint64` a `Nat` below `2 ^ 64`;
* a Go function returning `(T, error)` returns `Result T = Except Fault T`, where a
  `Fault` is either an error value or a run-time panic (index out of range, negative
  `make` length); every slice index of the source is a checked `index` here;
* loops run on a fuel argument that the caller sets to a bound on the iterations.
-/

namespace Bc

/-! ## Results, errors, panics -/

/-- Error values of the Go code: the two errors of `encoding/hex` and `errors.New`. -/
inductive GoError where
  | invalidByte (b : Nat)
  | errLength
  | new (msg : String)
  deriving DecidableEq, Repr

/-- A call that does not return normally: it returns an error value, it panics, or
(in the embedding only) a loop was given too little fuel. -/
inductive Fault where
  | error (e : GoError)
  | panic (msg : String)
  | fuel
  deriving DecidableEq, Repr

/-- Outcome of a Go call that can fail. -/
abbrev Result (α : Type) := Except Fault α

deriving instance DecidableEq for Except

/-- Text of `errInvalidBlockHeaderLengthMsg` (errors.go). -/
def errInvalidBlockHeaderLengthMsg : String := "block header should be 80 bytes long"

/-- The bytes of an ASCII string literal. -/
def str (s : String) : List Nat := s.toList.map Char.toNat

/-- Every element is a byte. -/
def IsBytes (b : List Nat) : Prop := ∀ x ∈ b, x < 256

instance (b : List Nat) : Decidable (IsBytes b) := by
  unfold IsBytes; infer_instance

/-- Checked slice index `xs[i]`: panics when `i` is out of range. -/
def index {α : Type} (xs : List α) (i : Nat) : Result α :=
  match xs[i]? with
  | some x => .ok x
  | none => .error (.panic "index out of range")

/-- Checked slice assignment `xs[i] = v`: panics when `i` is out of range. -/
def setIndex {α : Type} (xs : List α) (i : Nat) (v : α) : Result (List α) :=
  if i < xs.length then .ok (xs.set i v) else .error (.panic "index out of range")

/-- Go builtin `copy(dst, src)`: the first `min (len dst) (len src)` elements of `dst`
are overwritten with those of `src`. -/
def goCopy {α : Type} (dst src : List α) : List α :=
  src.take dst.length ++ dst.drop src.length

/-! ## encoding/hex -/

/-- Value of a hex digit, the `reverseHexTable` of `encoding/hex`. -/
def fromHexChar (c : Nat) : Option Nat :=
  if 48 ≤ c ∧ c ≤ 57 then some (c - 48)
  else if 97 ≤ c ∧ c ≤ 102 then some (c - 97 + 10)
  else if 65 ≤ c ∧ c ≤ 70 then some (c - 65 + 10)
  else none

/-- Go `hex.Decode`/`hex.DecodeString`: the bytes decoded so far and the error, if any.
An invalid character is reported before an odd length. -/
def hexDecodeString : List Nat → List Nat × Option GoError
  | [] => ([], none)
  | [p] =>
    match fromHexChar p with
    | none => ([], some (.invalidByte p))
    | some _ => ([], some .errLength)
  | p :: q :: rest =>
    match fromHexChar p with
    | none => ([], some (.invalidByte p))
    | some a =>
      match fromHexChar q with
      | none => ([], some (.invalidByte q))
      | some b =>
        let r := hexDecodeString rest
        ((a <<< 4 ||| b) :: r.1, r.2)

/-- Digit `d` of the table `"0123456789abcdef"`. -/
def hexDigit (d : Nat) : Nat := if d < 10 then 48 + d else 87 + d

/-- Go `hex.EncodeToString`: two lowercase digits per byte. -/
def hexEncodeToString (b : List Nat) : List Nat :=
  b.flatMap (fun v => [hexDigit (v >>> 4), hexDigit (v &&& 0x0f)])

/-- Lowercase hex digit `0-9a-f`. -/
def isLowerHex (c : Nat) : Bool := (48 ≤ c && c ≤ 57) || (97 ≤ c && c ≤ 102)

/-- A string of lowercase hex digits of even length. -/
def IsLowerHexStr (s : List Nat) : Prop := s.length % 2 = 0 ∧ ∀ c ∈ s, isLowerHex c = true

instance (s : List Nat) : Decidable (IsLowerHexStr s) := by
  unfold IsLowerHexStr; infer_instance

/-- A txid in display form: 64 lowercase hex characters. -/
def IsTxid (s : List Nat) : Prop := s.length = 64 ∧ ∀ c ∈ s, isLowerHex c = true

instance (s : List Nat) : Decidable (IsTxid s) := by
  unfold IsTxid; infer_instance

/-- The function `bt.ReverseBytes` of go-bt: a reversed copy. -/
def ReverseBytes (a : List Nat) : List Nat := a.reverse

/-! ## SHA-256 (crypto/sha256) -/

/-- Round constants of SHA-256. -/
def sha256K : List Nat :=
  [0x428a2f98, 0x71374491, 0xb5c0fbcf, 0xe9b5dba5, 0x3956c25b, 0x59f111f1, 0x923f82a4,
   0xab1c5ed5, 0xd807aa98, 0x12835b01, 0x243185be, 0x550c7dc3, 0x72be5d74, 0x80deb1fe,
   0x9bdc06a7, 0xc19bf174, 0xe49b69c1, 0xefbe4786, 0x0fc19dc6, 0x240ca1cc, 0x2de92c6f,
   0x4a7484aa, 0x5cb0a9dc, 0x76f988da, 0x983e5152, 0xa831c66d, 0xb00327c8, 0xbf597fc7,
   0xc6e00bf3, 0xd5a79147, 0x06ca6351, 0x14292967, 0x27b70a85, 0x2e1b2138, 0x4d2c6dfc,
   0x53380d13, 0x650a7354, 0x766a0abb, 0x81c2c92e, 0x92722c85, 0xa2bfe8a1, 0xa81a664b,
   0xc24b8b70, 0xc76c51a3, 0xd192e819, 0xd6990624, 0xf40e3585, 0x106aa070, 0x19a4c116,
   0x1e376c08, 0x2748774c, 0x34b0bcb5, 0x391c0cb3, 0x4ed8aa4a, 0x5b9cca4f, 0x682e6ff3,
   0x748f82ee, 0x78a5636f, 0x84c87814, 0x8cc70208, 0x90befffa, 0xa4506ceb, 0xbef9a3f7,
   0xc67178f2]

/-- Initial hash value of SHA-256. -/
def sha256Init : List Nat :=
  [0x6a09e667, 0xbb67ae85, 0x3c6ef372, 0xa54ff53a, 0x510e527f, 0x9b05688c, 0x1f83d9ab,
   0x5be0cd19]

/-- Rotate a 32-bit word right by `n` bits. -/
def rotr32 (x n : Nat) : Nat := ((x >>> n) ||| (x <<< (32 - n))) % 2 ^ 32

/-- Big-endian 32-bit word of four bytes. -/
def be32 (a b c d : Nat) : Nat := a <<< 24 ||| b <<< 16 ||| c <<< 8 ||| d

/-- The four big-endian bytes of a 32-bit word. -/
def be32Bytes (w : Nat) : List Nat :=
  [w >>> 24 % 256, w >>> 16 % 256, w >>> 8 % 256, w % 256]

/-- Message padding: `0x80`, zeros up to 56 mod 64, then the bit length on 8 bytes. -/
def sha256Pad (msg : List Nat) : List Nat :=
  let bits := 8 * msg.length
  msg ++ [0x80] ++ List.replicate ((119 - msg.length % 64) % 64) 0
    ++ be32Bytes (bits >>> 32 % 2 ^ 32) ++ be32Bytes (bits % 2 ^ 32)

/-- The sixteen big-endian words of one 64-byte block (at most `n` words are read). -/
def sha256Words : Nat → List Nat → List Nat
  | n + 1, a :: b :: c :: d :: rest => be32 a b c d :: sha256Words n rest
  | _, _ => []

/-- Extend the schedule by `n` words; `w` holds the schedule so far, newest word first. -/
def sha256Schedule : Nat → List Nat → List Nat
  | 0, w => w
  | n + 1, w =>
    let w2 := w.getD 1 0
    let w7 := w.getD 6 0
    let w15 := w.getD 14 0
    let w16 := w.getD 15 0
    let s0 := (rotr32 w15 7) ^^^ (rotr32 w15 18) ^^^ (w15 >>> 3)
    let s1 := (rotr32 w2 17) ^^^ (rotr32 w2 19) ^^^ (w2 >>> 10)
    sha256Schedule n (((w16 + s0 + w7 + s1) % 2 ^ 32) :: w)

/-- One round of the compression function on the working variables `a..h`. -/
def sha256Round (s : List Nat) (kw : Nat × Nat) : List Nat :=
  match s with
  | [a, b, c, d, e, f, g, h] =>
    let s1 := (rotr32 e 6) ^^^ (rotr32 e 11) ^^^ (rotr32 e 25)
    let ch := (e &&& f) ^^^ ((e ^^^ 0xffffffff) &&& g)
    let t1 := (h + s1 + ch + kw.1 + kw.2) % 2 ^ 32
    let s0 := (rotr32 a 2) ^^^ (rotr32 a 13) ^^^ (rotr32 a 22)
    let maj := (a &&& b) ^^^ (a &&& c) ^^^ (b &&& c)
    let t2 := (s0 + maj) % 2 ^ 32
    [(t1 + t2) % 2 ^ 32, a, b, c, (d + t1) % 2 ^ 32, e, f, g]
  | _ => s

/-- Compression of one 64-byte block into the state. -/
def sha256Block (st : List Nat) (block : List Nat) : List Nat :=
  let w := (sha256Schedule 48 (sha256Words 16 block).reverse).reverse
  let r := (sha256K.zip w).foldl sha256Round st
  List.zipWith (fun x y => (x + y) % 2 ^ 32) st r

/-- Fold of the compression function over `n` consecutive 64-byte blocks. -/
def sha256Blocks : Nat → List Nat → List Nat → List Nat
  | 0, st, _ => st
  | n + 1, st, data => sha256Blocks n (sha256Block st (data.take 64)) (data.drop 64)

/-- SHA-256 digest (`sha256.Sum256`) of a byte string: 32 bytes. -/
def sha256 (msg : List Nat) : List Nat :=
  let p := sha256Pad msg
  (sha256Blocks (p.length / 64) sha256Init p).flatMap be32Bytes

/-- The function `crypto.Sha256d` of go-sdk: SHA-256 applied twice. -/
def Sha256d (b : List Nat) : List Nat := sha256 (sha256 b)

/-! ## Byte helpers of the package -/

/-- Modelled from the spec: `UInt32ToBytes` (byte_manipulation.go is not among the
sources) converts a uint32 to its four little-endian bytes. -/
def UInt32ToBytes (v : Nat) : List Nat :=
  [v % 256, v >>> 8 % 256, v >>> 16 % 256, v >>> 24 % 256]

/-- Go `binary.LittleEndian.Uint32` on a slice holding at least four bytes. -/
def LittleEndianUint32 (b : List Nat) : Nat :=
  (b.getD 0 0 ||| b.getD 1 0 <<< 8 ||| b.getD 2 0 <<< 16 ||| b.getD 3 0 <<< 24) % 2 ^ 32

/-- Modelled from the spec: `BytesFromStringReverse` (byte_manipulation.go is not among
the sources) decodes a display-order hex string and reverses the bytes into natural
order; it has no error result, what `hex.DecodeString` decoded is used. -/
def BytesFromStringReverse (s : List Nat) : List Nat :=
  ReverseBytes (hexDecodeString s).1

/-- Modelled from the spec: `StringFromBytesReverse` (byte_manipulation.go is not among
the sources) reverses natural-order bytes and hex-encodes them for display. -/
def StringFromBytesReverse (h : List Nat) : List Nat :=
  hexEncodeToString (ReverseBytes h)

/-- Modelled from the spec: `Sha256Sha256` (not among the sources) is Hash256,
`sha256(sha256(x))`. -/
def Sha256Sha256 (digest : List Nat) : List Nat := sha256 (sha256 digest)

/-- Modelled from the spec: `merkle_parent(left, right) = hash256(left ‖ right)` on
natural-order hashes (merkle_tree_parent.go is not among the sources). -/
def merkleParent (left right : List Nat) : List Nat := Sha256d (left ++ right)

/-- Modelled from the spec: `MerkleTreeParentStr` (merkle_tree_parent.go is not among the
sources), the string form of `merkle_parent`: it decodes the two reversed-hex strings,
computes the parent on natural-order bytes and re-encodes it reversed; a string that is
not hex is an error. -/
def MerkleTreeParentStr (leftNode rightNode : List Nat) : Result (List Nat) :=
  match hexDecodeString leftNode with
  | (_, some e) => .error (.error e)
  | (l, none) =>
    match hexDecodeString rightNode with
    | (_, some e) => .error (.error e)
    | (r, none) =>
      .ok (hexEncodeToString (ReverseBytes (merkleParent (ReverseBytes l) (ReverseBytes r))))

/-- The string `MerkleTreeParentStr` returns for two hex strings: the display form of the
parent of the two natural-order hashes. -/
def parentStr (leftNode rightNode : List Nat) : List Nat :=
  StringFromBytesReverse
    (merkleParent (BytesFromStringReverse leftNode) (BytesFromStringReverse rightNode))

/-- The three cases of the loop body of BuildMerkleTreeStore: the parent slot of a left
and a right child slot. -/
def parentSlot (left right : List Nat) : Result (List Nat) :=
  if left = [] then .ok []
  else if right = [] then MerkleTreeParentStr left left
  else MerkleTreeParentStr left right

/-- Go `big.Int.SetBytes`: the bytes read as a big-endian unsigned integer. -/
def bigIntSetBytes (b : List Nat) : Nat := b.foldl (fun acc x => acc * 256 + x) 0

/-- The bytes read as a little-endian unsigned integer. -/
def littleEndianNat : List Nat → Nat
  | [] => 0
  | x :: rest => x + 256 * littleEndianNat rest

/-! ## block_header.go -/

/-- A BlockHeader in the Bitcoin blockchain. -/
structure BlockHeader where
  Version : Nat
  Time : Nat
  Nonce : Nat
  HashPrevBlock : List Nat
  HashMerkleRoot : List Nat
  Bits : List Nat
  deriving DecidableEq, Repr

/-- Method `Bytes` of BlockHeader: the six fields in wire order. -/
def BlockHeader.Bytes (bh : BlockHeader) : List Nat :=
  let bytes : List Nat := []
  let bytes := bytes ++ UInt32ToBytes bh.Version
  let bytes := bytes ++ ReverseBytes bh.HashPrevBlock
  let bytes := bytes ++ ReverseBytes bh.HashMerkleRoot
  let bytes := bytes ++ UInt32ToBytes bh.Time
  let bytes := bytes ++ ReverseBytes bh.Bits
  let bytes := bytes ++ UInt32ToBytes bh.Nonce
  bytes

/-- Method `Valid` of BlockHeader. `ExpandTargetFromAsInt` (difficulty.go, not among the
sources) is a parameter: it returns the target, an error, or panics. -/
def BlockHeader.Valid (ExpandTargetFromAsInt : List Nat → Result Int) (bh : BlockHeader) :
    Result Bool :=
  match ExpandTargetFromAsInt (hexEncodeToString bh.Bits) with
  | .error (.error _) => .ok false
  | .error f => .error f
  | .ok target =>
    let digest := ReverseBytes (Sha256d bh.Bytes)
    let bn : Int := (bigIntSetBytes digest : Nat)
    .ok (decide (bn < target))

/-- Slice expression `b[lo:hi]` for `lo ≤ hi ≤ len b`. -/
def slice (b : List Nat) (lo hi : Nat) : List Nat := (b.drop lo).take (hi - lo)

/-- NewBlockHeaderFromBytes will encode a block header byte slice into the bitcoin block
header structure. -/
def NewBlockHeaderFromBytes (headerBytes : List Nat) : Result BlockHeader :=
  if headerBytes.length ≠ 80 then
    .error (.error (.new "block header should be 80 bytes long"))
  else
    .ok {
      Version := LittleEndianUint32 (slice headerBytes 0 4)
      HashPrevBlock := ReverseBytes (slice headerBytes 4 36)
      HashMerkleRoot := ReverseBytes (slice headerBytes 36 68)
      Time := LittleEndianUint32 (slice headerBytes 68 72)
      Bits := ReverseBytes (slice headerBytes 72 76)
      Nonce := LittleEndianUint32 (slice headerBytes 76 headerBytes.length) }

/-! ## merkle_root.go -/

/-- The truncated base-2 logarithm `uint(math.Log2(float64(n)))` of an `n ≥ 1`: the
number of halvings that bring `n` down to 1 (at most `fuel` of them). For the lengths a
slice of txids can have (below `2 ^ 48`) the float expression of the source has this
value. -/
def floorLog2 : Nat → Nat → Nat
  | 0, _ => 0
  | fuel + 1, n => if 2 ≤ n then floorLog2 fuel (n / 2) + 1 else 0

/-- The helper `nextPowerOfTwo`: `n` itself when `n & (n - 1) = 0`, else `1 << exponent`
with `exponent` the truncated logarithm plus one. -/
def nextPowerOfTwo (n : Nat) : Nat :=
  if n &&& (n - 1) = 0 then n
  else
    let exponent := floorLog2 n n + 1
    1 <<< exponent

/-- The `for i := 0; i < arraySize-1; i += 2` loop of BuildMerkleTreeStore, with the
running `offset`; the first argument is the fuel. -/
def buildLoop (arraySize : Nat) : Nat → Nat → Nat → List (List Nat) → Result (List (List Nat))
  | 0, i, _, merkles => if i < arraySize - 1 then .error .fuel else .ok merkles
  | fuel + 1, i, offset, merkles =>
    if i < arraySize - 1 then do
      let left ← index merkles i
      if left = [] then do
        let merkles ← setIndex merkles offset []
        buildLoop arraySize fuel (i + 2) (offset + 1) merkles
      else do
        let right ← index merkles (i + 1)
        if right = [] then do
          let newHash ← MerkleTreeParentStr left left
          let merkles ← setIndex merkles offset newHash
          buildLoop arraySize fuel (i + 2) (offset + 1) merkles
        else do
          let newHash ← MerkleTreeParentStr left right
          let merkles ← setIndex merkles offset newHash
          buildLoop arraySize fuel (i + 2) (offset + 1) merkles
    else .ok merkles

/-- BuildMerkleTreeStore creates a merkle tree from a slice of transaction IDs and stores
it in a linear array. `make` panics on the negative size that an empty input gives. -/
def BuildMerkleTreeStore (txids : List (List Nat)) : Result (List (List Nat)) :=
  let nextPoT := nextPowerOfTwo txids.length
  let arraySize : Int := (nextPoT : Int) * 2 - 1
  if arraySize < 0 then .error (.panic "makeslice: len out of range")
  else
    let merkles : List (List Nat) := List.replicate arraySize.toNat []
    let merkles := goCopy merkles txids
    let offset := nextPoT
    buildLoop arraySize.toNat arraySize.toNat 0 offset merkles

/-- BuildMerkleRoot builds the Merkle Root from a list of transactions. -/
def BuildMerkleRoot (txids : List (List Nat)) : Result (List Nat) :=
  match BuildMerkleTreeStore txids with
  | .error err => .error err
  | .ok merkles => index merkles (merkles.length - 1)

/-! ## merkle_path.go -/

/-- MerklePath data model according to BRC-58. `Path = none` is the nil slice. -/
structure MerklePath where
  Index : Nat
  Path : Option (List (List Nat))
  deriving DecidableEq, Repr

/-- The elements a `range` over a slice visits: none for the nil slice. -/
def sliceElems {α : Type} (s : Option (List α)) : List α := s.getD []

/-- The `for _, leaf := range mp.Path` loop of CalculateRoot. -/
def calculateRootLoop : List (List Nat) → List Nat → Nat → List Nat
  | [], workingHash, _ => workingHash
  | leaf :: rest, workingHash, lsb =>
    let leafBytes := BytesFromStringReverse leaf
    let digest := if lsb &&& 1 > 0 then leafBytes ++ workingHash else workingHash ++ leafBytes
    calculateRootLoop rest (Sha256Sha256 digest) (lsb >>> 1)

/-- CalculateRoot calculates the merkle root from a transaction ID and a MerklePath. -/
def MerklePath.CalculateRoot (mp : MerklePath) (txid : List Nat) : Result (List Nat) :=
  let workingHash := BytesFromStringReverse txid
  let lsb := mp.Index
  .ok (StringFromBytesReverse (calculateRootLoop (sliceElems mp.Path) workingHash lsb))

/-- The recursion `getPathElements`, on a non-negative `txIndex`; the first argument is
the fuel. -/
def getPathElements : Nat → Nat → List (List Nat) → Result (List (List Nat))
  | 0, _, _ => .error .fuel
  | fuel + 1, txIndex, hashes => do
    let hash ← if txIndex % 2 = 0 then index hashes (txIndex + 1)
      else index hashes (txIndex - 1)
    let path ← if hash = [] then (do let self ← index hashes txIndex; pure [self])
      else pure [hash]
    if hashes.length = 3 then pure path
    else do
      let rest ← getPathElements fuel (txIndex / 2) (hashes.drop ((hashes.length + 1) / 2))
      pure (path ++ rest)

/-- GetTxMerklePath with a merkle tree we calculate the merkle path for a given
transaction (a non-negative `txIndex`). -/
def GetTxMerklePath (txIndex : Nat) (merkleTree : List (List Nat)) : Result MerklePath :=
  if merkleTree.length ≠ 1 then do
    let path ← getPathElements (merkleTree.length + 1) txIndex merkleTree
    pure { Index := txIndex % 2 ^ 64, Path := some path }
  else
    pure { Index := txIndex % 2 ^ 64, Path := none }

/-- Modelled from the spec: `MerkleRootFromBranches` (not among the sources): starting from
`h = txid`, for each sibling of the path `h` becomes `merkle_parent(sibling, h)` when
`index & 1 = 1` and `merkle_parent(h, sibling)` otherwise, and the index is shifted right;
on display-order hex strings the parent is `MerkleTreeParentStr`. -/
def MerkleRootFromBranches : List Nat → Nat → List (List Nat) → Result (List Nat)
  | h, _, [] => .ok h
  | h, idx, sibling :: rest => do
    let parent ← if idx &&& 1 = 1 then MerkleTreeParentStr sibling h
      else MerkleTreeParentStr h sibling
    MerkleRootFromBranches parent (idx >>> 1) rest

/-! ## Variable-length integers (go-bt) -/

/-- The expression `b[0] | b[1]<<8 | b[2]<<16 | …` of `binary.LittleEndian`. -/
def littleEndianOr : List Nat → Nat
  | [] => 0
  | x :: rest => x ||| littleEndianOr rest <<< 8

/-- Go `binary.LittleEndian.Uint16` on a slice holding at least two bytes. -/
def LittleEndianUint16 (b : List Nat) : Nat := littleEndianOr (b.take 2) % 2 ^ 16

/-- Go `binary.LittleEndian.Uint64` on a slice holding at least eight bytes. -/
def LittleEndianUint64 (b : List Nat) : Nat := littleEndianOr (b.take 8) % 2 ^ 64

/-- Go `binary.LittleEndian.PutUintN`: the `n` little-endian bytes of `v`. -/
def putLittleEndian : Nat → Nat → List Nat
  | 0, _ => []
  | n + 1, v => v % 256 :: putLittleEndian n (v >>> 8)

/-- Checked slice expression `b[lo:hi]` of a slice without spare capacity: it panics
unless `lo ≤ hi ≤ len b`. -/
def sliceChecked (b : List Nat) (lo hi : Nat) : Result (List Nat) :=
  if lo ≤ hi ∧ hi ≤ b.length then .ok (slice b lo hi)
  else .error (.panic "slice bounds out of range")

/-- Method `Bytes` of `bt.VarInt` (a uint64): one byte below `0xfd`, else a marker byte
`0xfd`, `0xfe` or `0xff` followed by 2, 4 or 8 little-endian bytes. -/
def VarInt.Bytes (v : Nat) : List Nat :=
  if v < 0xfd then [v % 256]
  else if v < 0x10000 then 0xfd :: putLittleEndian 2 (v % 2 ^ 16)
  else if v < 0x100000000 then 0xfe :: putLittleEndian 4 (v % 2 ^ 32)
  else 0xff :: putLittleEndian 8 (v % 2 ^ 64)

/-- The function `bt.NewVarIntFromBytes`: the decoded value and its size in bytes. It
indexes `bb[0]` and slices `bb[1:9]`, `bb[1:5]` or `bb[1:3]` without a length check. -/
def NewVarIntFromBytes (bb : List Nat) : Result (Nat × Nat) := do
  let b0 ← index bb 0
  if b0 = 0xff then do
    let s ← sliceChecked bb 1 9
    pure (LittleEndianUint64 s, 9)
  else if b0 = 0xfe then do
    let s ← sliceChecked bb 1 5
    pure (LittleEndianUint32 s, 5)
  else if b0 = 0xfd then do
    let s ← sliceChecked bb 1 3
    pure (LittleEndianUint16 s, 3)
  else
    pure (LittleEndianUint16 [b0, 0x00], 1)

/-! ## merkle_path.go: binary form -/

/-- The `for k := 0; k < int(nLeaves); k++` loop of NewMerklePathFromBytes; the first
argument is the number of iterations left. -/
def parseLeaves : Nat → List Nat → Nat → List (List Nat) → Result (List (List Nat))
  | 0, _, _, path => .ok path
  | k + 1, bytes, offset, path => do
    let leaf ← sliceChecked bytes offset (offset + 32)
    parseLeaves k bytes (offset + 32) (path ++ [StringFromBytesReverse leaf])

/-- NewMerklePathFromBytes creates a new MerklePath from a byte slice. The path starts as
`make([]string, 0)`, so the result is never the nil slice; `int(nLeaves)` is negative for
a count of `2 ^ 63` or more, and the loop then does not run. -/
def NewMerklePathFromBytes (bytes : List Nat) : Result MerklePath := do
  let offset := 0
  let rest ← sliceChecked bytes offset bytes.length
  let (index, size) ← NewVarIntFromBytes rest
  let offset := offset + size
  let rest ← sliceChecked bytes offset bytes.length
  let (nLeaves, size) ← NewVarIntFromBytes rest
  let offset := offset + size
  let count := if nLeaves < 2 ^ 63 then nLeaves else 0
  let path ← parseLeaves count bytes offset []
  pure { Index := index, Path := some path }

/-- NewMerklePathFromStr creates a MerklePath from hex string. -/
def NewMerklePathFromStr (s : List Nat) : Result MerklePath :=
  match hexDecodeString s with
  | (_, some err) => .error (.error err)
  | (bytes, none) => NewMerklePathFromBytes bytes

/-- Bytes encodes a MerklePath as a slice of bytes (the error is always nil). -/
def MerklePath.Bytes (mp : MerklePath) : Result (List Nat) :=
  let index := mp.Index
  let nLeaves := (sliceElems mp.Path).length
  let bytes : List Nat := []
  let bytes := bytes ++ VarInt.Bytes index
  let bytes := bytes ++ VarInt.Bytes nLeaves
  .ok ((sliceElems mp.Path).foldl (fun bytes leaf => bytes ++ BytesFromStringReverse leaf) bytes)

/-- String encodes a MerklePath as a hex string. -/
def MerklePath.String (mp : MerklePath) : Result (List Nat) :=
  match mp.Bytes with
  | .error err => .error err
  | .ok bytes => .ok (hexEncodeToString bytes)

/-! ## encoding/json on a MerklePath -/

/-- A byte that `json.Marshal` copies into a string literal unchanged: printable ASCII
other than the double quote, the backslash and the HTML characters. -/
def jsonPlainByte (b : Nat) : Bool :=
  (0x20 ≤ b && b < 0x80) && !(b = 0x22 || b = 0x5c || b = 0x3c || b = 0x3e || b = 0x26)

/-- A JSON string literal, for strings of plain bytes only (`none` for a string that
needs escaping, which this model does not cover). -/
def jsonString (s : List Nat) : Option (List Nat) :=
  if s.all jsonPlainByte then some ([0x22] ++ s ++ [0x22]) else none

/-- A JSON array of strings. -/
def jsonStrings : List (List Nat) → Option (List Nat)
  | [] => some []
  | [s] => jsonString s
  | s :: rest =>
    match jsonString s, jsonStrings rest with
    | some a, some b => some (a ++ [0x2c] ++ b)
    | _, _ => none

/-- Go `json.Marshal` of a MerklePath, with its field tags `index` and `path`: a nil
slice is written `null`. -/
def MerklePath.MarshalJSON (mp : MerklePath) : Option (List Nat) :=
  let index := str "\x7b\"index\":" ++ (Nat.toDigits 10 mp.Index).map Char.toNat
  match mp.Path with
  | none => some (index ++ str ",\"path\":null\x7d")
  | some path =>
    match jsonStrings path with
    | some a => some (index ++ str ",\"path\":[" ++ a ++ str "]\x7d")
    | none => none

/-! ## block_header.go: strings and JSON -/

/-- Every character is a hex digit, in either case. -/
def IsHexStr (s : List Nat) : Prop := ∀ c ∈ s, (fromHexChar c).isSome = true

instance (s : List Nat) : Decidable (IsHexStr s) := by
  unfold IsHexStr; infer_instance

/-- HashMerkleRootStr returns the merkle root encoded as hex string. -/
def BlockHeader.HashMerkleRootStr (bh : BlockHeader) : List Nat :=
  hexEncodeToString bh.HashMerkleRoot

/-- String returns the Block Header encoded as hex string. -/
def BlockHeader.String (bh : BlockHeader) : List Nat := hexEncodeToString bh.Bytes

/-- NewBlockHeaderFromStr will encode a block header hash into the bitcoin block header
structure. -/
def NewBlockHeaderFromStr (headerStr : List Nat) : Result BlockHeader :=
  if headerStr.length ≠ 160 then
    .error (.error (.new "block header should be 80 bytes long"))
  else
    match hexDecodeString headerStr with
    | (_, some err) => .error (.error err)
    | (headerBytes, none) => NewBlockHeaderFromBytes headerBytes

/-- ExtractMerkleRootFromBlockHeader will take an 80 byte Bitcoin block header hex string
and return the Merkle Root from it. The result is the returned pair: the string, and the
error or nil. -/
def ExtractMerkleRootFromBlockHeader (header : List Nat) : Result (List Nat × Option GoError) :=
  match NewBlockHeaderFromStr header with
  | .error (.error err) => .ok ([], some err)
  | .error f => .error f
  | .ok bh => .ok (hexEncodeToString bh.HashMerkleRoot, none)

/-- The JSON form `bhJSON` of a block header. -/
structure bhJSON where
  Version : Nat
  Time : Nat
  Nonce : Nat
  HashPrevBlock : List Nat
  HashMerkleRoot : List Nat
  Bits : List Nat
  deriving DecidableEq, Repr

/-- UnmarshalJSON unmarshal a JSON []byte into the receiving bc.BlockHeader. The call
`json.Unmarshal(b, &bhj)` of the standard library is the parameter `jsonUnmarshal`; the
result is the receiver after the call and the returned error, or nil. -/
def BlockHeader.UnmarshalJSON (jsonUnmarshal : List Nat → Except GoError bhJSON)
    (bh : BlockHeader) (b : List Nat) : BlockHeader × Option GoError :=
  match jsonUnmarshal b with
  | .error err => (bh, some err)
  | .ok bhj =>
    let bh := { bh with Version := bhj.Version }
    let bh := { bh with Nonce := bhj.Nonce }
    let bh := { bh with Time := bhj.Time }
    match hexDecodeString bhj.Bits with
    | (_, some err) => (bh, some err)
    | (bits, none) =>
      let bh := { bh with Bits := bits }
      match hexDecodeString bhj.HashPrevBlock with
      | (_, some err) => (bh, some err)
      | (hashPrevBlock, none) =>
        let bh := { bh with HashPrevBlock := hashPrevBlock }
        match hexDecodeString bhj.HashMerkleRoot with
        | (_, some err) => (bh, some err)
        | (hashMerkleRoot, none) =>
          let bh := { bh with HashMerkleRoot := hashMerkleRoot }
          (bh, none)

/-! ## merkle_root.go on chainhash values -/

/-- Modelled from the spec: `MerkleTreeParentBytes` (merkle_tree_parent.go is not among
the sources) is `merkle_parent` on two natural-order 32-byte hashes. -/
def MerkleTreeParentBytes (l r : List Nat) : List Nat := merkleParent l r

/-- Method `String` of `chainhash.Hash`: the byte-reversed hash as hex. -/
def hashString (h : List Nat) : List Nat := hexEncodeToString (ReverseBytes h)

/-- The loop of BuildMerkleTreeStoreChainHash; a slot is a `*chainhash.Hash`, `none` is
the nil pointer and `merkles[i].IsEqual(nil)` holds exactly for it. -/
def buildLoopChainHash (arraySize : Nat) :
    Nat → Nat → Nat → List (Option (List Nat)) → Result (List (Option (List Nat)))
  | 0, i, _, merkles => if i < arraySize - 1 then .error .fuel else .ok merkles
  | fuel + 1, i, offset, merkles =>
    if i < arraySize - 1 then do
      let left ← index merkles i
      match left with
      | none => do
        let merkles ← setIndex merkles offset none
        buildLoopChainHash arraySize fuel (i + 2) (offset + 1) merkles
      | some l => do
        let right ← index merkles (i + 1)
        match right with
        | none => do
          let merkles ← setIndex merkles offset (some (MerkleTreeParentBytes l l))
          buildLoopChainHash arraySize fuel (i + 2) (offset + 1) merkles
        | some r => do
          let merkles ← setIndex merkles offset (some (MerkleTreeParentBytes l r))
          buildLoopChainHash arraySize fuel (i + 2) (offset + 1) merkles
    else .ok merkles

/-- BuildMerkleTreeStoreChainHash has the same functionality as BuildMerkleTreeStore but
uses chainhash as a type to avoid string conversions. It has no error result. -/
def BuildMerkleTreeStoreChainHash (txids : List (Option (List Nat))) :
    Result (List (Option (List Nat))) :=
  let nextPoT := nextPowerOfTwo txids.length
  let arraySize : Int := (nextPoT : Int) * 2 - 1
  if arraySize < 0 then .error (.panic "makeslice: len out of range")
  else
    let merkles : List (Option (List Nat)) := List.replicate arraySize.toNat none
    let merkles := goCopy merkles txids
    let offset := nextPoT
    buildLoopChainHash arraySize.toNat arraySize.toNat 0 offset merkles

/-- The string slot that corresponds to a chainhash slot: empty for nil, else the
reversed-hex string of the hash. -/
def slotString : Option (List Nat) → List Nat
  | none => []
  | some h => hashString h

/-! ## Test vectors -/

/-- The path of `TestBuildingMerklePathBinary` (merkle_path_test.go). -/
def testMerklePath : MerklePath :=
  { Index := 136
    Path := some
      [str "6cf512411d03ab9b61643515e7aa9afd005bf29e1052ade95410b3475f02820c",
       str "cd73c0c6bb645581816fa960fd2f1636062fcbf23cb57981074ab8d708a76e3b",
       str "b4c8d919190a090e77b73ffcd52b85babaaeeb62da000473102aca7f070facef",
       str "3470d882cf556a4b943639eba15dc795dffdbebdc98b9a98e3637fda96e3811e"] }

/-- The binary form of `testMerklePath` expected by the test, as hex. -/
def testMerklePathHex : List Nat :=
  str "88040c82025f47b31054e9ad52109ef25b00fd9aaae7153564619bab031d4112f56c3b6ea708d7b84a07"
    ++ str "8179b53cf2cb2f0636162ffd60a96f81815564bbc6c073cdefac0f077fca2a10730400da62ebaebaba85"
    ++ str "2bd5fc3fb7770e090a1919d9c8b41e81e396da7f63e3989a8bc9bdbefddf95c75da1eb3936944b6a55cf"
    ++ str "82d87034"

/-- The 80-byte header of block 0 as hex (byte_manipulation_test.go). -/
def genesisHeaderHex : List Nat :=
  str "0100000000000000000000000000000000000000000000000000000000000000000000003ba3edfd7a7b"
    ++ str "12b27ac72c3e67768f617fc81bc3888a51323a9fb8aa4b1e5e4a29ab5f49ffff001d1dac2b7c"

/-! ## merkle_root.go: the root from a coinbase hash and its branches -/

/-- The loop `for i := 0; i < len(merkleBranches); i++` of BuildMerkleRootFromCoinbase:
`acc` is the accumulator, the list holds the branches still to visit. The error of
`hex.DecodeString` is dropped, what was decoded is used. -/
def buildMerkleRootFromCoinbaseLoop : List Nat → List (List Nat) → List Nat
  | acc, [] => acc
  | acc, merkleBranch :: rest =>
    let branch := (hexDecodeString merkleBranch).1
    let concat := acc ++ branch
    let hash := Sha256d concat
    buildMerkleRootFromCoinbaseLoop hash rest

/-- BuildMerkleRootFromCoinbase builds the merkle root of the block from the coinbase
transaction hash (txid) and the merkle branches needed to work up the merkle tree. -/
def BuildMerkleRootFromCoinbase (coinbaseHash : List Nat) (merkleBranches : List (List Nat)) :
    List Nat :=
  buildMerkleRootFromCoinbaseLoop coinbaseHash merkleBranches

/-! ## Compact target -/

/-- Modelled from the spec: `ExpandTargetFromAsInt` (difficulty.go is not among the
sources) expands the compact form given as hex: four bytes, a one-byte exponent `e` and a
three-byte big-endian mantissa `m`; the target is `m * 256 ^ (e - 3)` when `e ≥ 3`, else
`m` shifted right by `8 * (3 - e)` bits. Bits that do not decode to four bytes and a
mantissa with its top bit set are rejected with an error. -/
def ExpandTargetFromAsInt (bits : List Nat) : Result Int :=
  match hexDecodeString bits with
  | (_, some e) => .error (.error e)
  | (b, none) =>
    match b with
    | [e, m2, m1, m0] =>
      let m := m2 * 65536 + m1 * 256 + m0
      if 128 ≤ m2 then .error (.error (.new "invalid bits"))
      else if 3 ≤ e then .ok ((m * 256 ^ (e - 3) : Nat) : Int)
      else .ok ((m >>> (8 * (3 - e)) : Nat) : Int)
    | _ => .error (.error (.new "invalid bits"))

/-! ## Hex strings -/

/-- The pairs of characters of a string in reverse order; a single last character stays
where the pairs end. -/
def reversePairs : List Nat → List Nat
  | a :: b :: rest => reversePairs rest ++ [a, b]
  | rest => rest

/-- Modelled from the spec: `ReverseHexString` (byte_manipulation.go is not among the
sources) reverses a hex string two characters, one byte, at a time. A string of odd
length is first completed with a leading `0`, so that the dangling first nibble becomes
the last byte of the output: this is what the fixtures of TestReverseHexString fix
(`41039` gives `391004`). -/
def ReverseHexString (hex : List Nat) : List Nat :=
  if hex.length % 2 ≠ 0 then reversePairs (0x30 :: hex) else reversePairs hex

/-! ## mapi_callback.go -/

/-- MapiCallback is the body contents posted to the provided callback url from Merchant
API. -/
structure MapiCallback where
  CallbackPayload : List Nat
  APIVersion : List Nat
  Timestamp : List Nat
  MinerID : List Nat
  BlockHash : List Nat
  BlockHeight : Nat
  CallbackTxID : List Nat
  CallbackReason : List Nat
  deriving DecidableEq, Repr

/-- NewMapiCallbackFromBytes is a glorified JSON unmarshaller. `json.Unmarshal` into a
MapiCallback is a parameter: it yields the filled struct or an error. -/
def NewMapiCallbackFromBytes (jsonUnmarshal : List Nat → Except GoError MapiCallback)
    (b : List Nat) : Except GoError MapiCallback :=
  match jsonUnmarshal b with
  | .error err => .error err
  | .ok mapiCallback => .ok mapiCallback

/-- Method `Bytes` of MapiCallback, `json.Marshal(mcb)`: the eight fields in the order of
the struct under their tags. The string literal that `json.Marshal` writes for a Go
string is the parameter `quote`; the method is called on a pointer, and for the nil
pointer `json.Marshal` writes `null`. It cannot fail on this struct. -/
def MapiCallback.Bytes (quote : List Nat → List Nat) : Option MapiCallback → List Nat
  | none => str "null"
  | some mcb =>
    str "\x7b\"callbackPayload\":" ++ quote mcb.CallbackPayload
      ++ str ",\"apiVersion\":" ++ quote mcb.APIVersion
      ++ str ",\"timestamp\":" ++ quote mcb.Timestamp
      ++ str ",\"minerId\":" ++ quote mcb.MinerID
      ++ str ",\"blockHash\":" ++ quote mcb.BlockHash
      ++ str ",\"blockHeight\":" ++ (Nat.toDigits 10 mcb.BlockHeight).map Char.toNat
      ++ str ",\"callbackTxId\":" ++ quote mcb.CallbackTxID
      ++ str ",\"callbackReason\":" ++ quote mcb.CallbackReason
      ++ str "\x7d"

/-- The behaviour of `json.Unmarshal` into a MapiCallback on the object without members,
which leaves the zero value of the struct; other inputs are not covered by this
function and are rejected. -/
def unmarshalEmptyObject (b : List Nat) : Except GoError MapiCallback :=
  if b = str "\x7b\x7d" then .ok ⟨[], [], [], [], [], 0, [], []⟩
  else .error (.new "not covered")

/-- The string literal of `json.Marshal` for a string of plain bytes, which is copied
between two double quotes. -/
def quotePlain (s : List Nat) : List Nat := [0x22] ++ s ++ [0x22]

/-! ## spv/ancestry_tsc_json.go -/

/-- Modelled from the spec: the type `bc.MerkleProof` (merkle_proof.go is not among the
sources), with the fields that NewAncestryJSONFromBytes sets and the target type and
proof type of the JSON form. -/
structure MerkleProof where
  Index : Nat
  TxOrID : List Nat
  Target : List Nat
  Nodes : List (List Nat)
  TargetType : List Nat
  ProofType : List Nat
  deriving DecidableEq, Repr

/-- TSCAncestryJSON is one of the serial objects within the overall list of ancestors:
`Proof` is a pointer, `none` when nil; an element of `MapiResponses` is a pointer. -/
structure TSCAncestryJSON where
  RawTx : List Nat
  Proof : Option MerkleProof
  MapiResponses : List (Option MapiCallback)
  deriving DecidableEq, Repr

/-- Modelled from the spec: the tag of a raw transaction section (the constant is not
among the sources). -/
def flagTx : Nat := 1

/-- Modelled from the spec: the tag of a proof section (the constant is not among the
sources). -/
def flagProof : Nat := 2

/-- Modelled from the spec: the tag of a section of mapi responses (the constant is not
among the sources). -/
def flagMapi : Nat := 3

/-- The loop over `ancestor.MapiResponses` of TSCAncestriesJSON.Bytes; the error of
`mapiResponse.Bytes()` is always nil. -/
def mapiResponsesBytes (quote : List Nat → List Nat) :
    List (Option MapiCallback) → List Nat → List Nat
  | [], binaryTxContext => binaryTxContext
  | mapiResponse :: rest, binaryTxContext =>
    let mapiR := MapiCallback.Bytes quote mapiResponse
    let dataLength := mapiR.length
    let binaryTxContext := binaryTxContext ++ VarInt.Bytes dataLength
    let binaryTxContext := binaryTxContext ++ mapiR
    mapiResponsesBytes quote rest binaryTxContext

/-- The loop over the ancestors of TSCAncestriesJSON.Bytes. `proofBytes` is the method
`Bytes` of `bc.MerkleProof` (merkle_proof.go is not among the sources), a parameter that
returns the bytes of the proof, an error, or panics. -/
def ancestorsBytes (quote : List Nat → List Nat) (proofBytes : MerkleProof → Result (List Nat)) :
    List TSCAncestryJSON → List Nat → Result (List Nat)
  | [], binaryTxContext => .ok binaryTxContext
  | ancestor :: rest, binaryTxContext =>
    match hexDecodeString ancestor.RawTx with
    | (_, some err) => .error (.error err)
    | (rawTx, none) => do
      let length := rawTx.length
      let binaryTxContext := binaryTxContext ++ [flagTx]
      let binaryTxContext := binaryTxContext ++ VarInt.Bytes length
      let binaryTxContext := binaryTxContext ++ rawTx
      let binaryTxContext ←
        match ancestor.Proof with
        | some proof => do
          let rawProof ← proofBytes proof
          let length := rawProof.length
          let binaryTxContext := binaryTxContext ++ [flagProof]
          let binaryTxContext := binaryTxContext ++ VarInt.Bytes length
          pure (binaryTxContext ++ rawProof)
        | none => pure binaryTxContext
      let binaryTxContext :=
        if ancestor.MapiResponses.length > 0 then
          let binaryTxContext := binaryTxContext ++ [flagMapi]
          let numOfMapiResponses := ancestor.MapiResponses.length
          let binaryTxContext := binaryTxContext ++ VarInt.Bytes numOfMapiResponses
          mapiResponsesBytes quote ancestor.MapiResponses binaryTxContext
        else binaryTxContext
      ancestorsBytes quote proofBytes rest binaryTxContext

/-- Bytes take an AncestryJSON and return the serialized bytes: the version byte 1, then
the ancestors. -/
def TSCAncestriesJSON.Bytes (quote : List Nat → List Nat)
    (proofBytes : MerkleProof → Result (List Nat)) (j : List TSCAncestryJSON) :
    Result (List Nat) :=
  let binaryTxContext : List Nat := []
  let binaryTxContext := binaryTxContext ++ [1]
  ancestorsBytes quote proofBytes j binaryTxContext

/-- Modelled from the spec: the mask `targetTypeFlags` (the constant is not among the
sources) selects bits 1 and 2 of the flags byte, the target type. -/
def targetTypeFlags : Nat := 0x06

/-- The function flagProofType: the flags with bits 1 and 2 clear and the flags with bit
2 alone both give `blockhash`, bit 1 alone gives `header`, anything else the empty
string. -/
def flagProofType (flags : Nat) : List Nat :=
  let v := flags &&& targetTypeFlags
  if v = 0 ∨ v = 4 then str "blockhash"
  else if v = 2 then str "header"
  else []

/-- Modelled from the spec: an element of what `parseAncestry` returns (the type is not
among the sources), with the fields NewAncestryJSONFromBytes reads: the transaction, of
a type `τ` left open, the bytes of the proof, `none` when nil, and the mapi responses. -/
structure Ancestor (τ : Type) where
  Tx : τ
  Proof : Option (List Nat)
  MapiResponses : List (Option MapiCallback)

/-- Modelled from the spec: what `parseBinaryMerkleProof` returns (the type is not among
the sources), with the fields NewAncestryJSONFromBytes reads. -/
structure merkleProofBinary where
  index : Nat
  txOrID : List Nat
  target : List Nat
  nodes : List (List Nat)
  flags : Nat
  deriving DecidableEq, Repr

/-- The loop over the parsed ancestors of NewAncestryJSONFromBytes. The method `String`
of the transaction and `parseBinaryMerkleProof` (not among the sources) are parameters.
The proof that is built gets its `ProofType` from flagProofType; its `TargetType` is
not assigned and keeps the zero value. -/
def newAncestryLoop {τ : Type} (txString : τ → List Nat)
    (parseBinaryMerkleProof : List Nat → Result merkleProofBinary) :
    List (Ancestor τ) → List TSCAncestryJSON → Result (List TSCAncestryJSON)
  | [], ancestors => .ok ancestors
  | ancestor :: rest, ancestors =>
    let rawTx := txString ancestor.Tx
    let a : TSCAncestryJSON :=
      { RawTx := rawTx, Proof := none, MapiResponses := ancestor.MapiResponses }
    match ancestor.Proof with
    | some proof =>
      match parseBinaryMerkleProof proof with
      | .error err => .error err
      | .ok mpb =>
        let proof : MerkleProof :=
          { Index := mpb.index
            TxOrID := mpb.txOrID
            Target := mpb.target
            Nodes := mpb.nodes
            TargetType := []
            ProofType := flagProofType mpb.flags }
        let a := { a with Proof := some proof }
        newAncestryLoop txString parseBinaryMerkleProof rest (ancestors ++ [a])
    | none => newAncestryLoop txString parseBinaryMerkleProof rest (ancestors ++ [a])

/-- NewAncestryJSONFromBytes is a way to create the JSON format for Ancestry from the
binary format. `parseAncestry` (not among the sources) is a parameter. -/
def NewAncestryJSONFromBytes {τ : Type} (parseAncestry : List Nat → Result (List (Ancestor τ)))
    (txString : τ → List Nat) (parseBinaryMerkleProof : List Nat → Result merkleProofBinary)
    (b : List Nat) : Result (List TSCAncestryJSON) :=
  match parseAncestry b with
  | .error err => .error err
  | .ok ancestry =>
    let ancestors : List TSCAncestryJSON := []
    newAncestryLoop txString parseBinaryMerkleProof ancestry ancestors

/-! ## Positions in the linear array -/

/-- The index at which level `k` of a store with `2 ^ K` leaf slots starts: level 0
starts at 0, and level `k + 1` follows the `2 ^ (K - k)` slots of level `k`; the root,
level `K`, is the last slot. -/
def levelStart (K k : Nat) : Nat := 2 * 2 ^ K - 2 * 2 ^ (K - k)

/-- The path element of level `k` for the leaf `i` in the words of the specification:
the slot of the sibling of the ancestor of `i` at that level, at position
`(i >> k) xor 1` within the level, or the slot of the ancestor itself, at position
`i >> k`, when the sibling slot is the empty sentinel. -/
def pathEntry (tree : List (List Nat)) (K i k : Nat) : List Nat :=
  if tree.getD (levelStart K k + ((i >>> k) ^^^ 1)) [] = [] then
    tree.getD (levelStart K k + (i >>> k)) []
  else tree.getD (levelStart K k + ((i >>> k) ^^^ 1)) []

/-! ## block_header.go: the JSON form -/

/-- HashPrevBlockStr returns the hash of the previous block encoded as hex string. -/
def BlockHeader.HashPrevBlockStr (bh : BlockHeader) : List Nat :=
  hexEncodeToString bh.HashPrevBlock

/-- BitsStr returns the bits encoded as hex string. -/
def BlockHeader.BitsStr (bh : BlockHeader) : List Nat := hexEncodeToString bh.Bits

/-- Go `json.Marshal` of a bhJSON: the six fields in the order of the struct under their
tags, the numbers in decimal (`none` for a string that needs escaping, which this model
does not cover). -/
def bhJSON.Marshal (j : bhJSON) : Option (List Nat) :=
  match jsonString j.HashPrevBlock, jsonString j.HashMerkleRoot, jsonString j.Bits with
  | some hashPrevBlock, some hashMerkleRoot, some bits =>
    some (str "\x7b\"version\":" ++ (Nat.toDigits 10 j.Version).map Char.toNat
      ++ str ",\"time\":" ++ (Nat.toDigits 10 j.Time).map Char.toNat
      ++ str ",\"nonce\":" ++ (Nat.toDigits 10 j.Nonce).map Char.toNat
      ++ str ",\"hashPrevBlock\":" ++ hashPrevBlock
      ++ str ",\"merkleRoot\":" ++ hashMerkleRoot
      ++ str ",\"bits\":" ++ bits ++ str "\x7d")
  | _, _, _ => none

/-- The struct that MarshalJSON hands to `json.Marshal`. -/
def BlockHeader.toJSON (bh : BlockHeader) : bhJSON :=
  { Version := bh.Version
    Time := bh.Time
    Nonce := bh.Nonce
    Bits := bh.BitsStr
    HashMerkleRoot := bh.HashMerkleRootStr
    HashPrevBlock := bh.HashPrevBlockStr }

/-- MarshalJSON marshals the receiving bc.BlockHeader into a JSON []byte. -/
def BlockHeader.MarshalJSON (bh : BlockHeader) : Option (List Nat) :=
  bhJSON.Marshal bh.toJSON

/-- The header of block 0. -/
def genesisHeader : BlockHeader :=
  { Version := 1
    Time := 1231006505
    Nonce := 2083236893
    HashPrevBlock := List.replicate 32 0
    HashMerkleRoot := (hexDecodeString
      (str "4a5e1e4baab89f3a32518a88c31bc87f618f76673e2cc77ab2127b7afdeda33b")).1
    Bits := [0x1d, 0x00, 0xff, 0xff] }

/-! ## BUMP -/

/-- Modelled from the spec: a leaf of one level of a BUMP (bump.go is not among the
sources): its offset within the level, its flags (0 a real hash, 1 a duplicate, 2 the
client txid) and its hash, absent for a duplicate. -/
structure BUMPLeaf where
  offset : Nat
  flags : Nat
  hash : Option (List Nat)
  deriving DecidableEq, Repr

/-- Modelled from the spec: a BUMP (bump.go is not among the sources): the block height
and one list of leaves per tree level, level 0 first. -/
structure BUMP where
  BlockHeight : Nat
  Path : List (List BUMPLeaf)
  deriving DecidableEq, Repr

/-- The logarithm rounded up, `ceil(log2(n))` for `n ≥ 1`. -/
def ceilLog2 (n : Nat) : Nat :=
  if n &&& (n - 1) = 0 then floorLog2 n n else floorLog2 n n + 1

/-- Modelled from the spec: the siblings that NewBUMPFromMerkleTreeAndIndex emits, one
per tree level below the root. The first argument is the number of levels left; at the
level `height`, which starts at `levelOffset` of the flat array and has `numOfHashes`
slots, the sibling of the walked index is at the offset `(txIndex >> height) xor 1`; a
nil slot is a duplicate, written with flag 1 and no hash. -/
def bumpSiblings (merkleTree : List (Option (List Nat))) (txIndex : Nat) :
    Nat → Nat → Nat → Nat → Result (List BUMPLeaf)
  | 0, _, _, _ => .ok []
  | levels + 1, height, levelOffset, numOfHashes => do
    let offset := (txIndex >>> height) ^^^ 1
    let slot ← index merkleTree (levelOffset + offset)
    let thisLeaf : BUMPLeaf :=
      match slot with
      | none => { offset := offset, flags := 1, hash := none }
      | some h => { offset := offset, flags := 0, hash := some h }
    let rest ← bumpSiblings merkleTree txIndex levels (height + 1) (levelOffset + numOfHashes)
      (numOfHashes / 2)
    pure (thisLeaf :: rest)

/-- Modelled from the spec: NewBUMPFromMerkleTreeAndIndex (bump.go is not among the
sources). The flat array of `2 * P - 1` slots has `P` leaf slots and
`L = ceil(log2(P))` levels below the root; every such level gets the sibling needed for
the path, and level 0 also gets the leaf at the walked index with flag 2, its hash the
txid; the two leaves of level 0 are in ascending order of their offsets. An empty array
is rejected with an error. -/
def NewBUMPFromMerkleTreeAndIndex (blockHeight : Nat) (merkleTree : List (Option (List Nat)))
    (txIndex : Nat) : Result BUMP :=
  if merkleTree.length = 0 then .error (.error (.new "merkle tree is empty"))
  else do
    let slot ← index merkleTree txIndex
    match slot with
    | none => .error (.panic "invalid memory address or nil pointer dereference")
    | some txid =>
      let txidLeaf : BUMPLeaf := { offset := txIndex, flags := 2, hash := some txid }
      let leafCount := (merkleTree.length + 1) / 2
      let treeHeight := ceilLog2 leafCount
      let siblings ← bumpSiblings merkleTree txIndex treeHeight 0 0 leafCount
      match siblings with
      | [] => pure { BlockHeight := blockHeight, Path := [[txidLeaf]] }
      | sibling :: rest =>
        let level0 := if txIndex % 2 = 1 then [sibling, txidLeaf] else [txidLeaf, sibling]
        pure { BlockHeight := blockHeight, Path := level0 :: rest.map (fun l => [l]) }

/-- The number of leaves over all levels of a BUMP. -/
def BUMP.totalHashes (b : BUMP) : Nat := (b.Path.map List.length).sum

/-! ## The envelope creator -/

/-- Text of `ErrNoTxInputs` (spv/errors.go). -/
def errNoTxInputsMsg : String := "provided tx has no inputs to build ancestry from"

/-- Text of `ErrTxNotFound` (spv/errors.go). -/
def errTxNotFoundMsg : String := "tx not found"

/-- An error value with the given text. -/
def errorf (text : List Nat) : Fault := .error (.new (String.mk (text.map Char.ofNat)))

/-- Modelled from the spec: a transaction as the creator sees it (the type is of the
transaction library): its raw form as hex and the source txids of its inputs, in
order. -/
structure Tx where
  Raw : List Nat
  Inputs : List (List Nat)
  deriving DecidableEq, Repr

/-- Modelled from the spec: one ancestor of the output graph of CreateTxAncestry
(create_ancestry.go and ancestry_json.go are not among the sources): its txid, its raw
transaction, its proof if it has one, and the txids of its parents, which are empty
when the proof anchors it. -/
structure AncestryNode where
  TxID : List Nat
  RawTx : List Nat
  Proof : Option MerkleProof
  Parents : List (List Nat)
  deriving DecidableEq, Repr

/-- Modelled from the spec: the ancestry of a tip transaction, the nested form with
every ancestor kept once under its txid: the raw tip transaction, the txids of its
parents and the ancestors in the order in which they were visited. -/
structure AncestryJSON where
  RawTx : List Nat
  Parents : List (List Nat)
  Ancestors : List AncestryNode
  deriving DecidableEq, Repr

/-- Modelled from the spec: the breadth-first walk of CreateTxAncestry over the unique
ancestor txids. The queue holds the txids still to visit. A txid already visited is
skipped; else the transaction is fetched, then its proof; with a proof the ancestor is
kept and its inputs are not followed, without one its inputs join the queue. A lookup
that fails ends the walk with the error text that names the txid. The getters return
the text of their error, or the value, `none` for nil. -/
def ancestryWalk (getTx : List Nat → Except (List Nat) (Option Tx))
    (getProof : List Nat → Except (List Nat) (Option MerkleProof)) :
    Nat → List (List Nat) → List AncestryNode → Result (List AncestryNode)
  | _, [], visited => .ok visited
  | 0, _ :: _, _ => .error .fuel
  | fuel + 1, txid :: queue, visited =>
    if txid ∈ visited.map AncestryNode.TxID then ancestryWalk getTx getProof fuel queue visited
    else
      match getTx txid with
      | .error err => .error (errorf (str "failed to get tx " ++ txid ++ str ": " ++ err))
      | .ok none =>
        .error (errorf (str "could not find tx " ++ txid ++ str ": " ++ str errTxNotFoundMsg))
      | .ok (some tx) =>
        match getProof txid with
        | .error err =>
          .error (errorf (str "failed to get merkle proof for tx " ++ txid ++ str ": " ++ err))
        | .ok (some proof) =>
          ancestryWalk getTx getProof fuel queue
            (visited ++ [{ TxID := txid, RawTx := tx.Raw, Proof := some proof, Parents := [] }])
        | .ok none =>
          ancestryWalk getTx getProof fuel (queue ++ tx.Inputs)
            (visited ++ [{ TxID := txid, RawTx := tx.Raw, Proof := none, Parents := tx.Inputs }])

/-- Modelled from the spec: CreateTxAncestry (create_ancestry.go is not among the
sources). A tip without inputs is rejected with ErrNoTxInputs; else the ancestors are
walked from the inputs of the tip. The first argument bounds the number of steps of the
walk. -/
def CreateTxAncestry (getTx : List Nat → Except (List Nat) (Option Tx))
    (getProof : List Nat → Except (List Nat) (Option MerkleProof)) (fuel : Nat) (tx : Tx) :
    Result AncestryJSON :=
  if tx.Inputs = [] then .error (.error (.new errNoTxInputsMsg))
  else
    match ancestryWalk getTx getProof fuel tx.Inputs [] with
    | .error f => .error f
    | .ok ancestors => .ok { RawTx := tx.Raw, Parents := tx.Inputs, Ancestors := ancestors }

/-- An ancestor of the tip in the sense of the walk: a source txid of an input of the
tip, or of an input of an ancestor that was found and has no proof. -/
inductive IsAncestor (getTx : List Nat → Except (List Nat) (Option Tx))
    (getProof : List Nat → Except (List Nat) (Option MerkleProof)) (tip : Tx) : List Nat → Prop
  | input (txid : List Nat) : txid ∈ tip.Inputs → IsAncestor getTx getProof tip txid
  | parent (child txid : List Nat) (tx : Tx) : IsAncestor getTx getProof tip child →
      getTx child = .ok (some tx) → getProof child = .ok none → txid ∈ tx.Inputs →
      IsAncestor getTx getProof tip txid

/-- The error that names a failed lookup of `txid` in the words of the specification:
the transaction getter found nothing, the transaction getter returned the error `e`, or
the proof getter returned the error `e`. -/
def LookupFailure (getTx : List Nat → Except (List Nat) (Option Tx))
    (getProof : List Nat → Except (List Nat) (Option MerkleProof)) (txid : List Nat)
    (f : Fault) : Prop :=
  (getTx txid = .ok none ∧
    f = errorf (str "could not find tx " ++ txid ++ str ": tx not found")) ∨
  (∃ e, getTx txid = .error e ∧ f = errorf (str "failed to get tx " ++ txid ++ str ": " ++ e)) ∨
  (∃ e, getProof txid = .error e ∧
    f = errorf (str "failed to get merkle proof for tx " ++ txid ++ str ": " ++ e))

/-- A visited ancestor agrees with the getters: its transaction was found, its proof
is what the proof getter returned, and its parents are the inputs of the transaction
when it has no proof. -/
def NodeGood (getTx : List Nat → Except (List Nat) (Option Tx))
    (getProof : List Nat → Except (List Nat) (Option MerkleProof)) (n : AncestryNode) : Prop :=
  ∃ tx, getTx n.TxID = .ok (some tx) ∧ n.RawTx = tx.Raw ∧ getProof n.TxID = .ok n.Proof ∧
    (n.Proof = none → n.Parents = tx.Inputs)

/-- The invariant of the walk: the visited ancestors agree with the getters, the
parents of a visited ancestor without proof are visited or queued, and the queue holds
ancestors of the tip only. -/
def WalkInv (getTx : List Nat → Except (List Nat) (Option Tx))
    (getProof : List Nat → Except (List Nat) (Option MerkleProof)) (tip : Tx)
    (queue : List (List Nat)) (visited : List AncestryNode) : Prop :=
  (∀ n ∈ visited, NodeGood getTx getProof n) ∧
  (∀ n ∈ visited, n.Proof = none →
    ∀ p ∈ n.Parents, p ∈ visited.map AncestryNode.TxID ∨ p ∈ queue) ∧
  (∀ t ∈ queue, IsAncestor getTx getProof tip t)

/-- A tip transaction for the examples, with two inputs. -/
def sampleTip : Tx := ⟨str "00", [str "t1", str "t2"]⟩

/-- A transaction getter for the examples, after the overrides of
TestSPVEnvelopeCreateEnvelope: `t1` spends `t3`, and `t3` spends three transactions two
layers below the tip. With `mode` 0 the first of them is not found, with `mode` 1 the
lookup of the second returns the error `close but no cigar`, else all are found. -/
def sampleGetTx (mode : Nat) (txid : List Nat) : Except (List Nat) (Option Tx) :=
  if txid = str "t1" then .ok (some ⟨str "01", [str "t3"]⟩)
  else if txid = str "t2" then .ok (some ⟨str "02", [str "t9"]⟩)
  else if txid = str "t3" then
    .ok (some ⟨str "03",
      [str "a8e760210a8e3646ded829860745c60a2ade443d6998465dd0da5ae5f37b3b8e",
       str "8fff14aabcad6ebd1da2ce7737751e1e1e4c9c0d4c5b8abfef7e7914556d7965",
       str "3fa9a1a20c1f4dbd2c3dd5866749621ebe15c7290c13080ba0d45ab9c649cc15"]⟩)
  else if txid = str "a8e760210a8e3646ded829860745c60a2ade443d6998465dd0da5ae5f37b3b8e" then
    (if mode = 0 then .ok none else .ok (some ⟨str "04", []⟩))
  else if txid = str "8fff14aabcad6ebd1da2ce7737751e1e1e4c9c0d4c5b8abfef7e7914556d7965" then
    (if mode = 1 then .error (str "close but no cigar") else .ok (some ⟨str "05", []⟩))
  else if txid = str "3fa9a1a20c1f4dbd2c3dd5866749621ebe15c7290c13080ba0d45ab9c649cc15" then
    .ok (some ⟨str "06", []⟩)
  else .ok none

/-- A proof getter for the examples: `t1` and `t3` have no proof, the other
transactions have one; with `mode` 2 the lookup for the third transaction two layers
below the tip returns the error `oh no`. -/
def sampleGetProof (mode : Nat) (txid : List Nat) : Except (List Nat) (Option MerkleProof) :=
  if txid = str "t1" ∨ txid = str "t3" then .ok none
  else if mode = 2 ∧
      txid = str "3fa9a1a20c1f4dbd2c3dd5866749621ebe15c7290c13080ba0d45ab9c649cc15" then
    .error (str "oh no")
  else .ok (some ⟨0, txid, [], [], [], []⟩)

/-- The section of one ancestor in the words of the specification: tag 1, varint length
and bytes of the raw transaction; then, if a proof is present, tag 2, varint length and
bytes of the proof; then, if there is a mapi response, tag 3, the varint count and for
each response its varint length and its bytes. `pb` gives the bytes of a proof. -/
def ancestorSection (quote : List Nat → List Nat) (pb : MerkleProof → List Nat)
    (a : TSCAncestryJSON) : List Nat :=
  [0x01] ++ VarInt.Bytes (hexDecodeString a.RawTx).1.length ++ (hexDecodeString a.RawTx).1 ++
  (match a.Proof with
    | none => []
    | some p => [0x02] ++ VarInt.Bytes (pb p).length ++ pb p) ++
  (if a.MapiResponses.length = 0 then []
    else [0x03] ++ VarInt.Bytes a.MapiResponses.length ++
      a.MapiResponses.flatMap (fun r =>
        VarInt.Bytes (MapiCallback.Bytes quote r).length ++ MapiCallback.Bytes quote r))

/-- A stand-in for the method `Bytes` of `bc.MerkleProof` in the examples: the flags byte
0 and the varint of the index. -/
def sampleProofBytes (p : MerkleProof) : Result (List Nat) := .ok ([0x00] ++ VarInt.Bytes p.Index)

/-- Two ancestors for the examples: one with a proof and two mapi responses, the second
of them the nil pointer, and one with a raw transaction only. -/
def sampleAncestors : List TSCAncestryJSON :=
  [ { RawTx := str "abcd"
      Proof := some
        ⟨7, str "aa", str "bb", [], [], []⟩
      MapiResponses := [some ⟨[], [], [], [], [], 0, [], []⟩, none] },
    { RawTx := str "ff", Proof := none, MapiResponses := [] } ]

/-- The proof of the coinbase transaction of block 0 against the header of the block. -/
def genesisProof : MerkleProof :=
  { Index := 0
    TxOrID := str "4a5e1e4baab89f3a32518a88c31bc87f618f76673e2cc77ab2127b7afdeda33b"
    Target := genesisHeaderHex
    Nodes := []
    TargetType := str "header"
    ProofType := [] }

/-- The coinbase transaction of block 0 (byte_manipulation_test.go) with its proof. -/
def genesisAncestor : TSCAncestryJSON :=
  { RawTx :=
      str "01000000010000000000000000000000000000000000000000000000000000000000000000ffff"
        ++ str "ffff4d04ffff001d0104455468652054696d65732030332f4a616e2f32303039204368616e63"
        ++ str "656c6c6f72206f6e206272696e6b206f66207365636f6e64206261696c6f757420666f722062"
        ++ str "616e6b73ffffffff0100f2052a01000000434104678afdb0fe5548271967f1a67130b7105cd6"
        ++ str "a828e03909a67962e0ea1f61deb649f6bc3f4cef38c4f35504e51ec112de5c384df7ba0b8d57"
        ++ str "8a4c702b6bf11d5fac00000000"
    Proof := some genesisProof
    MapiResponses := [] }

/-- The list that holds the coinbase transaction of block 0 alone. -/
def genesisAncestors : List TSCAncestryJSON := [genesisAncestor]

/-- One step of the replay in the words of the specification: with the working hash `h`
and the index `idx`, a sibling `s` turns `h` into `merkle_parent(s, h)` when `idx` is odd
and into `merkle_parent(h, s)` when `idx` is even, and `idx` is halved. Hashes are in
natural byte order, the sibling is given in display hex. -/
def replayStep (st : List Nat × Nat) (sibling : List Nat) : List Nat × Nat :=
  (if st.2 % 2 = 1 then merkleParent (BytesFromStringReverse sibling) st.1
    else merkleParent st.1 (BytesFromStringReverse sibling), st.2 / 2)

/-- The eight txids of `TestGetMerklePath` (merkle_path_test.go). -/
def testTxids : List (List Nat) :=
  [str "b6d4d13aa08bb4b6cdb3b329cef29b5a5d55d85a85c330d56fddbce78d99c7d6",
   str "426f65f6a6ce79c909e54d8959c874a767db3076e76031be70942b896cc64052",
   str "adc23d36cc457d5847968c2e4d5f017a6f12a2f165102d10d2843f5276cfe68e",
   str "728714bbbddd81a54cae473835ae99eb92ed78191327eb11a9d7494273dcad2a",
   str "e3aa0230aa81abd483023886ad12790acf070e2a9f92d7f0ae3bebd90a904361",
   str "4848b9e94dd0e4f3173ebd6982ae7eb6b793de305d8450624b1d86c02a5c61d9",
   str "912f77eefdd311e24f96850ed8e701381fc4943327f9cf73f9c4dec0d93a056d",
   str "397fe2ae4d1d24efcc868a02daae42d1b419289d9a1ded3a5fe771efcc1219d9"]

/-- The tree store of the eight test txids; its last slot is the root expected by
`TestGetMerklePath`. -/
def testTree : List (List Nat) :=
  testTxids ++
  [str "8ca65cf483e1cb5e6088da15f168ce0393bd0ac32a07adac2240b166a4b2a581",
   str "1f6020d38cda93a9369a0a14b8a4d391db6cfb065ac0bb4cde41cbd3c50f408d",
   str "604c7c80374895b96108d43a58d4b1271656aca80751c53a063101417de04914",
   str "f46309558d8701efa4b7c1b00b62af694e2a5c6719d21bd43f7167c8e9d12fc0",
   str "39e5c80bad47d33ac369c2e4341b81b07821488dab75f4bc1651d3c3bf182a56",
   str "c9188c7de60e681ad4cede99a9b81e7a1ef358487fc089a8254af951c52aa846",
   str "1a1e779cd7dfc59f603b4e88842121001af822b2dc5d3b167ae66152e586a6b0"]

/-- The tree store of the first five test txids: three empty leaf slots, one empty
parent. -/
def testTreeOdd : List (List Nat) :=
  testTxids.take 5 ++ [[], [], [],
   str "8ca65cf483e1cb5e6088da15f168ce0393bd0ac32a07adac2240b166a4b2a581",
   str "1f6020d38cda93a9369a0a14b8a4d391db6cfb065ac0bb4cde41cbd3c50f408d",
   str "2182a138b398e9201b2cd95d1f48a3b609845d951c0da1ea057578d28dbc46d0",
   [],
   str "39e5c80bad47d33ac369c2e4341b81b07821488dab75f4bc1651d3c3bf182a56",
   str "32d5e77d321b34bc1ce48e18646c8545d86c6160c8bb592b857392d1756d5083",
   str "c1cc8a423bcb10f728ede8e7882458c464a9c5228d9b781cde90d38f16bb5ccf"]

/-- A linear array `m` is a Merkle tree store over `P` leaf slots: it has `2 * P - 1` slots
and slot `P + t` is the parent slot of slots `2 * t` and `2 * t + 1`. -/
def TreeRel (P : Nat) (m : List (List Nat)) : Prop :=
  m.length = 2 * P - 1 ∧
  ∀ t, t + 1 < P → ∃ l r p, m[2 * t]? = some l ∧ m[2 * t + 1]? = some r ∧
    m[P + t]? = some p ∧ parentSlot l r = .ok p

/-- The first `P` slots are lowercase hex strings (or empty), and the non-empty ones come
first. -/
def LevelOK (P : Nat) (m : List (List Nat)) : Prop :=
  ∀ t, t < P → ∀ s, m[t]? = some s →
    IsLowerHexStr s ∧ (s ≠ [] → ∀ u, u < t → ∀ v, m[u]? = some v → v ≠ [])

end Bc

namespace Bc

/-! ## Arithmetic of bytes and words -/

theorem or_shiftLeft_of_lt (a b i : Nat) (h : a < 2 ^ i) : a ||| b <<< i = a + b * 2 ^ i := by
  rw [Nat.or_comm, Nat.shiftLeft_eq, Nat.mul_comm b, ← Nat.mul_add_lt_is_or h b]
  omega

theorem littleEndianUint32_four (a b c d : Nat) (ha : a < 256) (hb : b < 256) (hc : c < 256)
    (hd : d < 256) :
    LittleEndianUint32 [a, b, c, d] = a + b * 2 ^ 8 + c * 2 ^ 16 + d * 2 ^ 24 := by
  unfold LittleEndianUint32
  simp only [List.getD_cons_zero, List.getD_cons_succ]
  rw [or_shiftLeft_of_lt a b 8 (by omega), or_shiftLeft_of_lt _ c 16 (by omega),
    or_shiftLeft_of_lt _ d 24 (by omega)]
  omega

theorem uint32ToBytes_four (a b c d : Nat) (ha : a < 256) (hb : b < 256) (hc : c < 256)
    (hd : d < 256) :
    UInt32ToBytes (a + b * 2 ^ 8 + c * 2 ^ 16 + d * 2 ^ 24) = [a, b, c, d] := by
  unfold UInt32ToBytes
  simp only [Nat.shiftRight_eq_div_pow]
  refine congrArg₂ _ (by omega) (congrArg₂ _ (by omega) (congrArg₂ _ (by omega)
    (congrArg₂ _ (by omega) rfl)))

theorem length_four {l : List Nat} (h : l.length = 4) :
    ∃ a b c d, l = [a, b, c, d] := by
  match l, h with
  | [a, b, c, d], _ => exact ⟨a, b, c, d, rfl⟩

theorem littleEndianUint32_eq (l : List Nat) (h : l.length = 4) (hb : IsBytes l) :
    LittleEndianUint32 l = littleEndianNat l := by
  obtain ⟨a, b, c, d, rfl⟩ := length_four h
  have ha := hb a (by simp)
  have hb2 := hb b (by simp)
  have hc := hb c (by simp)
  have hd := hb d (by simp)
  rw [littleEndianUint32_four a b c d ha hb2 hc hd]
  simp only [littleEndianNat]
  omega

theorem uint32ToBytes_littleEndianUint32 (l : List Nat) (h : l.length = 4) (hb : IsBytes l) :
    UInt32ToBytes (LittleEndianUint32 l) = l := by
  obtain ⟨a, b, c, d, rfl⟩ := length_four h
  have ha := hb a (by simp)
  have hb2 := hb b (by simp)
  have hc := hb c (by simp)
  have hd := hb d (by simp)
  rw [littleEndianUint32_four a b c d ha hb2 hc hd]
  exact uint32ToBytes_four a b c d ha hb2 hc hd

theorem littleEndianNat_uint32ToBytes (v : Nat) (h : v < 2 ^ 32) :
    littleEndianNat (UInt32ToBytes v) = v := by
  unfold UInt32ToBytes
  simp only [littleEndianNat, Nat.shiftRight_eq_div_pow]
  omega

theorem littleEndianUint32_lt (l : List Nat) : LittleEndianUint32 l < 2 ^ 32 := by
  unfold LittleEndianUint32
  exact Nat.mod_lt _ (by norm_num)

/-! ## Slices -/

theorem slice_length (b : List Nat) (lo hi : Nat) (h : hi ≤ b.length) :
    (slice b lo hi).length = hi - lo := by
  unfold slice
  simp only [List.length_take, List.length_drop]
  omega

theorem slice_append (b : List Nat) (lo mid hi : Nat) (h1 : lo ≤ mid) (h2 : mid ≤ hi) :
    slice b lo mid ++ slice b mid hi = slice b lo hi := by
  unfold slice
  have e : hi - lo = (mid - lo) + (hi - mid) := by omega
  rw [e, List.take_add, List.drop_drop]
  have e2 : lo + (mid - lo) = mid := by omega
  rw [e2]

theorem slice_all (b : List Nat) : slice b 0 b.length = b := by
  unfold slice
  simp

theorem isBytes_slice (b : List Nat) (lo hi : Nat) (hb : IsBytes b) : IsBytes (slice b lo hi) := by
  intro x hx
  unfold slice at hx
  exact hb x (List.mem_of_mem_drop (List.mem_of_mem_take hx))

theorem headerSlices (b : List Nat) (h : b.length = 80) :
    slice b 0 4 ++ slice b 4 36 ++ slice b 36 68 ++ slice b 68 72 ++ slice b 72 76
      ++ slice b 76 80 = b := by
  rw [slice_append b 0 4 36 (by omega) (by omega), slice_append b 0 36 68 (by omega) (by omega),
    slice_append b 0 68 72 (by omega) (by omega), slice_append b 0 72 76 (by omega) (by omega),
    slice_append b 0 76 80 (by omega) (by omega), ← h, slice_all]

/-! ## Block header codec -/

/-- The header that `NewBlockHeaderFromBytes` builds from 80 bytes. -/
theorem newBlockHeaderFromBytes_ok (b : List Nat) (hlen : b.length = 80) :
    NewBlockHeaderFromBytes b = .ok {
      Version := LittleEndianUint32 (slice b 0 4)
      HashPrevBlock := ReverseBytes (slice b 4 36)
      HashMerkleRoot := ReverseBytes (slice b 36 68)
      Time := LittleEndianUint32 (slice b 68 72)
      Bits := ReverseBytes (slice b 72 76)
      Nonce := LittleEndianUint32 (slice b 76 80) } := by
  simp only [NewBlockHeaderFromBytes, hlen, ne_eq, not_true_eq_false, if_false]

theorem newBlockHeaderFromBytes_err (b : List Nat) (hlen : b.length ≠ 80) :
    NewBlockHeaderFromBytes b = .error (.error (.new "block header should be 80 bytes long")) := by
  simp only [NewBlockHeaderFromBytes, hlen, ne_eq, not_false_eq_true, if_true]

/-- Claim C2: for every byte slice `b` of length 80, `NewBlockHeaderFromBytes b` succeeds
and `Bytes` of the returned header is `b` again. -/
theorem newBlockHeaderFromBytes_bytes_roundtrip (b : List Nat) (hlen : b.length = 80)
    (hb : IsBytes b) :
    ∃ h, NewBlockHeaderFromBytes b = .ok h ∧ h.Bytes = b := by
  refine ⟨_, newBlockHeaderFromBytes_ok b hlen, ?_⟩
  simp only [BlockHeader.Bytes, ReverseBytes, List.reverse_reverse, List.nil_append]
  rw [uint32ToBytes_littleEndianUint32 _ (slice_length b 0 4 (by omega)) (isBytes_slice b 0 4 hb),
    uint32ToBytes_littleEndianUint32 _ (slice_length b 68 72 (by omega))
      (isBytes_slice b 68 72 hb),
    uint32ToBytes_littleEndianUint32 _ (slice_length b 76 80 (by omega))
      (isBytes_slice b 76 80 hb)]
  exact headerSlices b hlen

/-- Witness of C2: the 80-byte slice `0, 1, …, 79`. -/
theorem newBlockHeaderFromBytes_bytes_roundtrip_witness :
    (List.range 80).length = 80 ∧ IsBytes (List.range 80) ∧
      ∃ h, NewBlockHeaderFromBytes (List.range 80) = .ok h ∧ h.Bytes = List.range 80 :=
  ⟨by decide, by decide,
    newBlockHeaderFromBytes_bytes_roundtrip (List.range 80) (by decide) (by decide)⟩

/-- Claim C3: `NewBlockHeaderFromBytes` returns an error, the one with the text
"block header should be 80 bytes long", if and only if the input length is not 80; an
input of length 80 gives a header and no error, any other length gives no header. -/
theorem newBlockHeaderFromBytes_error_iff (b : List Nat) :
    ((∃ f, NewBlockHeaderFromBytes b = .error f) ↔ b.length ≠ 80) ∧
    (NewBlockHeaderFromBytes b = .error (.error (.new errInvalidBlockHeaderLengthMsg))
      ↔ b.length ≠ 80) ∧
    ((∃ h, NewBlockHeaderFromBytes b = .ok h) ↔ b.length = 80) := by
  by_cases hlen : b.length = 80
  · have e := newBlockHeaderFromBytes_ok b hlen
    refine ⟨?_, ?_, ?_⟩
    · constructor
      · rintro ⟨f, hf⟩
        rw [e] at hf
        cases hf
      · intro h
        exact absurd hlen h
    · constructor
      · intro hf
        rw [e] at hf
        cases hf
      · intro h
        exact absurd hlen h
    · exact ⟨fun _ => hlen, fun _ => ⟨_, e⟩⟩
  · have e := newBlockHeaderFromBytes_err b hlen
    refine ⟨?_, ?_, ?_⟩
    · exact ⟨fun _ => hlen, fun _ => ⟨_, e⟩⟩
    · exact ⟨fun _ => hlen, fun _ => e⟩
    · constructor
      · rintro ⟨h, hh⟩
        rw [e] at hh
        cases hh
      · intro h
        exact absurd h hlen

/-- Claim C4: for every 80-byte input `b` the parsed header has Version, Time and Nonce
equal to the little-endian u32 of `b[0..4)`, `b[68..72)`, `b[76..80)`, and HashPrevBlock,
HashMerkleRoot and Bits equal to the byte-reverse of `b[4..36)`, `b[36..68)`, `b[72..76)`;
and `Bytes` of any header lays out, in this order, the four little-endian bytes of Version,
the reversed HashPrevBlock, the reversed HashMerkleRoot, the four bytes of Time, the
reversed Bits and the four bytes of Nonce. -/
theorem newBlockHeaderFromBytes_layout (b : List Nat) (hlen : b.length = 80) (hb : IsBytes b) :
    (∃ h, NewBlockHeaderFromBytes b = .ok h ∧
      h.Version = littleEndianNat (slice b 0 4) ∧
      h.HashPrevBlock = (slice b 4 36).reverse ∧
      h.HashMerkleRoot = (slice b 36 68).reverse ∧
      h.Time = littleEndianNat (slice b 68 72) ∧
      h.Bits = (slice b 72 76).reverse ∧
      h.Nonce = littleEndianNat (slice b 76 80) ∧
      h.Version < 2 ^ 32 ∧ h.Time < 2 ^ 32 ∧ h.Nonce < 2 ^ 32) ∧
    (∀ h : BlockHeader,
      h.Bytes = UInt32ToBytes h.Version ++ h.HashPrevBlock.reverse ++ h.HashMerkleRoot.reverse
        ++ UInt32ToBytes h.Time ++ h.Bits.reverse ++ UInt32ToBytes h.Nonce ∧
      (UInt32ToBytes h.Version).length = 4 ∧ (UInt32ToBytes h.Time).length = 4 ∧
      (UInt32ToBytes h.Nonce).length = 4 ∧
      (h.Version < 2 ^ 32 → littleEndianNat (UInt32ToBytes h.Version) = h.Version) ∧
      (h.Time < 2 ^ 32 → littleEndianNat (UInt32ToBytes h.Time) = h.Time) ∧
      (h.Nonce < 2 ^ 32 → littleEndianNat (UInt32ToBytes h.Nonce) = h.Nonce)) := by
  refine ⟨⟨_, newBlockHeaderFromBytes_ok b hlen, ?_, rfl, rfl, ?_, rfl, ?_,
    littleEndianUint32_lt _, littleEndianUint32_lt _, littleEndianUint32_lt _⟩, ?_⟩
  · exact littleEndianUint32_eq _ (slice_length b 0 4 (by omega)) (isBytes_slice b 0 4 hb)
  · exact littleEndianUint32_eq _ (slice_length b 68 72 (by omega)) (isBytes_slice b 68 72 hb)
  · exact littleEndianUint32_eq _ (slice_length b 76 80 (by omega)) (isBytes_slice b 76 80 hb)
  · intro h
    refine ⟨?_, rfl, rfl, rfl, littleEndianNat_uint32ToBytes _, littleEndianNat_uint32ToBytes _,
      littleEndianNat_uint32ToBytes _⟩
    simp only [BlockHeader.Bytes, ReverseBytes, List.nil_append]

/-- Witness of C4: the 80-byte slice `0, 1, …, 79`. -/
theorem newBlockHeaderFromBytes_layout_witness :
    (∃ h, NewBlockHeaderFromBytes (List.range 80) = .ok h ∧
      h.Version = littleEndianNat (slice (List.range 80) 0 4) ∧
      h.HashPrevBlock = (slice (List.range 80) 4 36).reverse ∧
      h.HashMerkleRoot = (slice (List.range 80) 36 68).reverse ∧
      h.Time = littleEndianNat (slice (List.range 80) 68 72) ∧
      h.Bits = (slice (List.range 80) 72 76).reverse ∧
      h.Nonce = littleEndianNat (slice (List.range 80) 76 80) ∧
      h.Version < 2 ^ 32 ∧ h.Time < 2 ^ 32 ∧ h.Nonce < 2 ^ 32) :=
  (newBlockHeaderFromBytes_layout (List.range 80) (by decide) (by decide)).1

end Bc

namespace Bc

/-! ## Proof of work -/

theorem bigIntSetBytes_reverse (l : List Nat) :
    bigIntSetBytes l.reverse = littleEndianNat l := by
  unfold bigIntSetBytes
  rw [List.foldl_reverse]
  induction l with
  | nil => rfl
  | cons x rest ih =>
    simp only [List.foldr_cons, littleEndianNat, ih]
    omega

/-- Claim C5: for every header `h`, `Valid` is true exactly when expanding the compact
target from the hex of `h.Bits` succeeds with a target `t` and the byte-reversed Hash256 of
`h.Bytes`, read as a big-endian unsigned integer (the digest read little-endian), is strictly
below `t`; a digest equal to the target gives false, and an error of the expansion gives
false, not a failure. -/
theorem valid_iff (ExpandTargetFromAsInt : List Nat → Result Int) (h : BlockHeader) :
    (h.Valid ExpandTargetFromAsInt = .ok true ↔
      ∃ t, ExpandTargetFromAsInt (hexEncodeToString h.Bits) = .ok t ∧
        ((bigIntSetBytes (ReverseBytes (Sha256d h.Bytes)) : Nat) : Int) < t) ∧
    bigIntSetBytes (ReverseBytes (Sha256d h.Bytes)) = littleEndianNat (Sha256d h.Bytes) ∧
    (∀ t, ExpandTargetFromAsInt (hexEncodeToString h.Bits) = .ok t →
      ((bigIntSetBytes (ReverseBytes (Sha256d h.Bytes)) : Nat) : Int) = t →
      h.Valid ExpandTargetFromAsInt = .ok false) ∧
    (∀ e, ExpandTargetFromAsInt (hexEncodeToString h.Bits) = .error (.error e) →
      h.Valid ExpandTargetFromAsInt = .ok false) := by
  refine ⟨?_, bigIntSetBytes_reverse _, ?_, ?_⟩
  · unfold BlockHeader.Valid
    cases hx : ExpandTargetFromAsInt (hexEncodeToString h.Bits) with
    | error f =>
      cases f <;> simp
    | ok t =>
      simp
  · intro t ht heq
    unfold BlockHeader.Valid
    rw [ht]
    simp [heq]
  · intro e he
    unfold BlockHeader.Valid
    rw [he]

/-! ## Hex encoding -/

theorem fromHexChar_hexDigit : ∀ d, d < 16 → fromHexChar (hexDigit d) = some d := by decide

set_option maxRecDepth 100000 in
theorem nibbles_join : ∀ v, v < 256 → (v >>> 4) <<< 4 ||| (v &&& 0x0f) = v := by decide

set_option maxRecDepth 100000 in
theorem nibble_hi_lt : ∀ v, v < 256 → v >>> 4 < 16 := by decide

theorem nibble_lo_lt (v : Nat) : v &&& 0x0f < 16 := by
  have := Nat.and_pow_two_sub_one_eq_mod v 4
  norm_num at this
  omega

theorem hexEncodeToString_cons (v : Nat) (b : List Nat) :
    hexEncodeToString (v :: b) =
      hexDigit (v >>> 4) :: hexDigit (v &&& 0x0f) :: hexEncodeToString b := by
  simp [hexEncodeToString]

theorem hexEncodeToString_length (b : List Nat) : (hexEncodeToString b).length = 2 * b.length := by
  induction b with
  | nil => rfl
  | cons v b ih => rw [hexEncodeToString_cons]; simp only [List.length_cons, ih]; omega

theorem hexDecodeString_hexEncodeToString (b : List Nat) (hb : IsBytes b) :
    hexDecodeString (hexEncodeToString b) = (b, none) := by
  induction b with
  | nil => rfl
  | cons v b ih =>
    have hv : v < 256 := hb v (by simp)
    have ih2 := ih (fun x hx => hb x (List.mem_cons_of_mem _ hx))
    rw [hexEncodeToString_cons, hexDecodeString, fromHexChar_hexDigit _ (nibble_hi_lt v hv),
      fromHexChar_hexDigit _ (nibble_lo_lt v)]
    simp only [ih2, nibbles_join v hv]

theorem isLowerHex_hexDigit : ∀ d, d < 16 → isLowerHex (hexDigit d) = true := by decide

theorem hexEncodeToString_lower (b : List Nat) (hb : IsBytes b) :
    IsLowerHexStr (hexEncodeToString b) := by
  constructor
  · rw [hexEncodeToString_length]; omega
  · induction b with
    | nil => intro c hc; cases hc
    | cons v b ih =>
      have hv : v < 256 := hb v (by simp)
      intro c hc
      rw [hexEncodeToString_cons] at hc
      rcases List.mem_cons.1 hc with rfl | hc
      · exact isLowerHex_hexDigit _ (nibble_hi_lt v hv)
      rcases List.mem_cons.1 hc with rfl | hc
      · exact isLowerHex_hexDigit _ (nibble_lo_lt v)
      · exact ih (fun x hx => hb x (List.mem_cons_of_mem _ hx)) c hc

set_option maxRecDepth 100000 in
theorem lowerHex_value : ∀ c, c < 103 → isLowerHex c = true →
    ∃ a, a < 16 ∧ fromHexChar c = some a ∧ hexDigit a = c := by decide

theorem isLowerHex_lt (c : Nat) (h : isLowerHex c = true) : c < 103 := by
  unfold isLowerHex at h
  simp at h
  omega

set_option maxRecDepth 100000 in
theorem nibbles_split : ∀ a, a < 16 → ∀ b, b < 16 →
    (a <<< 4 ||| b) >>> 4 = a ∧ (a <<< 4 ||| b) &&& 0x0f = b ∧ (a <<< 4 ||| b) < 256 := by
  decide

/-- Decoding a lowercase hex string of even length succeeds, gives bytes, and encoding
them gives the string back. -/
theorem hexDecodeString_lower : ∀ (n : Nat) (s : List Nat), s.length ≤ n → IsLowerHexStr s →
    (hexDecodeString s).2 = none ∧ hexEncodeToString (hexDecodeString s).1 = s ∧
      IsBytes (hexDecodeString s).1 ∧ 2 * (hexDecodeString s).1.length = s.length := by
  intro n
  induction n with
  | zero =>
    intro s hn _
    have : s = [] := List.length_eq_zero.1 (by omega)
    subst this
    exact ⟨rfl, rfl, (by intro x hx; cases hx), rfl⟩
  | succ n ih =>
    intro s hn hs
    match s, hn, hs with
    | [], _, _ => exact ⟨rfl, rfl, (by intro x hx; cases hx), rfl⟩
    | [p], _, hs => exact absurd hs.1 (by simp)
    | p :: q :: rest, hn, hs =>
      have hp := hs.2 p (by simp)
      have hq := hs.2 q (by simp)
      obtain ⟨a, ha, hap, hda⟩ := lowerHex_value p (isLowerHex_lt p hp) hp
      obtain ⟨b, hb, hbq, hdb⟩ := lowerHex_value q (isLowerHex_lt q hq) hq
      have hrest : IsLowerHexStr rest := by
        refine ⟨?_, fun c hc => hs.2 c (by simp [hc])⟩
        have := hs.1
        simp only [List.length_cons] at this
        omega
      obtain ⟨h1, h2, h3, h4⟩ := ih rest (by simp only [List.length_cons] at hn; omega) hrest
      obtain ⟨s1, s2, s3⟩ := nibbles_split a ha b hb
      rw [hexDecodeString, hap, hbq]
      refine ⟨h1, ?_, ?_, ?_⟩
      · rw [hexEncodeToString_cons, s1, s2, hda, hdb, h2]
      · intro x hx
        rcases List.mem_cons.1 hx with rfl | hx
        · exact s3
        · exact h3 x hx
      · simp only [List.length_cons]
        omega

/-! ## SHA-256 output -/

theorem sha256Round_length (s : List Nat) (kw : Nat × Nat) (h : s.length = 8) :
    (sha256Round s kw).length = 8 := by
  match s, h with
  | [a, b, c, d, e, f, g, h], _ => rfl

theorem sha256_foldl_length (l : List (Nat × Nat)) (s : List Nat) (h : s.length = 8) :
    (l.foldl sha256Round s).length = 8 := by
  induction l generalizing s with
  | nil => exact h
  | cons kw l ih => exact ih _ (sha256Round_length s kw h)

theorem sha256Block_length (st block : List Nat) (h : st.length = 8) :
    (sha256Block st block).length = 8 := by
  unfold sha256Block
  simp only [List.length_zipWith, sha256_foldl_length _ st h, h]
  rfl

theorem sha256Blocks_length (n : Nat) (st data : List Nat) (h : st.length = 8) :
    (sha256Blocks n st data).length = 8 := by
  induction n generalizing st data with
  | zero => exact h
  | succ n ih => exact ih _ _ (sha256Block_length st _ h)

theorem flatMap_be32Bytes_length (l : List Nat) : (l.flatMap be32Bytes).length = 4 * l.length := by
  induction l with
  | nil => rfl
  | cons w l ih => simp only [List.flatMap_cons, List.length_append, ih, be32Bytes,
      List.length_cons, List.length_nil]; omega

theorem flatMap_be32Bytes_isBytes (l : List Nat) : IsBytes (l.flatMap be32Bytes) := by
  intro x hx
  simp only [List.mem_flatMap, be32Bytes, List.mem_cons, List.mem_singleton] at hx
  obtain ⟨w, _, hw⟩ := hx
  simp only [List.not_mem_nil, or_false] at hw
  rcases hw with rfl | rfl | rfl | rfl <;> exact Nat.mod_lt _ (by norm_num)

theorem sha256_length (msg : List Nat) : (sha256 msg).length = 32 := by
  unfold sha256
  simp only [flatMap_be32Bytes_length, sha256Blocks_length _ sha256Init _ rfl]

theorem sha256_isBytes (msg : List Nat) : IsBytes (sha256 msg) := by
  unfold sha256
  exact flatMap_be32Bytes_isBytes _

/-! ## nextPowerOfTwo -/

theorem and_pred_eq_zero_iff : ∀ n, 0 < n → (n &&& (n - 1) = 0 ↔ ∃ k, n = 2 ^ k) := by
  intro n
  induction n using Nat.strong_induction_on with
  | _ n ih =>
    intro hn
    have hdiv : (n &&& (n - 1)) / 2 = n / 2 &&& (n - 1) / 2 := Nat.and_div_two
    have hmod : (n &&& (n - 1)) % 2 = 0 := by
      by_contra hne
      have h1 : (n &&& (n - 1)) % 2 = 1 := by omega
      rw [Nat.and_mod_two_eq_one] at h1
      omega
    have hz : (n &&& (n - 1) = 0) ↔ (n / 2 &&& (n - 1) / 2) = 0 := by
      rw [← hdiv]; omega
    rw [hz]
    rcases Nat.even_or_odd n with ⟨m, hm⟩ | ⟨m, hm⟩
    · have hm0 : 0 < m := by omega
      have e1 : n / 2 = m := by omega
      have e2 : (n - 1) / 2 = m - 1 := by omega
      rw [e1, e2, ih m (by omega) hm0]
      constructor
      · rintro ⟨k, hk⟩
        exact ⟨k + 1, by rw [pow_succ]; omega⟩
      · rintro ⟨k, hk⟩
        cases k with
        | zero => omega
        | succ k => exact ⟨k, by rw [pow_succ] at hk; omega⟩
    · have e1 : n / 2 = m := by omega
      have e2 : (n - 1) / 2 = m := by omega
      rw [e1, e2, Nat.and_self]
      constructor
      · intro h0
        exact ⟨0, by simp; omega⟩
      · rintro ⟨k, hk⟩
        cases k with
        | zero => simp at hk; omega
        | succ k => rw [pow_succ] at hk; omega

theorem floorLog2_eq_log2 : ∀ fuel n, n ≤ fuel → floorLog2 fuel n = Nat.log2 n := by
  intro fuel
  induction fuel with
  | zero =>
    intro n hn
    have : n = 0 := by omega
    subst this
    rw [floorLog2, Nat.log2_zero]
  | succ fuel ih =>
    intro n hn
    rw [floorLog2, Nat.log2]
    by_cases h : 2 ≤ n
    · rw [if_pos h, if_pos h, ih (n / 2) (by omega)]
    · rw [if_neg h, if_neg h]

/-- For `n ≥ 1`, `nextPowerOfTwo n` is the smallest power of two that is at least `n`. -/
theorem nextPowerOfTwo_spec (n : Nat) (hn : 0 < n) :
    ∃ k, nextPowerOfTwo n = 2 ^ k ∧ n ≤ 2 ^ k ∧ ∀ j, n ≤ 2 ^ j → k ≤ j := by
  unfold nextPowerOfTwo
  rw [floorLog2_eq_log2 n n (le_refl n)]
  by_cases h : n &&& (n - 1) = 0
  · obtain ⟨k, hk⟩ := (and_pred_eq_zero_iff n hn).1 h
    refine ⟨k, by simp [h, hk], by omega, ?_⟩
    intro j hj
    rw [hk] at hj
    exact (Nat.pow_le_pow_iff_right (by norm_num)).1 hj
  · have hlo : 2 ^ n.log2 ≤ n := Nat.log2_self_le (by omega)
    have hhi : n < 2 ^ (n.log2 + 1) := Nat.lt_log2_self
    have hne : n ≠ 2 ^ n.log2 := fun e => h ((and_pred_eq_zero_iff n hn).2 ⟨_, e⟩)
    refine ⟨n.log2 + 1, by simp [h, Nat.shiftLeft_eq], by omega, ?_⟩
    intro j hj
    by_contra hlt
    have : 2 ^ j ≤ 2 ^ n.log2 := Nat.pow_le_pow_right (by norm_num) (by omega)
    omega

end Bc

namespace Bc

/-! ## Checked indexing -/

theorem index_of_getElem? {α : Type} (xs : List α) (i : Nat) (x : α) (h : xs[i]? = some x) :
    index xs i = .ok x := by
  unfold index
  rw [h]

theorem setIndex_of_lt {α : Type} (xs : List α) (i : Nat) (v : α) (h : i < xs.length) :
    setIndex xs i v = .ok (xs.set i v) := by
  unfold setIndex
  rw [if_pos h]

theorem getElem?_of_lt {α : Type} (xs : List α) (i : Nat) (h : i < xs.length) :
    ∃ x, xs[i]? = some x := ⟨xs[i], List.getElem?_eq_getElem h⟩

/-! ## Parents of hex strings -/

theorem merkleTreeParentStr_ok (l r : List Nat) (hl : (hexDecodeString l).2 = none)
    (hr : (hexDecodeString r).2 = none) : MerkleTreeParentStr l r = .ok (parentStr l r) := by
  unfold MerkleTreeParentStr parentStr StringFromBytesReverse BytesFromStringReverse
  rcases hdl : hexDecodeString l with ⟨a, e⟩
  rcases hdr : hexDecodeString r with ⟨b, f⟩
  rw [hdl] at hl
  rw [hdr] at hr
  simp only at hl hr
  subst hl hr
  rfl

theorem sha256d_isBytes (b : List Nat) : IsBytes (Sha256d b) := sha256_isBytes _

theorem isBytes_reverse (b : List Nat) (h : IsBytes b) : IsBytes b.reverse :=
  fun x hx => h x (List.mem_reverse.1 hx)

theorem bytes_parentStr (l r : List Nat) :
    BytesFromStringReverse (parentStr l r) =
      merkleParent (BytesFromStringReverse l) (BytesFromStringReverse r) := by
  unfold parentStr StringFromBytesReverse
  generalize hx : merkleParent (BytesFromStringReverse l) (BytesFromStringReverse r) = x
  have hb : IsBytes x := by rw [← hx]; exact sha256d_isBytes _
  unfold BytesFromStringReverse ReverseBytes
  rw [hexDecodeString_hexEncodeToString _ (isBytes_reverse x hb)]
  exact List.reverse_reverse x

theorem parentStr_lower (l r : List Nat) : IsLowerHexStr (parentStr l r) := by
  unfold parentStr StringFromBytesReverse ReverseBytes
  exact hexEncodeToString_lower _ (isBytes_reverse _ (sha256d_isBytes _))

theorem parentStr_length (l r : List Nat) : (parentStr l r).length = 64 := by
  unfold parentStr StringFromBytesReverse ReverseBytes merkleParent Sha256d
  rw [hexEncodeToString_length, List.length_reverse, sha256_length]

theorem parentStr_ne_nil (l r : List Nat) : parentStr l r ≠ [] := by
  intro h
  have := parentStr_length l r
  rw [h] at this
  cases this

theorem decode_ok_of_lower (s : List Nat) (h : IsLowerHexStr s) : (hexDecodeString s).2 = none :=
  (hexDecodeString_lower s.length s (le_refl _) h).1

theorem stringFromBytesReverse_bytes (s : List Nat) (h : IsLowerHexStr s) :
    StringFromBytesReverse (BytesFromStringReverse s) = s := by
  unfold StringFromBytesReverse BytesFromStringReverse ReverseBytes
  rw [List.reverse_reverse]
  exact (hexDecodeString_lower s.length s (le_refl _) h).2.1

theorem isLowerHexStr_of_isTxid (s : List Nat) (h : IsTxid s) : IsLowerHexStr s :=
  ⟨by rw [h.1], h.2⟩

theorem ne_nil_of_isTxid (s : List Nat) (h : IsTxid s) : s ≠ [] := by
  intro e
  have := h.1
  rw [e] at this
  cases this

/-- The parent slot of two lowercase hex slots. -/
theorem parentSlot_lower (l r : List Nat) (hl : IsLowerHexStr l) (hr : IsLowerHexStr r) :
    ∃ p, parentSlot l r = .ok p ∧ IsLowerHexStr p ∧ (l = [] → p = []) ∧
      (l ≠ [] → r = [] → p = parentStr l l) ∧ (l ≠ [] → r ≠ [] → p = parentStr l r) ∧
      (l ≠ [] → p ≠ []) := by
  unfold parentSlot
  by_cases h1 : l = []
  · exact ⟨[], by rw [if_pos h1], ⟨rfl, fun c hc => by cases hc⟩, fun _ => rfl,
      fun h => absurd h1 h, fun h => absurd h1 h, fun h => absurd h1 h⟩
  · by_cases h2 : r = []
    · refine ⟨parentStr l l, ?_, parentStr_lower l l, fun h => absurd h h1, fun _ _ => rfl,
        fun _ h => absurd h2 h, fun _ => parentStr_ne_nil l l⟩
      rw [if_neg h1, if_pos h2]
      exact merkleTreeParentStr_ok l l (decode_ok_of_lower l hl) (decode_ok_of_lower l hl)
    · refine ⟨parentStr l r, ?_, parentStr_lower l r, fun h => absurd h h1,
        fun _ h => absurd h h2, fun _ _ => rfl, fun _ => parentStr_ne_nil l r⟩
      rw [if_neg h1, if_neg h2]
      exact merkleTreeParentStr_ok l r (decode_ok_of_lower l hl) (decode_ok_of_lower r hr)

/-! ## The loop of BuildMerkleTreeStore -/

/-- One iteration of the loop: it reads slots `2 * j` and `2 * j + 1` and writes their
parent slot at `P + j`. -/
theorem buildLoop_step (P j fuel : Nat) (m : List (List Nat)) (hlen : m.length = 2 * P - 1)
    (hj : j + 1 < P) :
    ∃ l r, m[2 * j]? = some l ∧ m[2 * j + 1]? = some r ∧
      buildLoop (2 * P - 1) (fuel + 1) (2 * j) (P + j) m =
        (parentSlot l r >>= fun p =>
          buildLoop (2 * P - 1) fuel (2 * (j + 1)) (P + (j + 1)) (m.set (P + j) p)) := by
  obtain ⟨l, hl⟩ := getElem?_of_lt m (2 * j) (by omega)
  obtain ⟨r, hr⟩ := getElem?_of_lt m (2 * j + 1) (by omega)
  refine ⟨l, r, hl, hr, ?_⟩
  have hc : 2 * j < 2 * P - 1 - 1 := by omega
  have hs : ∀ v, setIndex m (P + j) v = .ok (m.set (P + j) v) :=
    fun v => setIndex_of_lt m _ v (by omega)
  rw [buildLoop, if_pos hc, index_of_getElem? m _ l hl]
  unfold parentSlot
  by_cases h1 : l = []
  · simp only [h1, if_true, hs]
    rfl
  · simp only [bind, Except.bind, h1, if_false, index_of_getElem? m _ r hr]
    by_cases h2 : r = []
    · simp only [h2, if_true, hs]
      cases MerkleTreeParentStr l l <;> rfl
    · simp only [h2, if_false, hs]
      cases MerkleTreeParentStr l r <;> rfl

theorem buildLoop_exit (P j fuel : Nat) (m : List (List Nat)) (hj : ¬ j + 1 < P) :
    buildLoop (2 * P - 1) fuel (2 * j) (P + j) m = .ok m := by
  have hc : ¬ 2 * j < 2 * P - 1 - 1 := by omega
  cases fuel with
  | zero => rw [buildLoop, if_neg hc]
  | succ fuel => rw [buildLoop, if_neg hc]

/-- What a successful run of the loop leaves in the array. -/
theorem buildLoop_rel (P : Nat) : ∀ (fuel j : Nat) (m m' : List (List Nat)),
    m.length = 2 * P - 1 →
    buildLoop (2 * P - 1) fuel (2 * j) (P + j) m = .ok m' →
    m'.length = 2 * P - 1 ∧ (∀ t, t < P + j → m'[t]? = m[t]?) ∧
    ∀ t, j ≤ t → t + 1 < P → ∃ l r p, m'[2 * t]? = some l ∧ m'[2 * t + 1]? = some r ∧
      m'[P + t]? = some p ∧ parentSlot l r = .ok p := by
  intro fuel
  induction fuel with
  | zero =>
    intro j m m' hlen hrun
    by_cases hj : j + 1 < P
    · have hc : 2 * j < 2 * P - 1 - 1 := by omega
      rw [buildLoop, if_pos hc] at hrun
      cases hrun
    · rw [buildLoop_exit P j 0 m hj] at hrun
      cases hrun
      exact ⟨hlen, fun _ _ => rfl, fun t h1 h2 => absurd h2 (by omega)⟩
  | succ fuel ih =>
    intro j m m' hlen hrun
    by_cases hj : j + 1 < P
    · obtain ⟨l, r, hl, hr, hstep⟩ := buildLoop_step P j fuel m hlen hj
      rw [hstep] at hrun
      cases hp : parentSlot l r with
      | error f =>
        rw [hp] at hrun
        cases hrun
      | ok p =>
        rw [hp] at hrun
        have hrun2 : buildLoop (2 * P - 1) fuel (2 * (j + 1)) (P + (j + 1)) (m.set (P + j) p)
            = .ok m' := hrun
        obtain ⟨g1, g2, g3⟩ := ih (j + 1) (m.set (P + j) p) m' (by simpa using hlen) hrun2
        have hset : ∀ t, t ≠ P + j → (m.set (P + j) p)[t]? = m[t]? := by
          intro t ht
          rw [List.getElem?_set, if_neg (by omega)]
        refine ⟨g1, ?_, ?_⟩
        · intro t ht
          rw [g2 t (by omega), hset t (by omega)]
        · intro t h1 h2
          by_cases htj : t = j
          · subst htj
            refine ⟨l, r, p, ?_, ?_, ?_, hp⟩
            · rw [g2 _ (by omega), hset _ (by omega), hl]
            · rw [g2 _ (by omega), hset _ (by omega), hr]
            · rw [g2 _ (by omega), List.getElem?_set, if_pos rfl, if_pos (by omega)]
          · exact g3 t (by omega) h2
    · rw [buildLoop_exit P j (fuel + 1) m hj] at hrun
      cases hrun
      exact ⟨hlen, fun _ _ => rfl, fun t h1 h2 => absurd h2 (by omega)⟩

/-- The loop runs to completion on an array whose slots read so far are hex strings. -/
theorem buildLoop_ok (P : Nat) : ∀ (fuel j : Nat) (m : List (List Nat)),
    m.length = 2 * P - 1 → P ≤ fuel + j + 1 →
    (∀ t, t < P + j → ∀ s, m[t]? = some s → IsLowerHexStr s) →
    ∃ m', buildLoop (2 * P - 1) fuel (2 * j) (P + j) m = .ok m' := by
  intro fuel
  induction fuel with
  | zero =>
    intro j m hlen hfuel _
    exact ⟨m, buildLoop_exit P j 0 m (by omega)⟩
  | succ fuel ih =>
    intro j m hlen hfuel hhex
    by_cases hj : j + 1 < P
    · obtain ⟨l, r, hl, hr, hstep⟩ := buildLoop_step P j fuel m hlen hj
      obtain ⟨p, hp, hplow, -⟩ := parentSlot_lower l r (hhex _ (by omega) l hl)
        (hhex _ (by omega) r hr)
      rw [hstep, hp]
      apply ih (j + 1) (m.set (P + j) p) (by simpa using hlen) (by omega)
      intro t ht s hs
      rw [List.getElem?_set] at hs
      by_cases htj : P + j = t
      · rw [if_pos htj, if_pos (by omega)] at hs
        cases hs
        exact hplow
      · rw [if_neg htj] at hs
        exact hhex t (by omega) s hs
    · exact ⟨m, buildLoop_exit P j (fuel + 1) m hj⟩

end Bc

namespace Bc

/-! ## BuildMerkleTreeStore -/

theorem nextPowerOfTwo_ge (n : Nat) (hn : 0 < n) : n ≤ nextPowerOfTwo n := by
  obtain ⟨k, hk, hle, -⟩ := nextPowerOfTwo_spec n hn
  omega

/-- The array the loop starts from: the txids followed by empty slots. -/
theorem buildMerkleTreeStore_eq (T : List (List Nat)) (hn : 0 < T.length) :
    BuildMerkleTreeStore T =
      buildLoop (2 * nextPowerOfTwo T.length - 1) (2 * nextPowerOfTwo T.length - 1) 0
        (nextPowerOfTwo T.length)
        (T ++ List.replicate (2 * nextPowerOfTwo T.length - 1 - T.length) []) := by
  have hP := nextPowerOfTwo_ge T.length hn
  unfold BuildMerkleTreeStore
  have h1 : ¬ ((nextPowerOfTwo T.length : Int) * 2 - 1 < 0) := by omega
  have h2 : ((nextPowerOfTwo T.length : Int) * 2 - 1).toNat = 2 * nextPowerOfTwo T.length - 1 := by
    omega
  simp only [h1, if_false, h2]
  congr 1
  unfold goCopy
  rw [List.length_replicate, List.take_of_length_le (by omega), List.drop_replicate]

theorem buildMerkleTreeStore_nil : BuildMerkleTreeStore [] = .error (.panic "makeslice: len out of range") := by
  rfl

/-- Slots of a successfully built store: length, leaves, padding and parents. -/
theorem buildMerkleTreeStore_rel (T m : List (List Nat)) (h : BuildMerkleTreeStore T = .ok m) :
    0 < T.length ∧ TreeRel (nextPowerOfTwo T.length) m ∧
    (∀ t, t < T.length → m[t]? = T[t]?) ∧
    (∀ t, T.length ≤ t → t < nextPowerOfTwo T.length → m[t]? = some []) := by
  have hn : 0 < T.length := by
    cases T with
    | nil => rw [buildMerkleTreeStore_nil] at h; cases h
    | cons x T => simp
  have hP := nextPowerOfTwo_ge T.length hn
  rw [buildMerkleTreeStore_eq T hn] at h
  have h0 : buildLoop (2 * nextPowerOfTwo T.length - 1) (2 * nextPowerOfTwo T.length - 1)
      (2 * 0) (nextPowerOfTwo T.length + 0)
      (T ++ List.replicate (2 * nextPowerOfTwo T.length - 1 - T.length) []) = .ok m := h
  obtain ⟨g1, g2, g3⟩ := buildLoop_rel _ _ 0 _ m
    (by rw [List.length_append, List.length_replicate]; omega) h0
  refine ⟨hn, ⟨g1, fun t ht => g3 t (by omega) ht⟩, ?_, ?_⟩
  · intro t ht
    rw [g2 t (by omega), List.getElem?_append_left ht]
  · intro t h1 h2
    rw [g2 t (by omega), List.getElem?_append_right h1, List.getElem?_replicate,
      if_pos (by omega)]

/-- BuildMerkleTreeStore succeeds on lowercase hex strings. -/
theorem buildMerkleTreeStore_ok (T : List (List Nat)) (hn : 0 < T.length)
    (hT : ∀ x ∈ T, IsLowerHexStr x) : ∃ m, BuildMerkleTreeStore T = .ok m := by
  have hP := nextPowerOfTwo_ge T.length hn
  rw [buildMerkleTreeStore_eq T hn]
  have := buildLoop_ok (nextPowerOfTwo T.length) (2 * nextPowerOfTwo T.length - 1) 0
    (T ++ List.replicate (2 * nextPowerOfTwo T.length - 1 - T.length) [])
    (by rw [List.length_append, List.length_replicate]; omega) (by omega)
    (by
      intro t _ s hs
      have hmem := List.getElem?_mem hs
      rcases List.mem_append.1 hmem with hm | hm
      · exact hT s hm
      · rw [(List.mem_replicate.1 hm).2]
        exact ⟨rfl, fun c hc => by cases hc⟩)
  exact this

/-- Claim C6: in the array returned by BuildMerkleTreeStore, with `P` the next power of two
of the txid count, for every even `i` below the last slot, slot `P + i / 2` is the parent of
slots `i` and `i + 1`: empty when slot `i` is empty, `MerkleTreeParentStr` of slot `i` with
itself when slot `i` is present and slot `i + 1` is empty, and `MerkleTreeParentStr` of
slots `i` and `i + 1` when both are present. -/
theorem buildMerkleTreeStore_parent (T m : List (List Nat)) (i : Nat)
    (h : BuildMerkleTreeStore T = .ok m) (hi : i % 2 = 0) (hlt : i < m.length - 1) :
    ∃ l r p, m[i]? = some l ∧ m[i + 1]? = some r ∧
      m[nextPowerOfTwo T.length + i / 2]? = some p ∧
      (l = [] → p = []) ∧
      (l ≠ [] → r = [] → MerkleTreeParentStr l l = .ok p) ∧
      (l ≠ [] → r ≠ [] → MerkleTreeParentStr l r = .ok p) := by
  obtain ⟨-, ⟨hlen, hrel⟩, -, -⟩ := buildMerkleTreeStore_rel T m h
  obtain ⟨l, r, p, h1, h2, h3, h4⟩ := hrel (i / 2) (by omega)
  have e : 2 * (i / 2) = i := by omega
  rw [e] at h1 h2
  refine ⟨l, r, p, h1, h2, h3, ?_, ?_, ?_⟩
  · intro hl
    rw [parentSlot, if_pos hl] at h4
    cases h4
    rfl
  · intro hl hr
    rw [parentSlot, if_neg hl, if_pos hr] at h4
    exact h4
  · intro hl hr
    rw [parentSlot, if_neg hl, if_neg hr] at h4
    exact h4

/-- Claim C7: for every list of `n ≥ 1` txids (64 lowercase hex characters each),
BuildMerkleTreeStore returns an array of exactly `2 * P - 1` slots, where `P` is the
smallest power of two that is at least `n`. -/
theorem buildMerkleTreeStore_length (T : List (List Nat)) (hn : 1 ≤ T.length)
    (hT : ∀ x ∈ T, IsTxid x) :
    ∃ m k, BuildMerkleTreeStore T = .ok m ∧ m.length = 2 * 2 ^ k - 1 ∧
      T.length ≤ 2 ^ k ∧ ∀ j, T.length ≤ 2 ^ j → 2 ^ k ≤ 2 ^ j := by
  obtain ⟨m, hm⟩ := buildMerkleTreeStore_ok T hn (fun x hx => isLowerHexStr_of_isTxid x (hT x hx))
  obtain ⟨-, ⟨hlen, -⟩, -, -⟩ := buildMerkleTreeStore_rel T m hm
  obtain ⟨k, hk, hle, hmin⟩ := nextPowerOfTwo_spec T.length hn
  refine ⟨m, k, hm, by rw [hlen, hk], hle, fun j hj => ?_⟩
  exact Nat.pow_le_pow_right (by norm_num) (hmin j hj)

/-- Claim C8: for every list `T` of `n ≥ 1` txids, the array returned by
BuildMerkleTreeStore holds `T[i]` unchanged in slot `i` for every `i < n`, and the empty
sentinel in every slot `i` with `n ≤ i < P`, `P` the next power of two of `n`. -/
theorem buildMerkleTreeStore_leaves (T : List (List Nat)) (hn : 1 ≤ T.length)
    (hT : ∀ x ∈ T, IsTxid x) :
    ∃ m, BuildMerkleTreeStore T = .ok m ∧
      (∀ i, i < T.length → m[i]? = T[i]?) ∧
      (∀ i, T.length ≤ i → i < nextPowerOfTwo T.length → m[i]? = some []) ∧
      ∃ k, nextPowerOfTwo T.length = 2 ^ k ∧ T.length ≤ 2 ^ k ∧
        ∀ j, T.length ≤ 2 ^ j → k ≤ j := by
  obtain ⟨m, hm⟩ := buildMerkleTreeStore_ok T hn (fun x hx => isLowerHexStr_of_isTxid x (hT x hx))
  obtain ⟨-, -, h1, h2⟩ := buildMerkleTreeStore_rel T m hm
  exact ⟨m, hm, h1, h2, nextPowerOfTwo_spec T.length hn⟩

/-- Claim C9: when BuildMerkleTreeStore succeeds, BuildMerkleRoot returns the last element
of the array it built; and BuildMerkleRoot fails exactly when BuildMerkleTreeStore fails,
with the same failure. -/
theorem buildMerkleRoot_last (T : List (List Nat)) :
    (∀ m, BuildMerkleTreeStore T = .ok m →
      ∃ root, m[m.length - 1]? = some root ∧ m.getLast? = some root ∧
        BuildMerkleRoot T = .ok root) ∧
    (∀ f, BuildMerkleRoot T = .error f ↔ BuildMerkleTreeStore T = .error f) := by
  have key : ∀ m, BuildMerkleTreeStore T = .ok m →
      ∃ root, m[m.length - 1]? = some root ∧ m.getLast? = some root ∧
        BuildMerkleRoot T = .ok root := by
    intro m hm
    obtain ⟨hn, ⟨hlen, -⟩, -, -⟩ := buildMerkleTreeStore_rel T m hm
    have hP := nextPowerOfTwo_ge T.length hn
    obtain ⟨root, hroot⟩ := getElem?_of_lt m (m.length - 1) (by omega)
    refine ⟨root, hroot, ?_, ?_⟩
    · rw [List.getLast?_eq_getElem?]
      exact hroot
    · unfold BuildMerkleRoot
      rw [hm]
      exact index_of_getElem? m _ root hroot
  refine ⟨key, fun f => ?_⟩
  cases hb : BuildMerkleTreeStore T with
  | error g =>
    unfold BuildMerkleRoot
    rw [hb]
    simp only [Except.error.injEq]
  | ok m =>
    obtain ⟨root, -, -, hr⟩ := key m hb
    rw [hr]
    constructor <;> intro hx <;> cases hx

end Bc

namespace Bc

/-! ## Replaying a Merkle path -/

theorem calculateRootLoop_eq_foldl (path : List (List Nat)) (h : List Nat) (idx : Nat) :
    calculateRootLoop path h idx = (path.foldl replayStep (h, idx)).1 := by
  induction path generalizing h idx with
  | nil => rfl
  | cons s rest ih =>
    rw [calculateRootLoop, List.foldl_cons, ih]
    congr 2
    unfold replayStep
    simp only [Nat.and_one_is_mod, Nat.shiftRight_eq_div_pow, pow_one]
    by_cases hodd : idx % 2 = 1
    · have : idx % 2 > 0 := by omega
      simp only [hodd, this, if_true]
      rfl
    · have : ¬ idx % 2 > 0 := by omega
      simp only [hodd, this, if_false]
      rfl

/-- Claim C10: for every MerklePath `mp` and txid, `CalculateRoot` returns, with a nil
error, the display form of the left fold over `mp.Path` that starts from the bytes of the txid and
`mp.Index`: at each sibling `s` the working hash `h` becomes `merkle_parent(s, h)` when the
index is odd and `merkle_parent(h, s)` when it is even, and the index is shifted right. -/
theorem calculateRoot_eq_fold (mp : MerklePath) (txid : List Nat) :
    mp.CalculateRoot txid =
      .ok (StringFromBytesReverse
        ((sliceElems mp.Path).foldl replayStep (BytesFromStringReverse txid, mp.Index)).1) := by
  unfold MerklePath.CalculateRoot
  simp only [calculateRootLoop_eq_foldl]

/-! ## Levels of the tree store -/

theorem treeRel_drop (Q : Nat) (m : List (List Nat)) (hQ : 1 ≤ Q) (h : TreeRel (2 * Q) m)
    (hl : LevelOK (2 * Q) m) : TreeRel Q (m.drop (2 * Q)) ∧ LevelOK Q (m.drop (2 * Q)) := by
  obtain ⟨hlen, hrel⟩ := h
  have hslot : ∀ t, t < Q → ∃ l r p, m[2 * t]? = some l ∧ m[2 * t + 1]? = some r ∧
      m[2 * Q + t]? = some p ∧ parentSlot l r = .ok p ∧ IsLowerHexStr p ∧
      (p ≠ [] → l ≠ []) ∧ (l ≠ [] → p ≠ []) ∧ IsLowerHexStr l := by
    intro t ht
    obtain ⟨l, r, p, h1, h2, h3, h4⟩ := hrel t (by omega)
    have hll := (hl (2 * t) (by omega) l h1).1
    have hrl := (hl (2 * t + 1) (by omega) r h2).1
    obtain ⟨p', hp', g1, g2, -, -, g5⟩ := parentSlot_lower l r hll hrl
    rw [h4] at hp'
    cases hp'
    exact ⟨l, r, p, h1, h2, h3, h4, g1, fun hp hle => hp (g2 hle), g5, hll⟩
  constructor
  · refine ⟨by rw [List.length_drop]; omega, ?_⟩
    intro t ht
    obtain ⟨l, r, p, h1, h2, h3, h4⟩ := hrel (Q + t) (by omega)
    refine ⟨l, r, p, ?_, ?_, ?_, h4⟩
    · rw [List.getElem?_drop, ← h1]
      congr 1
      omega
    · rw [List.getElem?_drop, ← h2]
      congr 1
      omega
    · rw [List.getElem?_drop, ← h3]
  · intro t ht s hs
    rw [List.getElem?_drop] at hs
    obtain ⟨l, r, p, h1, h2, h3, h4, g1, g2, g3, g4⟩ := hslot t (by omega)
    rw [h3] at hs
    cases hs
    refine ⟨g1, ?_⟩
    intro hne u hu v hv
    rw [List.getElem?_drop] at hv
    obtain ⟨lu, ru, pu, k1, k2, k3, k4, j1, j2, j3, j4⟩ := hslot u (by omega)
    rw [k3] at hv
    cases hv
    exact j3 ((hl (2 * t) (by omega) l h1).2 (g2 hne) (2 * u) (by omega) lu k1)

/-- One level of getPathElements on a tree store with at least two leaf slots. -/
theorem getPathElements_step (fuel i P : Nat) (m : List (List Nat)) (l r : List Nat)
    (hlen : m.length = 2 * P - 1)
    (hl : m[2 * (i / 2)]? = some l) (hr : m[2 * (i / 2) + 1]? = some r)
    (hodd : i % 2 = 1 → l ≠ []) :
    getPathElements (fuel + 1) i m =
      if m.length = 3 then
        .ok [if i % 2 = 0 then (if r = [] then l else r) else l]
      else
        (getPathElements fuel (i / 2) (m.drop P) >>= fun rest =>
          .ok ((if i % 2 = 0 then (if r = [] then l else r) else l) :: rest)) := by
  have hdrop : (m.length + 1) / 2 = P := by omega
  rw [getPathElements, hdrop]
  by_cases hev : i % 2 = 0
  · have e1 : 2 * (i / 2) = i := by omega
    rw [e1] at hl hr
    simp only [hev, if_true, index_of_getElem? m _ r hr, bind, Except.bind]
    by_cases hrn : r = []
    · simp only [hrn, if_true, index_of_getElem? m _ l hl, pure, Except.pure, List.singleton_append]
    · simp only [hrn, if_false, pure, Except.pure, List.singleton_append]
  · have e1 : 2 * (i / 2) = i - 1 := by omega
    rw [e1] at hl
    have hln := hodd (by omega)
    simp only [hev, if_false, index_of_getElem? m _ l hl, bind, Except.bind, hln, pure,
      Except.pure, List.singleton_append]

end Bc

namespace Bc

/-- The first level above a present leaf slot `i`: the path element chosen by
getPathElements, the parent slot, and one step of both replays. -/
theorem level_facts (P i lsb : Nat) (m : List (List Nat)) (s : List Nat)
    (hrel : TreeRel P m) (hok : LevelOK P m) (hPe : P % 2 = 0) (hi : i < P)
    (hs : m[i]? = some s) (hne : s ≠ []) (hlsb : lsb % 2 = i % 2) :
    ∃ l r p, m[2 * (i / 2)]? = some l ∧ m[2 * (i / 2) + 1]? = some r ∧
      m[P + i / 2]? = some p ∧ (i % 2 = 1 → l ≠ []) ∧
      (if i % 2 = 0 then (if r = [] then l else r) else l) ≠ [] ∧
      p ≠ [] ∧ IsLowerHexStr p ∧
      Sha256Sha256
        (if lsb &&& 1 > 0 then
          BytesFromStringReverse (if i % 2 = 0 then (if r = [] then l else r) else l)
            ++ BytesFromStringReverse s
        else BytesFromStringReverse s
            ++ BytesFromStringReverse (if i % 2 = 0 then (if r = [] then l else r) else l))
        = BytesFromStringReverse p ∧
      (if lsb &&& 1 = 1 then
          MerkleTreeParentStr (if i % 2 = 0 then (if r = [] then l else r) else l) s
        else MerkleTreeParentStr s (if i % 2 = 0 then (if r = [] then l else r) else l))
        = .ok p := by
  obtain ⟨l, r, p, h1, h2, h3, h4⟩ := hrel.2 (i / 2) (by omega)
  have hll := (hok (2 * (i / 2)) (by omega) l h1).1
  obtain ⟨hrl, hpre⟩ := hok (2 * (i / 2) + 1) (by omega) r h2
  obtain ⟨p', hp', g1, g2, g3, g4, g5⟩ := parentSlot_lower l r hll hrl
  rw [h4] at hp'
  cases hp'
  have hdl := decode_ok_of_lower l hll
  have hdr := decode_ok_of_lower r hrl
  rw [Nat.and_one_is_mod]
  by_cases hev : i % 2 = 0
  · have e1 : 2 * (i / 2) = i := by omega
    have hsl : s = l := by
      rw [e1, hs] at h1
      exact Option.some.inj h1
    subst hsl
    have c1 : ¬ lsb % 2 > 0 := by omega
    have c2 : ¬ lsb % 2 = 1 := by omega
    refine ⟨s, r, p, h1, h2, h3, fun h => absurd h (by omega), ?_, g5 hne, g1, ?_, ?_⟩
    · simp only [hev, if_true]
      by_cases hr0 : r = []
      · simp only [hr0, if_true]; exact hne
      · simp only [hr0, if_false]; exact hr0
    · simp only [hev, if_true, c1, if_false]
      by_cases hr0 : r = []
      · simp only [hr0, if_true]
        rw [g3 hne hr0, bytes_parentStr]
        rfl
      · simp only [hr0, if_false]
        rw [g4 hne hr0, bytes_parentStr]
        rfl
    · simp only [hev, if_true, c2, if_false]
      by_cases hr0 : r = []
      · simp only [hr0, if_true]
        rw [g3 hne hr0]
        exact merkleTreeParentStr_ok s s hdl hdl
      · simp only [hr0, if_false]
        rw [g4 hne hr0]
        exact merkleTreeParentStr_ok s r hdl hdr
  · have e1 : 2 * (i / 2) + 1 = i := by omega
    have hsr : s = r := by
      rw [e1, hs] at h2
      exact Option.some.inj h2
    subst hsr
    have hl0 : l ≠ [] := hpre hne (2 * (i / 2)) (by omega) l h1
    have c1 : lsb % 2 > 0 := by omega
    have c2 : lsb % 2 = 1 := by omega
    refine ⟨l, s, p, h1, h2, h3, fun _ => hl0, ?_, g5 hl0, g1, ?_, ?_⟩
    · simp only [hev, if_false]; exact hl0
    · simp only [hev, if_false, c1, if_true]
      rw [g4 hl0 hne, bytes_parentStr]
      rfl
    · simp only [hev, if_false, c2, if_true]
      rw [g4 hl0 hne]
      exact merkleTreeParentStr_ok l s hdl hdr

theorem merkleRootFromBranches_cons (h sibling p : List Nat) (idx : Nat)
    (rest : List (List Nat))
    (hp : (if idx &&& 1 = 1 then MerkleTreeParentStr sibling h
      else MerkleTreeParentStr h sibling) = .ok p) :
    MerkleRootFromBranches h idx (sibling :: rest) = MerkleRootFromBranches p (idx >>> 1) rest := by
  rw [MerkleRootFromBranches]
  by_cases hc : idx &&& 1 = 1
  · rw [if_pos hc] at hp ⊢
    rw [hp]
    rfl
  · rw [if_neg hc] at hp ⊢
    rw [hp]
    rfl

/-- Replaying the path extracted for a present leaf slot gives the last slot of the store,
through the loop of CalculateRoot and through MerkleRootFromBranches. -/
theorem path_replay : ∀ (k : Nat) (m : List (List Nat)) (i : Nat) (s : List Nat)
    (lsb fuel : Nat), TreeRel (2 ^ (k + 1)) m → LevelOK (2 ^ (k + 1)) m → i < 2 ^ (k + 1) →
    m[i]? = some s → s ≠ [] → lsb % 2 ^ (k + 1) = i → k + 1 ≤ fuel →
    ∃ path root, getPathElements fuel i m = .ok path ∧ m[m.length - 1]? = some root ∧
      IsLowerHexStr root ∧ root ≠ [] ∧ path.length = k + 1 ∧ (∀ e ∈ path, e ≠ []) ∧
      calculateRootLoop path (BytesFromStringReverse s) lsb = BytesFromStringReverse root ∧
      MerkleRootFromBranches s lsb path = .ok root := by
  intro k
  induction k with
  | zero =>
    intro m i s lsb fuel hrel hok hi hs hne hlsb hfuel
    obtain ⟨fuel, rfl⟩ : ∃ f, fuel = f + 1 := ⟨fuel - 1, by omega⟩
    have hlen : m.length = 3 := by rw [hrel.1]; norm_num
    obtain ⟨l, r, p, h1, h2, h3, h4, h5, h6, h7, h8, h9⟩ :=
      level_facts (2 ^ (0 + 1)) i lsb m s hrel hok (by norm_num) hi hs hne
        (by norm_num at hlsb hi ⊢; omega)
    refine ⟨[if i % 2 = 0 then (if r = [] then l else r) else l], p, ?_, ?_, h7, h6, rfl, ?_,
      ?_, ?_⟩
    · rw [getPathElements_step fuel i (2 ^ (0 + 1)) m l r hrel.1 h1 h2 h4,
        if_pos hlen]
    · rw [← h3, hlen]
      congr 1
      norm_num at hi ⊢
      omega
    · intro e he
      rw [List.mem_singleton] at he
      rw [he]
      exact h5
    · rw [calculateRootLoop, calculateRootLoop]
      exact h8
    · rw [merkleRootFromBranches_cons s _ p lsb [] h9, MerkleRootFromBranches]
  | succ k ih =>
    intro m i s lsb fuel hrel hok hi hs hne hlsb hfuel
    obtain ⟨fuel, rfl⟩ : ∃ f, fuel = f + 1 := ⟨fuel - 1, by omega⟩
    have hpow : 2 ^ (k + 1 + 1) = 2 * 2 ^ (k + 1) := by rw [pow_succ]; omega
    have hpos : 1 ≤ 2 ^ (k + 1) := Nat.one_le_two_pow
    have hpos2 : 2 ≤ 2 ^ (k + 1) := by
      have : 2 ^ (k + 1) = 2 * 2 ^ k := by rw [pow_succ]; omega
      have : 1 ≤ 2 ^ k := Nat.one_le_two_pow
      omega
    have hlen : m.length = 2 * (2 * 2 ^ (k + 1)) - 1 := by rw [hrel.1, hpow]
    have hne3 : ¬ m.length = 3 := by omega
    have hmod : lsb % 2 = i % 2 := by
      rw [← hlsb, hpow, Nat.mod_mul_right_mod]
    obtain ⟨l, r, p, h1, h2, h3, h4, h5, h6, h7, h8, h9⟩ :=
      level_facts (2 ^ (k + 1 + 1)) i lsb m s hrel hok (by omega) hi hs hne hmod
    rw [hpow] at hrel hok h3 hi
    obtain ⟨hrel2, hok2⟩ := treeRel_drop (2 ^ (k + 1)) m hpos hrel hok
    have hlsb2 : (lsb >>> 1) % 2 ^ (k + 1) = i / 2 := by
      rw [Nat.shiftRight_eq_div_pow, pow_one, ← Nat.mod_mul_right_div_self, ← hpow, hlsb]
    obtain ⟨path, root, q1, q2, q3, q4, q5, q6, q7, q8⟩ :=
      ih (m.drop (2 * 2 ^ (k + 1))) (i / 2) p (lsb >>> 1) fuel hrel2 hok2 (by omega)
        (by rw [List.getElem?_drop]; exact h3) h6 hlsb2 (by omega)
    refine ⟨(if i % 2 = 0 then (if r = [] then l else r) else l) :: path, root, ?_, ?_, q3, q4,
      by rw [List.length_cons, q5], ?_, ?_, ?_⟩
    · rw [getPathElements_step fuel i (2 * 2 ^ (k + 1)) m l r hlen h1 h2 h4,
        if_neg hne3, q1]
      rfl
    · rw [List.getElem?_drop, List.length_drop] at q2
      rw [← q2]
      congr 1
      omega
    · intro e he
      rcases List.mem_cons.1 he with rfl | he
      · exact h5
      · exact q6 e he
    · rw [calculateRootLoop]
      show calculateRootLoop path (Sha256Sha256 _) (lsb >>> 1) = _
      rw [h8]
      exact q7
    · rw [merkleRootFromBranches_cons s _ p lsb path h9]
      exact q8

end Bc

namespace Bc

/-- The leaf level of a store built from txids is well formed. -/
theorem buildMerkleTreeStore_levelOK (T m : List (List Nat)) (hT : ∀ x ∈ T, IsTxid x)
    (h : BuildMerkleTreeStore T = .ok m) : LevelOK (nextPowerOfTwo T.length) m := by
  obtain ⟨-, -, hleaf, hpad⟩ := buildMerkleTreeStore_rel T m h
  intro t ht s hs
  by_cases htn : t < T.length
  · rw [hleaf t htn, List.getElem?_eq_getElem htn] at hs
    cases hs
    refine ⟨isLowerHexStr_of_isTxid _ (hT _ (List.getElem_mem htn)), ?_⟩
    intro _ u hu v hv
    have hun : u < T.length := by omega
    rw [hleaf u hun, List.getElem?_eq_getElem hun] at hv
    cases hv
    exact ne_nil_of_isTxid _ (hT _ (List.getElem_mem hun))
  · rw [hpad t (by omega) ht] at hs
    cases hs
    exact ⟨⟨rfl, fun c hc => by cases hc⟩, fun hne => absurd rfl hne⟩

/-- Claim C1: for every list `T` of txids (64 lowercase hex characters each; a slice
length fits a Go `int`) and every index `i < |T|` (so `T` is not empty), replaying the path extracted
for `i` reproduces the tree root: `GetTxMerklePath(i, BuildMerkleTreeStore(T))` exists and
its `CalculateRoot(T[i])` is the last slot of the store, and so is
`MerkleRootFromBranches(T[i], i, path)`. -/
theorem merklePath_replay_root (T : List (List Nat)) (i : Nat)
    (htx : ∀ x ∈ T, IsTxid x) (hlen : T.length < 2 ^ 63) (hi : i < T.length) :
    ∃ tree mp root, BuildMerkleTreeStore T = .ok tree ∧ GetTxMerklePath i tree = .ok mp ∧
      tree[tree.length - 1]? = some root ∧ mp.Index = i ∧
      mp.CalculateRoot T[i] = .ok root ∧
      MerkleRootFromBranches T[i] mp.Index (sliceElems mp.Path) = .ok root := by
  have hn : 0 < T.length := by omega
  obtain ⟨m, hm⟩ := buildMerkleTreeStore_ok T hn
    (fun x hx => isLowerHexStr_of_isTxid x (htx x hx))
  obtain ⟨-, hrel, hleaf, -⟩ := buildMerkleTreeStore_rel T m hm
  have hok := buildMerkleTreeStore_levelOK T m htx hm
  obtain ⟨k, hk, hle, -⟩ := nextPowerOfTwo_spec T.length hn
  have hsi : m[i]? = some T[i] := by rw [hleaf i hi, List.getElem?_eq_getElem hi]
  have htxi : IsTxid T[i] := htx _ (List.getElem_mem hi)
  have hi64 : i % 2 ^ 64 = i := Nat.mod_eq_of_lt (by omega)
  rw [hk] at hrel hok
  cases k with
  | zero =>
    have hlen1 : m.length = 1 := by rw [hrel.1]; norm_num
    have hi0 : i = 0 := by norm_num at hle; omega
    refine ⟨m, { Index := i % 2 ^ 64, Path := none }, T[i], hm, ?_, ?_, hi64, ?_, ?_⟩
    · unfold GetTxMerklePath
      rw [if_neg (by rw [hlen1]; simp)]
      rfl
    · rw [hlen1, ← hsi]
      congr 1
      omega
    · unfold MerklePath.CalculateRoot
      simp only [sliceElems, Option.getD_none, calculateRootLoop]
      rw [stringFromBytesReverse_bytes _ (isLowerHexStr_of_isTxid _ htxi)]
    · simp only [sliceElems, Option.getD_none, MerkleRootFromBranches]
  | succ k =>
    have hfuel : k + 1 ≤ m.length + 1 := by
      have h1 : k < 2 ^ k := Nat.lt_two_pow k
      have h2 : 2 ^ (k + 1) = 2 * 2 ^ k := by rw [pow_succ]; omega
      rw [hrel.1]
      omega
    have h2P : 2 ≤ 2 ^ (k + 1) := by
      have h1 : 1 ≤ 2 ^ k := Nat.one_le_two_pow
      have h2 : 2 ^ (k + 1) = 2 * 2 ^ k := by rw [pow_succ]; omega
      omega
    obtain ⟨path, root, q1, q2, q3, -, -, -, q7, q8⟩ :=
      path_replay k m i T[i] (i % 2 ^ 64) (m.length + 1) hrel hok (by omega) hsi
        (ne_nil_of_isTxid _ htxi) (by rw [hi64]; exact Nat.mod_eq_of_lt (by omega)) hfuel
    refine ⟨m, { Index := i % 2 ^ 64, Path := some path }, root, hm, ?_, q2, hi64, ?_, ?_⟩
    · unfold GetTxMerklePath
      rw [if_pos (by rw [hrel.1]; omega), q1]
      rfl
    · unfold MerklePath.CalculateRoot
      simp only [sliceElems, Option.getD_some]
      rw [q7, stringFromBytesReverse_bytes _ q3]
    · simp only [sliceElems, Option.getD_some]
      exact q8

set_option maxRecDepth 100000 in
/-- Witness of C1: the eight txids of `TestGetMerklePath` at index 4. -/
theorem merklePath_replay_root_witness :
    (∀ x ∈ testTxids, IsTxid x) ∧ testTxids.length < 2 ^ 63 ∧
      ∃ (hi : 4 < testTxids.length) (tree : List (List Nat)) (mp : MerklePath)
        (root : List Nat),
        BuildMerkleTreeStore testTxids = .ok tree ∧ GetTxMerklePath 4 tree = .ok mp ∧
        tree[tree.length - 1]? = some root ∧ mp.Index = 4 ∧
        mp.CalculateRoot testTxids[4] = .ok root ∧
        MerkleRootFromBranches testTxids[4] mp.Index (sliceElems mp.Path) = .ok root :=
  ⟨by decide, by decide, by decide,
    merklePath_replay_root testTxids 4 (by decide) (by decide) (by decide)⟩

end Bc

namespace Bc

/-! ## The test vectors of merkle_path_test.go -/

set_option maxRecDepth 1000000 in
/-- The store built from the eight test txids, slot by slot. -/
theorem buildMerkleTreeStore_testTxids : BuildMerkleTreeStore testTxids = .ok testTree := by
  decide

set_option maxRecDepth 1000000 in
/-- The check of `TestGetMerklePath`: the paths for index 4 and index 3 replay to the root
`1a1e779c…a6b0`. -/
theorem testGetMerklePath :
    (GetTxMerklePath 4 testTree >>= fun mp =>
      MerkleRootFromBranches (testTxids.getD 4 []) mp.Index (sliceElems mp.Path)) =
      .ok (str "1a1e779cd7dfc59f603b4e88842121001af822b2dc5d3b167ae66152e586a6b0") ∧
    (GetTxMerklePath 3 testTree >>= fun mp => mp.CalculateRoot (testTxids.getD 3 [])) =
      .ok (str "1a1e779cd7dfc59f603b4e88842121001af822b2dc5d3b167ae66152e586a6b0") := by
  decide

set_option maxRecDepth 1000000 in
/-- The check of `TestGetMerklePathOddPosition`: for the first five test txids the path for
index 4 replays to the last slot of the store, which is the root `c1cc8a42…5ccf`. -/
theorem testGetMerklePathOddPosition :
    BuildMerkleRoot (testTxids.take 5) =
      .ok (str "c1cc8a423bcb10f728ede8e7882458c464a9c5228d9b781cde90d38f16bb5ccf") ∧
    (BuildMerkleTreeStore (testTxids.take 5) >>= fun merkles =>
      GetTxMerklePath 4 merkles >>= fun mp =>
      MerkleRootFromBranches (testTxids.getD 4 []) mp.Index (sliceElems mp.Path)) =
      .ok (str "c1cc8a423bcb10f728ede8e7882458c464a9c5228d9b781cde90d38f16bb5ccf") := by
  decide

set_option maxRecDepth 100000 in
/-- Witness of C6: slots 4 and 5 of the store of the eight test txids. -/
theorem buildMerkleTreeStore_parent_witness :
    BuildMerkleTreeStore testTxids = .ok testTree ∧ 4 % 2 = 0 ∧ 4 < testTree.length - 1 ∧
      ∃ l r p, testTree[4]? = some l ∧ testTree[4 + 1]? = some r ∧
        testTree[nextPowerOfTwo testTxids.length + 4 / 2]? = some p ∧
        (l = [] → p = []) ∧
        (l ≠ [] → r = [] → MerkleTreeParentStr l l = .ok p) ∧
        (l ≠ [] → r ≠ [] → MerkleTreeParentStr l r = .ok p) :=
  ⟨buildMerkleTreeStore_testTxids, by decide, by decide,
    buildMerkleTreeStore_parent testTxids testTree 4 buildMerkleTreeStore_testTxids
      (by decide) (by decide)⟩

set_option maxRecDepth 100000 in
/-- Witness of C7: the eight test txids. -/
theorem buildMerkleTreeStore_length_witness :
    1 ≤ testTxids.length ∧ (∀ x ∈ testTxids, IsTxid x) ∧
      ∃ m k, BuildMerkleTreeStore testTxids = .ok m ∧ m.length = 2 * 2 ^ k - 1 ∧
        testTxids.length ≤ 2 ^ k ∧ ∀ j, testTxids.length ≤ 2 ^ j → 2 ^ k ≤ 2 ^ j :=
  ⟨by decide, by decide, buildMerkleTreeStore_length testTxids (by decide) (by decide)⟩

set_option maxRecDepth 100000 in
/-- Witness of C8: the first five test txids, padded to eight leaf slots. -/
theorem buildMerkleTreeStore_leaves_witness :
    1 ≤ (testTxids.take 5).length ∧ (∀ x ∈ testTxids.take 5, IsTxid x) ∧
      ∃ m, BuildMerkleTreeStore (testTxids.take 5) = .ok m ∧
        (∀ i, i < (testTxids.take 5).length → m[i]? = (testTxids.take 5)[i]?) ∧
        (∀ i, (testTxids.take 5).length ≤ i → i < nextPowerOfTwo (testTxids.take 5).length →
          m[i]? = some []) ∧
        ∃ k, nextPowerOfTwo (testTxids.take 5).length = 2 ^ k ∧
          (testTxids.take 5).length ≤ 2 ^ k ∧ ∀ j, (testTxids.take 5).length ≤ 2 ^ j → k ≤ j :=
  ⟨by decide, by decide, buildMerkleTreeStore_leaves (testTxids.take 5) (by decide) (by decide)⟩

end Bc

namespace Bc

/-! ## Hex strings in either case -/

theorem fromHexChar_lt (c a : Nat) (h : fromHexChar c = some a) : a < 16 := by
  unfold fromHexChar at h
  split_ifs at h <;> simp at h <;> omega

theorem nibbles_lt : ∀ a, a < 16 → ∀ b, b < 16 → (a <<< 4 ||| b) < 256 :=
  fun a ha b hb => (nibbles_split a ha b hb).2.2

/-- Decoding succeeds exactly on the strings of even length made of hex digits, and then
gives half as many bytes. -/
theorem hexDecodeString_ok_iff : ∀ (n : Nat) (s : List Nat), s.length ≤ n →
    ((hexDecodeString s).2 = none ↔ s.length % 2 = 0 ∧ IsHexStr s) ∧
    ((hexDecodeString s).2 = none →
      2 * (hexDecodeString s).1.length = s.length ∧ IsBytes (hexDecodeString s).1) := by
  intro n
  induction n with
  | zero =>
    intro s hn
    have : s = [] := List.length_eq_zero.1 (by omega)
    subst this
    exact ⟨⟨fun _ => ⟨rfl, fun c hc => by cases hc⟩, fun _ => rfl⟩,
      fun _ => ⟨rfl, fun x hx => by cases hx⟩⟩
  | succ n ih =>
    intro s hn
    match s, hn with
    | [], _ =>
      exact ⟨⟨fun _ => ⟨rfl, fun c hc => by cases hc⟩, fun _ => rfl⟩,
        fun _ => ⟨rfl, fun x hx => by cases hx⟩⟩
    | [p], _ =>
      have he : (hexDecodeString [p]).2 ≠ none := by
        rw [hexDecodeString]
        cases fromHexChar p <;> simp
      exact ⟨⟨fun h => absurd h he, fun h => absurd h.1 (by simp)⟩, fun h => absurd h he⟩
    | p :: q :: rest, hn =>
      obtain ⟨ih1, ih2⟩ := ih rest (by simp only [List.length_cons] at hn; omega)
      rw [hexDecodeString]
      cases hp : fromHexChar p with
      | none =>
        refine ⟨⟨fun h => by simp at h, fun h => ?_⟩, fun h => by simp at h⟩
        have := h.2 p (by simp)
        rw [hp] at this
        cases this
      | some a =>
        cases hq : fromHexChar q with
        | none =>
          refine ⟨⟨fun h => by simp at h, fun h => ?_⟩, fun h => by simp at h⟩
          have := h.2 q (by simp)
          rw [hq] at this
          cases this
        | some b =>
          simp only
          constructor
          · rw [ih1]
            constructor
            · rintro ⟨h1, h2⟩
              refine ⟨by simp only [List.length_cons]; omega, ?_⟩
              intro c hc
              rcases List.mem_cons.1 hc with rfl | hc
              · rw [hp]; rfl
              rcases List.mem_cons.1 hc with rfl | hc
              · rw [hq]; rfl
              · exact h2 c hc
            · rintro ⟨h1, h2⟩
              refine ⟨by simp only [List.length_cons] at h1; omega, ?_⟩
              intro c hc
              exact h2 c (by simp [hc])
          · intro h
            obtain ⟨g1, g2⟩ := ih2 h
            refine ⟨by simp only [List.length_cons]; omega, ?_⟩
            intro x hx
            rcases List.mem_cons.1 hx with rfl | hx
            · exact nibbles_lt a (fromHexChar_lt p a hp) b (fromHexChar_lt q b hq)
            · exact g2 x hx

theorem isHexStr_of_lower (s : List Nat) (h : IsLowerHexStr s) : IsHexStr s := by
  intro c hc
  obtain ⟨a, -, ha, -⟩ := lowerHex_value c (isLowerHex_lt c (h.2 c hc)) (h.2 c hc)
  rw [ha]
  rfl

/-! ## A sole leaf -/

/-- Claim C11: for every single txid `x`, `BuildMerkleTreeStore([x])` succeeds and returns
an array of exactly one slot whose value is `x`, and `BuildMerkleRoot([x])` is `x`: nothing
is hashed. -/
theorem buildMerkleTreeStore_single (x : List Nat) :
    BuildMerkleTreeStore [x] = .ok [x] ∧
    (∀ m, BuildMerkleTreeStore [x] = .ok m → m.length = 1 ∧ m[0]? = some x) ∧
    BuildMerkleRoot [x] = .ok x := by
  have h1 : BuildMerkleTreeStore [x] = .ok [x] := by
    rw [buildMerkleTreeStore_eq [x] (by simp)]
    have hP : nextPowerOfTwo 1 = 1 := by decide
    rw [List.length_singleton, hP]
    exact buildLoop_exit 1 0 1 [x] (by omega)
  refine ⟨h1, ?_, ?_⟩
  · intro m hm
    rw [h1] at hm
    cases hm
    exact ⟨rfl, rfl⟩
  · unfold BuildMerkleRoot
    rw [h1]
    rfl

/-- Claim C12: for a one-slot tree, `GetTxMerklePath(0, tree)` returns Index 0 and the nil
Path, which `json.Marshal` writes as `{"index":0,"path":null}`; replaying that path from a
lowercase hex txid (of even length, as the 64 characters of a txid are) returns the txid
itself. -/
theorem getTxMerklePath_single (tree : List (List Nat)) (txid : List Nat)
    (hlen : tree.length = 1) (htx : IsLowerHexStr txid) :
    ∃ mp, GetTxMerklePath 0 tree = .ok mp ∧ mp.Index = 0 ∧ mp.Path = none ∧
      mp.MarshalJSON = some (str "\x7b\"index\":0,\"path\":null\x7d") ∧
      mp.CalculateRoot txid = .ok txid ∧
      MerkleRootFromBranches txid mp.Index (sliceElems mp.Path) = .ok txid := by
  refine ⟨{ Index := 0, Path := none }, ?_, rfl, rfl, by decide, ?_, rfl⟩
  · unfold GetTxMerklePath
    rw [if_neg (by rw [hlen]; simp)]
    rfl
  · unfold MerklePath.CalculateRoot
    simp only [sliceElems, Option.getD_none, calculateRootLoop]
    rw [stringFromBytesReverse_bytes _ htx]

set_option maxRecDepth 100000 in
/-- Witness of C12: the one-slot tree of `TestGetMerklePathEmptyPath`. -/
theorem getTxMerklePath_single_witness :
    (testTxids.take 1).length = 1 ∧ IsLowerHexStr (testTxids.getD 0 []) ∧
      ∃ mp, GetTxMerklePath 0 (testTxids.take 1) = .ok mp ∧ mp.Index = 0 ∧ mp.Path = none ∧
        mp.MarshalJSON = some (str "\x7b\"index\":0,\"path\":null\x7d") ∧
        mp.CalculateRoot (testTxids.getD 0 []) = .ok (testTxids.getD 0 []) ∧
        MerkleRootFromBranches (testTxids.getD 0 []) mp.Index (sliceElems mp.Path)
          = .ok (testTxids.getD 0 []) :=
  ⟨by decide, by decide,
    getTxMerklePath_single (testTxids.take 1) (testTxids.getD 0 []) (by decide) (by decide)⟩

/-- Claim C13, evaluated on the code: for the empty list `nextPowerOfTwo` gives 0, the
array size is -1 and `make` panics; neither BuildMerkleTreeStore nor BuildMerkleRoot returns
the error "merkle tree is empty". -/
theorem buildMerkleTreeStore_empty_panics :
    nextPowerOfTwo ([] : List (List Nat)).length = 0 ∧
    BuildMerkleTreeStore [] = .error (.panic "makeslice: len out of range") ∧
    BuildMerkleRoot [] = .error (.panic "makeslice: len out of range") ∧
    BuildMerkleTreeStore [] ≠ .error (.error (.new "merkle tree is empty")) ∧
    BuildMerkleRoot [] ≠ .error (.error (.new "merkle tree is empty")) := by
  refine ⟨rfl, rfl, rfl, ?_, ?_⟩ <;> decide

end Bc

namespace Bc

/-! ## getPathElements on any index of the leaf level -/

/-- One level of getPathElements for an index below the number of leaf slots: both
neighbours exist, whatever the slots hold. -/
theorem getPathElements_level (fuel i P : Nat) (m : List (List Nat))
    (hlen : m.length = 2 * P - 1) (hPe : P % 2 = 0) (hi : i < P) :
    ∃ e, getPathElements (fuel + 1) i m =
      if m.length = 3 then .ok [e]
      else (getPathElements fuel (i / 2) (m.drop P) >>= fun rest => .ok (e :: rest)) := by
  have hdrop : (m.length + 1) / 2 = P := by omega
  obtain ⟨self, hself⟩ := getElem?_of_lt m i (by omega)
  rw [getPathElements, hdrop]
  by_cases hev : i % 2 = 0
  · obtain ⟨r, hr⟩ := getElem?_of_lt m (i + 1) (by omega)
    simp only [hev, if_true, index_of_getElem? m _ r hr, bind, Except.bind]
    by_cases hrn : r = []
    · exact ⟨self, by simp only [hrn, if_true, index_of_getElem? m _ self hself, pure,
        Except.pure, List.singleton_append]⟩
    · exact ⟨r, by simp only [hrn, if_false, pure, Except.pure, List.singleton_append]⟩
  · obtain ⟨l, hl⟩ := getElem?_of_lt m (i - 1) (by omega)
    simp only [hev, if_false, index_of_getElem? m _ l hl, bind, Except.bind]
    by_cases hln : l = []
    · exact ⟨self, by simp only [hln, if_true, index_of_getElem? m _ self hself, pure,
        Except.pure, List.singleton_append]⟩
    · exact ⟨l, by simp only [hln, if_false, pure, Except.pure, List.singleton_append]⟩

/-- On an array of `2 * 2 ^ (k + 1) - 1` slots and an index below `2 ^ (k + 1)` the
recursion returns, with one path entry per level. -/
theorem getPathElements_total : ∀ (k : Nat) (m : List (List Nat)) (i fuel : Nat),
    m.length = 2 * 2 ^ (k + 1) - 1 → i < 2 ^ (k + 1) → k + 1 ≤ fuel →
    ∃ path, getPathElements fuel i m = .ok path ∧ path.length = k + 1 := by
  intro k
  induction k with
  | zero =>
    intro m i fuel hlen hi hfuel
    obtain ⟨fuel, rfl⟩ : ∃ f, fuel = f + 1 := ⟨fuel - 1, by omega⟩
    obtain ⟨e, he⟩ := getPathElements_level fuel i (2 ^ (0 + 1)) m hlen (by norm_num) hi
    have h3 : m.length = 3 := by rw [hlen]; norm_num
    rw [if_pos h3] at he
    exact ⟨[e], he, rfl⟩
  | succ k ih =>
    intro m i fuel hlen hi hfuel
    obtain ⟨fuel, rfl⟩ : ∃ f, fuel = f + 1 := ⟨fuel - 1, by omega⟩
    have hpow : 2 ^ (k + 1 + 1) = 2 * 2 ^ (k + 1) := by rw [pow_succ]; omega
    have hpos : 2 ≤ 2 ^ (k + 1) := by
      have h1 : 2 ^ (k + 1) = 2 * 2 ^ k := by rw [pow_succ]; omega
      have h2 : 1 ≤ 2 ^ k := Nat.one_le_two_pow
      omega
    obtain ⟨e, he⟩ := getPathElements_level fuel i (2 ^ (k + 1 + 1)) m hlen (by omega) hi
    have h3 : ¬ m.length = 3 := by omega
    rw [if_neg h3] at he
    obtain ⟨path, hp, hl⟩ := ih (m.drop (2 ^ (k + 1 + 1))) (i / 2) fuel
      (by rw [List.length_drop]; omega) (by omega) (by omega)
    rw [hp] at he
    exact ⟨e :: path, he, by rw [List.length_cons, hl]⟩

set_option maxRecDepth 1000000 in
/-- The store built from the first five test txids, slot by slot. -/
theorem buildMerkleTreeStore_testTxids_odd :
    BuildMerkleTreeStore (testTxids.take 5) = .ok testTreeOdd := by
  decide

set_option maxRecDepth 100000 in
/-- Counterexample to C14: the tree of the first five test txids has five leaves, and
`GetTxMerklePath(5, tree)` returns a path (the one of leaf 4 with Index 5), not an error. -/
theorem getTxMerklePath_out_of_range_counterexample :
    BuildMerkleTreeStore (testTxids.take 5) = .ok testTreeOdd ∧
    (testTxids.take 5).length ≤ 5 ∧
    GetTxMerklePath 5 testTreeOdd = .ok
      { Index := 5
        Path := some
          [str "e3aa0230aa81abd483023886ad12790acf070e2a9f92d7f0ae3bebd90a904361",
           str "2182a138b398e9201b2cd95d1f48a3b609845d951c0da1ea057578d28dbc46d0",
           str "39e5c80bad47d33ac369c2e4341b81b07821488dab75f4bc1651d3c3bf182a56"] } :=
  ⟨buildMerkleTreeStore_testTxids_odd, by decide, by decide⟩

theorem index_cases {α : Type} (xs : List α) (i : Nat) :
    (∃ x, index xs i = .ok x) ∨ index xs i = .error (.panic "index out of range") := by
  unfold index
  cases xs[i]? with
  | none => exact Or.inr rfl
  | some x => exact Or.inl ⟨x, rfl⟩

theorem index_no_error {α : Type} (xs : List α) (i : Nat) (e : GoError) :
    index xs i ≠ .error (.error e) := by
  intro h
  rcases index_cases xs i with ⟨x, hx⟩ | hx
  · rw [hx] at h
    cases h
  · rw [hx] at h
    cases h

/-- The recursion getPathElements never produces an error value: it returns a path, or an
index is out of range. -/
theorem getPathElements_no_error : ∀ (fuel i : Nat) (m : List (List Nat)) (e : GoError),
    getPathElements fuel i m ≠ .error (.error e) := by
  intro fuel
  induction fuel with
  | zero =>
    intro i m e h
    rw [getPathElements] at h
    cases h
  | succ fuel ih =>
    intro i m e h
    rw [getPathElements] at h
    simp only [bind, Except.bind, pure, Except.pure] at h
    repeat' split at h
    all_goals first
      | (cases h; done)
      | (cases h
         first
           | exact absurd (by assumption) (index_no_error m _ e)
           | exact absurd (by assumption) (ih _ _ e))
      | (cases h
         rename_i heq
         split at heq
         · cases heq
           exact absurd (by assumption) (index_no_error m _ e)
         · cases heq)

/-- Claim C14 as amended: GetTxMerklePath has no error result and does not compare the
index with the leaf count. It never yields an error value, whenever it returns the Index is
the given one, and for every tree built from `n` txids and every index `i` with
`n ≤ i < P`, `P` the next power of two of `n`, it returns a MerklePath with Index `i`. -/
theorem getTxMerklePath_unchecked_index (T tree : List (List Nat)) (i : Nat) :
    (∀ e, GetTxMerklePath i tree ≠ .error (.error e)) ∧
    (∀ mp, GetTxMerklePath i tree = .ok mp → mp.Index = i % 2 ^ 64) ∧
    (BuildMerkleTreeStore T = .ok tree → T.length ≤ i → i < nextPowerOfTwo T.length →
      i < 2 ^ 63 → ∃ mp, GetTxMerklePath i tree = .ok mp ∧ mp.Index = i) := by
  refine ⟨?_, ?_, ?_⟩
  · intro e h
    unfold GetTxMerklePath at h
    by_cases h1 : tree.length ≠ 1
    · rw [if_pos h1] at h
      cases hp : getPathElements (tree.length + 1) i tree with
      | error f =>
        rw [hp] at h
        have : f = .error e := by
          simp only [bind, Except.bind] at h
          exact Except.error.inj h
        rw [this] at hp
        exact getPathElements_no_error _ _ _ _ hp
      | ok path =>
        rw [hp] at h
        cases h
    · rw [if_neg h1] at h
      cases h
  · intro mp h
    unfold GetTxMerklePath at h
    by_cases h1 : tree.length ≠ 1
    · rw [if_pos h1] at h
      cases hp : getPathElements (tree.length + 1) i tree with
      | error f =>
        rw [hp] at h
        cases h
      | ok path =>
        rw [hp] at h
        cases h
        rfl
    · rw [if_neg h1] at h
      cases h
      rfl
  · intro h hlo hhi hint
    obtain ⟨hn, ⟨hlen, -⟩, -, -⟩ := buildMerkleTreeStore_rel T tree h
    obtain ⟨k, hk, -, -⟩ := nextPowerOfTwo_spec T.length hn
    rw [hk] at hlen hhi
    have hi64 : i % 2 ^ 64 = i := Nat.mod_eq_of_lt (by omega)
    cases k with
    | zero => norm_num at hhi; omega
    | succ k =>
      have h1 : k < 2 ^ k := Nat.lt_two_pow k
      have h2 : 2 ^ (k + 1) = 2 * 2 ^ k := by rw [pow_succ]; omega
      obtain ⟨path, hp, -⟩ := getPathElements_total k tree i (tree.length + 1) hlen hhi
        (by omega)
      refine ⟨{ Index := i % 2 ^ 64, Path := some path }, ?_, hi64⟩
      unfold GetTxMerklePath
      rw [if_pos (by omega), hp]
      rfl

set_option maxRecDepth 100000 in
/-- Witness of C14 as amended: index 5 on the tree of the first five test txids. -/
theorem getTxMerklePath_unchecked_index_witness :
    BuildMerkleTreeStore (testTxids.take 5) = .ok testTreeOdd ∧
    (testTxids.take 5).length ≤ 5 ∧ 5 < nextPowerOfTwo (testTxids.take 5).length ∧
    5 < 2 ^ 63 ∧ ∃ mp, GetTxMerklePath 5 testTreeOdd = .ok mp ∧ mp.Index = 5 :=
  ⟨buildMerkleTreeStore_testTxids_odd, by decide, by decide, by decide,
    (getTxMerklePath_unchecked_index (testTxids.take 5) testTreeOdd 5).2.2
      buildMerkleTreeStore_testTxids_odd (by decide) (by decide) (by decide)⟩

end Bc

namespace Bc

/-! ## Variable-length integers -/

theorem littleEndianOr_eq (l : List Nat) (hb : IsBytes l) :
    littleEndianOr l = littleEndianNat l := by
  induction l with
  | nil => rfl
  | cons x rest ih =>
    have hx : x < 2 ^ 8 := by have := hb x (by simp); omega
    rw [littleEndianOr, littleEndianNat, or_shiftLeft_of_lt x _ 8 hx,
      ih (fun y hy => hb y (List.mem_cons_of_mem _ hy))]
    omega

theorem putLittleEndian_length (n v : Nat) : (putLittleEndian n v).length = n := by
  induction n generalizing v with
  | zero => rfl
  | succ n ih => rw [putLittleEndian, List.length_cons, ih]

theorem putLittleEndian_isBytes (n v : Nat) : IsBytes (putLittleEndian n v) := by
  induction n generalizing v with
  | zero => intro x hx; cases hx
  | succ n ih =>
    intro x hx
    rw [putLittleEndian] at hx
    rcases List.mem_cons.1 hx with rfl | hx
    · exact Nat.mod_lt _ (by norm_num)
    · exact ih _ x hx

theorem littleEndianNat_putLittleEndian (n v : Nat) :
    littleEndianNat (putLittleEndian n v) = v % 256 ^ n := by
  induction n generalizing v with
  | zero => simp [putLittleEndian, littleEndianNat, Nat.mod_one]
  | succ n ih =>
    have hp : 256 ^ (n + 1) = 256 * 256 ^ n := by rw [pow_succ, Nat.mul_comm]
    rw [putLittleEndian, littleEndianNat, ih, Nat.shiftRight_eq_div_pow, hp, Nat.mod_mul]

theorem littleEndianOr_put (n v : Nat) (rest : List Nat) :
    littleEndianOr ((putLittleEndian n v ++ rest).take n) = v % 256 ^ n := by
  rw [List.take_left' (putLittleEndian_length n v),
    littleEndianOr_eq _ (putLittleEndian_isBytes n v), littleEndianNat_putLittleEndian]

theorem slice_cons_put (m n hi v : Nat) (rest : List Nat) (h : hi = n + 1) :
    slice (m :: putLittleEndian n v ++ rest) 1 hi = putLittleEndian n v := by
  subst h
  unfold slice
  simp only [List.cons_append, List.drop_succ_cons, List.drop_zero, Nat.add_sub_cancel]
  exact List.take_left' (putLittleEndian_length _ _)

theorem littleEndianOr_take_put (n v : Nat) :
    littleEndianOr ((putLittleEndian n v).take n) = v % 256 ^ n := by
  rw [List.take_of_length_le (by rw [putLittleEndian_length]),
    littleEndianOr_eq _ (putLittleEndian_isBytes n v), littleEndianNat_putLittleEndian]

theorem varIntBytes_isBytes (v : Nat) : IsBytes (VarInt.Bytes v) := by
  unfold VarInt.Bytes
  split_ifs
  · intro x hx
    rw [List.mem_singleton] at hx
    rw [hx]
    exact Nat.mod_lt _ (by norm_num)
  all_goals
    intro x hx
    rcases List.mem_cons.1 hx with rfl | hx
    · norm_num
    · exact putLittleEndian_isBytes _ _ x hx

theorem varIntBytes_length_pos (v : Nat) : 0 < (VarInt.Bytes v).length := by
  unfold VarInt.Bytes
  split_ifs <;> simp

theorem sliceChecked_ok (b : List Nat) (lo hi : Nat) (h1 : lo ≤ hi) (h2 : hi ≤ b.length) :
    sliceChecked b lo hi = .ok (slice b lo hi) := by
  unfold sliceChecked
  rw [if_pos ⟨h1, h2⟩]

/-- Decoding reads back a uint64 that `VarInt.Bytes` wrote, and its size, whatever
follows. -/
theorem newVarIntFromBytes_bytes (v : Nat) (rest : List Nat) (hv : v < 2 ^ 64) :
    NewVarIntFromBytes (VarInt.Bytes v ++ rest) = .ok (v, (VarInt.Bytes v).length) := by
  unfold VarInt.Bytes
  by_cases h1 : v < 0xfd
  · have hm : v % 256 = v := Nat.mod_eq_of_lt (by omega)
    simp only [h1, if_true, hm]
    unfold NewVarIntFromBytes
    have hidx : index ([v] ++ rest) 0 = .ok v := by simp [index]
    have c1 : ¬ v = 0xff := by omega
    have c2 : ¬ v = 0xfe := by omega
    have c3 : ¬ v = 0xfd := by omega
    simp only [hidx, bind, Except.bind, c1, c2, c3, if_false, pure, Except.pure]
    have : LittleEndianUint16 [v, 0] = v := by
      unfold LittleEndianUint16
      rw [List.take_of_length_le (by simp), littleEndianOr_eq _ (by
        intro x hx
        simp only [List.mem_cons, List.mem_singleton, List.not_mem_nil, or_false] at hx
        rcases hx with rfl | rfl <;> omega)]
      simp only [littleEndianNat]
      omega
    rw [this]
    rfl
  · by_cases h2 : v < 0x10000
    · simp only [h1, h2, if_true, if_false]
      unfold NewVarIntFromBytes
      have hidx : index (0xfd :: putLittleEndian 2 (v % 2 ^ 16) ++ rest) 0 = .ok 0xfd := by
        simp [index]
      have hs : sliceChecked (0xfd :: putLittleEndian 2 (v % 2 ^ 16) ++ rest) 1 3
          = .ok (slice (0xfd :: putLittleEndian 2 (v % 2 ^ 16) ++ rest) 1 3) :=
        sliceChecked_ok _ 1 3 (by omega) (by
          simp only [List.cons_append, List.length_cons, List.length_append,
            putLittleEndian_length]; omega)
      simp only [hidx, hs, bind, Except.bind, pure, Except.pure]
      have hval : LittleEndianUint16 (slice (0xfd :: putLittleEndian 2 (v % 2 ^ 16) ++ rest) 1 3)
          = v := by
        rw [slice_cons_put _ 2 3 _ _ rfl]
        unfold LittleEndianUint16
        rw [littleEndianOr_take_put]
        omega
      rw [hval]
      simp [putLittleEndian_length]
    · by_cases h3 : v < 0x100000000
      · simp only [h1, h2, h3, if_true, if_false]
        unfold NewVarIntFromBytes
        have hidx : index (0xfe :: putLittleEndian 4 (v % 2 ^ 32) ++ rest) 0 = .ok 0xfe := by
          simp [index]
        have hs : sliceChecked (0xfe :: putLittleEndian 4 (v % 2 ^ 32) ++ rest) 1 5
            = .ok (slice (0xfe :: putLittleEndian 4 (v % 2 ^ 32) ++ rest) 1 5) :=
          sliceChecked_ok _ 1 5 (by omega) (by
            simp only [List.cons_append, List.length_cons, List.length_append,
              putLittleEndian_length]; omega)
        simp only [hidx, hs, bind, Except.bind, pure, Except.pure]
        have hsl : slice (0xfe :: putLittleEndian 4 (v % 2 ^ 32) ++ rest) 1 5
            = putLittleEndian 4 (v % 2 ^ 32) := slice_cons_put _ 4 5 _ _ rfl
        have hval : LittleEndianUint32 (putLittleEndian 4 (v % 2 ^ 32)) = v := by
          rw [littleEndianUint32_eq _ (putLittleEndian_length _ _) (putLittleEndian_isBytes _ _),
            littleEndianNat_putLittleEndian]
          omega
        rw [hsl, hval]
        simp [putLittleEndian_length]
      · simp only [h1, h2, h3, if_false]
        unfold NewVarIntFromBytes
        have hidx : index (0xff :: putLittleEndian 8 (v % 2 ^ 64) ++ rest) 0 = .ok 0xff := by
          simp [index]
        have hs : sliceChecked (0xff :: putLittleEndian 8 (v % 2 ^ 64) ++ rest) 1 9
            = .ok (slice (0xff :: putLittleEndian 8 (v % 2 ^ 64) ++ rest) 1 9) :=
          sliceChecked_ok _ 1 9 (by omega) (by
            simp only [List.cons_append, List.length_cons, List.length_append,
              putLittleEndian_length]; omega)
        simp only [hidx, hs, bind, Except.bind, pure, Except.pure]
        have hval : LittleEndianUint64 (slice (0xff :: putLittleEndian 8 (v % 2 ^ 64) ++ rest) 1 9)
            = v := by
          rw [slice_cons_put _ 8 9 _ _ rfl]
          unfold LittleEndianUint64
          rw [littleEndianOr_take_put]
          omega
        rw [hval]
        simp [putLittleEndian_length]

end Bc

namespace Bc

/-! ## The binary form of a Merkle path -/

theorem bytesFromStringReverse_hex (e : List Nat) (h : e.length = 64 ∧ IsHexStr e) :
    (hexDecodeString e).2 = none ∧ (BytesFromStringReverse e).length = 32 ∧
      IsBytes (BytesFromStringReverse e) := by
  obtain ⟨h1, h2⟩ := hexDecodeString_ok_iff e.length e (le_refl _)
  have hok : (hexDecodeString e).2 = none := h1.2 ⟨by rw [h.1], h.2⟩
  obtain ⟨g1, g2⟩ := h2 hok
  refine ⟨hok, ?_, ?_⟩
  · unfold BytesFromStringReverse ReverseBytes
    rw [List.length_reverse]
    omega
  · exact isBytes_reverse _ g2

theorem isHex_of_isTxid (e : List Nat) (h : IsTxid e) : e.length = 64 ∧ IsHexStr e :=
  ⟨h.1, isHexStr_of_lower e (isLowerHexStr_of_isTxid e h)⟩

theorem foldl_append_bytes (path : List (List Nat)) (init : List Nat) :
    path.foldl (fun bytes leaf => bytes ++ BytesFromStringReverse leaf) init =
      init ++ path.flatMap BytesFromStringReverse := by
  induction path generalizing init with
  | nil => simp
  | cons e rest ih => rw [List.foldl_cons, ih, List.flatMap_cons, List.append_assoc]

theorem merklePath_bytes_eq (mp : MerklePath) :
    mp.Bytes = .ok (VarInt.Bytes mp.Index ++ VarInt.Bytes (sliceElems mp.Path).length ++
      (sliceElems mp.Path).flatMap BytesFromStringReverse) := by
  unfold MerklePath.Bytes
  simp only [foldl_append_bytes, List.nil_append]

theorem flatMap_bytes_length (path : List (List Nat))
    (h : ∀ e ∈ path, e.length = 64 ∧ IsHexStr e) :
    (path.flatMap BytesFromStringReverse).length = 32 * path.length := by
  induction path with
  | nil => rfl
  | cons e rest ih =>
    rw [List.flatMap_cons, List.length_append, List.length_cons,
      (bytesFromStringReverse_hex e (h e (by simp))).2.1,
      ih (fun x hx => h x (List.mem_cons_of_mem _ hx))]
    omega

/-- Claim C16: for every MerklePath with 32-byte hex entries, `Bytes` is the varint of the
Index, then the varint of the number of entries, then each entry in order as its 32 decoded
bytes in reversed order; its length is the two varint lengths plus 32 per entry. -/
theorem merklePath_bytes_layout (mp : MerklePath)
    (h : ∀ e ∈ sliceElems mp.Path, e.length = 64 ∧ IsHexStr e) :
    mp.Bytes = .ok (VarInt.Bytes mp.Index ++ VarInt.Bytes (sliceElems mp.Path).length ++
      (sliceElems mp.Path).flatMap (fun e => (hexDecodeString e).1.reverse)) ∧
    (∀ e ∈ sliceElems mp.Path,
      (hexDecodeString e).2 = none ∧ ((hexDecodeString e).1.reverse).length = 32) ∧
    ∃ b, mp.Bytes = .ok b ∧
      b.length = (VarInt.Bytes mp.Index).length +
        (VarInt.Bytes (sliceElems mp.Path).length).length + 32 * (sliceElems mp.Path).length := by
  refine ⟨merklePath_bytes_eq mp, ?_, _, merklePath_bytes_eq mp, ?_⟩
  · intro e he
    obtain ⟨g1, g2, -⟩ := bytesFromStringReverse_hex e (h e he)
    exact ⟨g1, g2⟩
  · rw [List.length_append, List.length_append, flatMap_bytes_length _ h]

set_option maxRecDepth 1000000 in
/-- The check of `TestBuildingMerklePathBinary` and `TestDecodingMerklePathBinary`: the
test path encodes to the expected bytes `88 04 0c82025f…2d87034`, and they decode to it. -/
theorem testMerklePathBinary :
    testMerklePath.String = .ok testMerklePathHex ∧
    testMerklePath.Bytes = .ok (hexDecodeString testMerklePathHex).1 ∧
    NewMerklePathFromStr testMerklePathHex = .ok testMerklePath := by
  decide

set_option maxRecDepth 100000 in
/-- Witness of C16: the path of `TestBuildingMerklePathBinary`. -/
theorem merklePath_bytes_layout_witness :
    (∀ e ∈ sliceElems testMerklePath.Path, e.length = 64 ∧ IsHexStr e) ∧
    testMerklePath.Bytes = .ok (VarInt.Bytes testMerklePath.Index ++
      VarInt.Bytes (sliceElems testMerklePath.Path).length ++
      (sliceElems testMerklePath.Path).flatMap (fun e => (hexDecodeString e).1.reverse)) :=
  ⟨by decide, (merklePath_bytes_layout testMerklePath (by decide)).1⟩

theorem slice_middle (pre mid post : List Nat) (hi : Nat) (h : hi = pre.length + mid.length) :
    slice (pre ++ mid ++ post) pre.length hi = mid := by
  subst h
  unfold slice
  rw [List.append_assoc, List.drop_left, Nat.add_sub_cancel_left, List.take_left]

/-- The leaf loop reads back the entries that `Bytes` wrote. -/
theorem parseLeaves_flatMap (entries : List (List Nat)) :
    ∀ (pre post : List Nat) (acc : List (List Nat)), (∀ e ∈ entries, IsTxid e) →
    parseLeaves entries.length (pre ++ entries.flatMap BytesFromStringReverse ++ post)
      pre.length acc = .ok (acc ++ entries) := by
  induction entries with
  | nil =>
    intro pre post acc _
    simp [parseLeaves]
  | cons e rest ih =>
    intro pre post acc h
    have he := h e (by simp)
    obtain ⟨-, hl, -⟩ := bytesFromStringReverse_hex e (isHex_of_isTxid e he)
    have hsl : sliceChecked
        (pre ++ (e :: rest).flatMap BytesFromStringReverse ++ post) pre.length (pre.length + 32)
        = .ok (BytesFromStringReverse e) := by
      have e1 : pre ++ (e :: rest).flatMap BytesFromStringReverse ++ post =
          pre ++ BytesFromStringReverse e ++ (rest.flatMap BytesFromStringReverse ++ post) := by
        rw [List.flatMap_cons]
        simp only [List.append_assoc]
      rw [e1, sliceChecked_ok _ _ _ (by omega) (by
        simp only [List.length_append, hl]; omega),
        slice_middle pre (BytesFromStringReverse e) _ _ (by rw [hl])]
    rw [List.length_cons, parseLeaves, hsl]
    simp only [bind, Except.bind]
    have e2 : pre ++ (e :: rest).flatMap BytesFromStringReverse ++ post =
        (pre ++ BytesFromStringReverse e) ++ rest.flatMap BytesFromStringReverse ++ post := by
      rw [List.flatMap_cons]
      simp only [List.append_assoc]
    have e3 : pre.length + 32 = (pre ++ BytesFromStringReverse e).length := by
      rw [List.length_append, hl]
    rw [e2, e3, ih _ post _ (fun x hx => h x (List.mem_cons_of_mem _ hx)),
      stringFromBytesReverse_bytes e (isLowerHexStr_of_isTxid e he)]
    simp

/-- Decoding the bytes of a path: the Index and the entries come back, in a non-nil
Path. -/
theorem newMerklePathFromBytes_bytes (idx : Nat) (entries : List (List Nat))
    (hidx : idx < 2 ^ 64) (hlen : entries.length < 2 ^ 63) (h : ∀ e ∈ entries, IsTxid e) :
    NewMerklePathFromBytes (VarInt.Bytes idx ++ VarInt.Bytes entries.length ++
      entries.flatMap BytesFromStringReverse) = .ok { Index := idx, Path := some entries } := by
  unfold NewMerklePathFromBytes
  have hs0 : ∀ b : List Nat, sliceChecked b 0 b.length = .ok b := by
    intro b
    rw [sliceChecked_ok _ _ _ (by omega) (le_refl _), slice_all]
  have hv1 : NewVarIntFromBytes (VarInt.Bytes idx ++ VarInt.Bytes entries.length ++
      entries.flatMap BytesFromStringReverse) = .ok (idx, (VarInt.Bytes idx).length) := by
    rw [List.append_assoc]
    exact newVarIntFromBytes_bytes idx _ hidx
  have hs1 : sliceChecked (VarInt.Bytes idx ++ VarInt.Bytes entries.length ++
      entries.flatMap BytesFromStringReverse) (VarInt.Bytes idx).length
      (VarInt.Bytes idx ++ VarInt.Bytes entries.length ++
        entries.flatMap BytesFromStringReverse).length
      = .ok (VarInt.Bytes entries.length ++ entries.flatMap BytesFromStringReverse) := by
    rw [sliceChecked_ok _ _ _ (by simp only [List.length_append]; omega) (le_refl _)]
    unfold slice
    rw [List.append_assoc, List.drop_left, List.take_of_length_le (by
      simp only [List.length_append]; omega)]
  have hv2 : NewVarIntFromBytes (VarInt.Bytes entries.length ++
      entries.flatMap BytesFromStringReverse)
      = .ok (entries.length, (VarInt.Bytes entries.length).length) :=
    newVarIntFromBytes_bytes entries.length _ (by omega)
  have hp := parseLeaves_flatMap entries (VarInt.Bytes idx ++ VarInt.Bytes entries.length) [] []
    h
  rw [List.append_nil, List.length_append, List.nil_append] at hp
  simp only [hs0, hv1, bind, Except.bind, Nat.zero_add, hs1, hv2, hlen, if_true, hp, pure,
    Except.pure]

set_option maxRecDepth 100000 in
/-- Counterexample to C15: the null path of a sole leaf encodes to `00 00`, which decodes
to the empty non-nil path; the two differ as values and in their JSON (`null` and `[]`). -/
theorem merklePath_roundtrip_nil_counterexample :
    ({ Index := 0, Path := none } : MerklePath).Bytes = .ok [0, 0] ∧
    NewMerklePathFromBytes [0, 0] = .ok { Index := 0, Path := some [] } ∧
    ({ Index := 0, Path := some [] } : MerklePath) ≠ { Index := 0, Path := none } ∧
    ({ Index := 0, Path := none } : MerklePath).MarshalJSON
      = some (str "\x7b\"index\":0,\"path\":null\x7d") ∧
    ({ Index := 0, Path := some [] } : MerklePath).MarshalJSON
      = some (str "\x7b\"index\":0,\"path\":[]\x7d") := by
  decide

/-- Claim C15 as amended: for every MerklePath whose Path entries are each 64 lowercase hex
characters, `NewMerklePathFromBytes(mp.Bytes())` succeeds and returns the same Index and the
same entries in a non-nil Path, so a non-nil Path comes back unchanged and the nil Path of a
sole leaf comes back as the empty non-nil Path; likewise `NewMerklePathFromStr(mp.String())`. -/
theorem merklePath_bytes_roundtrip (mp : MerklePath) (hidx : mp.Index < 2 ^ 64)
    (hlen : (sliceElems mp.Path).length < 2 ^ 63) (h : ∀ e ∈ sliceElems mp.Path, IsTxid e) :
    ∃ b s, mp.Bytes = .ok b ∧ mp.String = .ok s ∧
      NewMerklePathFromBytes b = .ok { Index := mp.Index, Path := some (sliceElems mp.Path) } ∧
      NewMerklePathFromStr s = .ok { Index := mp.Index, Path := some (sliceElems mp.Path) } ∧
      (mp.Path ≠ none → NewMerklePathFromBytes b = .ok mp ∧ NewMerklePathFromStr s = .ok mp) := by
  have hb := merklePath_bytes_eq mp
  have hdec := newMerklePathFromBytes_bytes mp.Index (sliceElems mp.Path) hidx hlen h
  have hbytes : IsBytes (VarInt.Bytes mp.Index ++ VarInt.Bytes (sliceElems mp.Path).length ++
      (sliceElems mp.Path).flatMap BytesFromStringReverse) := by
    intro x hx
    rcases List.mem_append.1 hx with hx | hx
    · rcases List.mem_append.1 hx with hx | hx
      · exact varIntBytes_isBytes _ x hx
      · exact varIntBytes_isBytes _ x hx
    · obtain ⟨e, he, hxe⟩ := List.mem_flatMap.1 hx
      exact (bytesFromStringReverse_hex e (isHex_of_isTxid e (h e he))).2.2 x hxe
  have hstr : NewMerklePathFromStr (hexEncodeToString
      (VarInt.Bytes mp.Index ++ VarInt.Bytes (sliceElems mp.Path).length ++
        (sliceElems mp.Path).flatMap BytesFromStringReverse))
      = .ok { Index := mp.Index, Path := some (sliceElems mp.Path) } := by
    unfold NewMerklePathFromStr
    rw [hexDecodeString_hexEncodeToString _ hbytes]
    exact hdec
  refine ⟨_, _, hb, by unfold MerklePath.String; rw [hb], hdec, hstr, ?_⟩
  intro hne
  have hmp : ({ Index := mp.Index, Path := some (sliceElems mp.Path) } : MerklePath) = mp := by
    cases mp with
    | mk i p =>
      cases p with
      | none => exact absurd rfl hne
      | some p => rfl
  rw [hdec, hstr, hmp]
  exact ⟨rfl, rfl⟩

set_option maxRecDepth 100000 in
/-- Witness of C15 as amended: the path of `TestDecodingMerklePathBinary`. -/
theorem merklePath_bytes_roundtrip_witness :
    testMerklePath.Index < 2 ^ 64 ∧ (sliceElems testMerklePath.Path).length < 2 ^ 63 ∧
    (∀ e ∈ sliceElems testMerklePath.Path, IsTxid e) ∧
    ∃ b s, testMerklePath.Bytes = .ok b ∧ testMerklePath.String = .ok s ∧
      NewMerklePathFromBytes b
        = .ok { Index := testMerklePath.Index, Path := some (sliceElems testMerklePath.Path) } ∧
      NewMerklePathFromStr s
        = .ok { Index := testMerklePath.Index, Path := some (sliceElems testMerklePath.Path) } ∧
      (testMerklePath.Path ≠ none →
        NewMerklePathFromBytes b = .ok testMerklePath ∧
        NewMerklePathFromStr s = .ok testMerklePath) :=
  ⟨by decide, by decide, by decide,
    merklePath_bytes_roundtrip testMerklePath (by decide) (by decide) (by decide)⟩

end Bc

namespace Bc

/-! ## Block headers from strings and from JSON -/

theorem uint32ToBytes_length (v : Nat) : (UInt32ToBytes v).length = 4 := rfl

/-- A header parsed from 80 bytes serialises to the bytes it was parsed from. -/
theorem bytes_of_newBlockHeaderFromBytes (b : List Nat) (h : BlockHeader) (hlen : b.length = 80)
    (hb : IsBytes b) (hh : NewBlockHeaderFromBytes b = .ok h) : h.Bytes = b := by
  rw [newBlockHeaderFromBytes_ok b hlen] at hh
  cases hh
  simp only [BlockHeader.Bytes, ReverseBytes, List.reverse_reverse, List.nil_append]
  rw [uint32ToBytes_littleEndianUint32 _ (slice_length b 0 4 (by omega)) (isBytes_slice b 0 4 hb),
    uint32ToBytes_littleEndianUint32 _ (slice_length b 68 72 (by omega))
      (isBytes_slice b 68 72 hb),
    uint32ToBytes_littleEndianUint32 _ (slice_length b 76 80 (by omega))
      (isBytes_slice b 76 80 hb)]
  exact headerSlices b hlen

/-- A header parsed from bytes serialises to 80 bytes. -/
theorem bytes_length_of_newBlockHeaderFromBytes (b : List Nat) (h : BlockHeader)
    (hh : NewBlockHeaderFromBytes b = .ok h) : h.Bytes.length = 80 := by
  by_cases hlen : b.length = 80
  · rw [newBlockHeaderFromBytes_ok b hlen] at hh
    cases hh
    simp only [BlockHeader.Bytes, ReverseBytes, List.nil_append, List.length_append,
      List.length_reverse, uint32ToBytes_length]
    rw [slice_length b 4 36 (by omega), slice_length b 36 68 (by omega),
      slice_length b 72 76 (by omega)]
  · rw [newBlockHeaderFromBytes_err b hlen] at hh
    cases hh

/-- The three outcomes of NewBlockHeaderFromStr. -/
theorem newBlockHeaderFromStr_cases (s : List Nat) :
    (s.length ≠ 160 ∧
      NewBlockHeaderFromStr s = .error (.error (.new "block header should be 80 bytes long"))) ∨
    (s.length = 160 ∧ ∃ e, (hexDecodeString s).2 = some e ∧
      NewBlockHeaderFromStr s = .error (.error e)) ∨
    (s.length = 160 ∧ (hexDecodeString s).2 = none ∧ IsHexStr s ∧
      (hexDecodeString s).1.length = 80 ∧ IsBytes (hexDecodeString s).1 ∧
      ∃ h, NewBlockHeaderFromBytes (hexDecodeString s).1 = .ok h ∧
        NewBlockHeaderFromStr s = .ok h) := by
  by_cases hlen : s.length = 160
  · obtain ⟨h1, h2⟩ := hexDecodeString_ok_iff s.length s (le_refl _)
    rcases hd : hexDecodeString s with ⟨b, e⟩
    cases e with
    | some e =>
      refine Or.inr (Or.inl ⟨hlen, e, rfl, ?_⟩)
      unfold NewBlockHeaderFromStr
      rw [if_neg (by simp [hlen]), hd]
    | none =>
      rw [hd] at h1 h2
      obtain ⟨g1, g2⟩ := h2 rfl
      have hb80 : b.length = 80 := by simp only at g1; omega
      refine Or.inr (Or.inr ⟨hlen, rfl, (h1.1 rfl).2, hb80, g2, _,
        newBlockHeaderFromBytes_ok b hb80, ?_⟩)
      unfold NewBlockHeaderFromStr
      rw [if_neg (by simp [hlen]), hd]
      exact newBlockHeaderFromBytes_ok b hb80
  · refine Or.inl ⟨hlen, ?_⟩
    unfold NewBlockHeaderFromStr
    rw [if_pos hlen]

/-- Claim C18: NewBlockHeaderFromStr succeeds if and only if its argument is exactly 160
characters long and is valid hex; when it succeeds the header is the one
NewBlockHeaderFromBytes gives for the 80 decoded bytes, and for a lowercase input `s` the
`String` of the header is `s`. -/
theorem newBlockHeaderFromStr_iff (s : List Nat) :
    ((∃ h, NewBlockHeaderFromStr s = .ok h) ↔ s.length = 160 ∧ IsHexStr s) ∧
    (∀ h, NewBlockHeaderFromStr s = .ok h →
      (hexDecodeString s).2 = none ∧ (hexDecodeString s).1.length = 80 ∧
      NewBlockHeaderFromBytes (hexDecodeString s).1 = .ok h) ∧
    (∀ h, NewBlockHeaderFromStr s = .ok h → (∀ c ∈ s, isLowerHex c = true) →
      h.String = s) := by
  rcases newBlockHeaderFromStr_cases s with ⟨hlen, he⟩ | ⟨hlen, e, hd, he⟩ |
    ⟨hlen, hd, hhex, hb80, hbytes, h0, hb, hs⟩
  · refine ⟨⟨?_, fun h => absurd h.1 hlen⟩, ?_, ?_⟩
    · rintro ⟨h, hh⟩
      rw [he] at hh
      cases hh
    · intro h hh
      rw [he] at hh
      cases hh
    · intro h hh
      rw [he] at hh
      cases hh
  · have hnot : ¬ (s.length % 2 = 0 ∧ IsHexStr s) := by
      intro hc
      have := (hexDecodeString_ok_iff s.length s (le_refl _)).1.2 hc
      rw [hd] at this
      cases this
    refine ⟨⟨?_, fun h => absurd ⟨by rw [h.1], h.2⟩ hnot⟩, ?_, ?_⟩
    · rintro ⟨h, hh⟩
      rw [he] at hh
      cases hh
    · intro h hh
      rw [he] at hh
      cases hh
    · intro h hh
      rw [he] at hh
      cases hh
  · refine ⟨⟨fun _ => ⟨hlen, hhex⟩, fun _ => ⟨h0, hs⟩⟩, ?_, ?_⟩
    · intro h hh
      rw [hs] at hh
      cases hh
      exact ⟨hd, hb80, hb⟩
    · intro h hh hlow
      rw [hs] at hh
      cases hh
      unfold BlockHeader.String
      rw [bytes_of_newBlockHeaderFromBytes _ h0 hb80 hbytes hb]
      exact (hexDecodeString_lower s.length s (le_refl _) ⟨by rw [hlen], hlow⟩).2.1

/-- Claim C19: for every 160-character hex string `s`, ExtractMerkleRootFromBlockHeader
returns, with a nil error, the lowercase hex of bytes 36..67 of the decoded header in
reversed order, which is HashMerkleRootStr of the parsed header; and it returns the empty
string and an error exactly when NewBlockHeaderFromStr fails, with that error. -/
theorem extractMerkleRootFromBlockHeader_spec (s : List Nat) :
    (s.length = 160 → IsHexStr s →
      ExtractMerkleRootFromBlockHeader s =
        .ok (hexEncodeToString (slice (hexDecodeString s).1 36 68).reverse, none) ∧
      IsLowerHexStr (hexEncodeToString (slice (hexDecodeString s).1 36 68).reverse)) ∧
    (∀ h, NewBlockHeaderFromStr s = .ok h →
      ExtractMerkleRootFromBlockHeader s = .ok (h.HashMerkleRootStr, none)) ∧
    (∀ e, NewBlockHeaderFromStr s = .error (.error e) ↔
      ExtractMerkleRootFromBlockHeader s = .ok ([], some e)) ∧
    (∀ f, NewBlockHeaderFromStr s = .error f → ∃ e, f = .error e) ∧
    (∀ r e, ExtractMerkleRootFromBlockHeader s = .ok (r, some e) → r = []) := by
  rcases newBlockHeaderFromStr_cases s with ⟨hlen, he⟩ | ⟨hlen, e, hd, he⟩ |
    ⟨hlen, hd, hhex, hb80, hbytes, h0, hb, hs⟩
  · have hx : ExtractMerkleRootFromBlockHeader s
        = .ok ([], some (.new "block header should be 80 bytes long")) := by
      unfold ExtractMerkleRootFromBlockHeader
      rw [he]
    refine ⟨fun h => absurd h hlen, ?_, ?_, ?_, ?_⟩
    · intro h hh
      rw [he] at hh
      cases hh
    · intro e
      rw [he, hx]
      constructor <;> intro hh <;> cases hh <;> rfl
    · intro f hf
      rw [he] at hf
      cases hf
      exact ⟨_, rfl⟩
    · intro r e hr
      rw [hx] at hr
      cases hr
      rfl
  · have hx : ExtractMerkleRootFromBlockHeader s = .ok ([], some e) := by
      unfold ExtractMerkleRootFromBlockHeader
      rw [he]
    have hnot : ¬ (s.length % 2 = 0 ∧ IsHexStr s) := by
      intro hc
      have := (hexDecodeString_ok_iff s.length s (le_refl _)).1.2 hc
      rw [hd] at this
      cases this
    refine ⟨fun h1 h2 => absurd ⟨by rw [h1], h2⟩ hnot, ?_, ?_, ?_, ?_⟩
    · intro h hh
      rw [he] at hh
      cases hh
    · intro e2
      rw [he, hx]
      constructor <;> intro hh <;> cases hh <;> rfl
    · intro f hf
      rw [he] at hf
      cases hf
      exact ⟨_, rfl⟩
    · intro r e2 hr
      rw [hx] at hr
      cases hr
      rfl
  · have hroot : h0.HashMerkleRoot = (slice (hexDecodeString s).1 36 68).reverse := by
      rw [newBlockHeaderFromBytes_ok _ hb80] at hb
      cases hb
      rfl
    have hx : ExtractMerkleRootFromBlockHeader s
        = .ok (hexEncodeToString h0.HashMerkleRoot, none) := by
      unfold ExtractMerkleRootFromBlockHeader
      rw [hs]
    refine ⟨fun _ _ => ⟨by rw [hx, hroot], ?_⟩, ?_, ?_, ?_, ?_⟩
    · exact hexEncodeToString_lower _ (isBytes_reverse _ (isBytes_slice _ 36 68 hbytes))
    · intro h hh
      rw [hs] at hh
      cases hh
      exact hx
    · intro e
      rw [hs, hx]
      constructor
      · intro hh
        cases hh
      · intro hh
        simp at hh
    · intro f hf
      rw [hs] at hf
      cases hf
    · intro r e hr
      rw [hx] at hr
      simp at hr

set_option maxRecDepth 1000000 in
/-- The merkle root of the genesis header, in display order. -/
theorem testGenesisMerkleRoot :
    ExtractMerkleRootFromBlockHeader genesisHeaderHex =
      .ok (str "4a5e1e4baab89f3a32518a88c31bc87f618f76673e2cc77ab2127b7afdeda33b", none) := by
  decide

set_option maxRecDepth 1000000 in
/-- Witness of C19: the header of block 0. -/
theorem extractMerkleRootFromBlockHeader_spec_witness :
    genesisHeaderHex.length = 160 ∧ IsHexStr genesisHeaderHex ∧
    ExtractMerkleRootFromBlockHeader genesisHeaderHex =
      .ok (hexEncodeToString (slice (hexDecodeString genesisHeaderHex).1 36 68).reverse, none) :=
  ⟨by decide, by decide,
    ((extractMerkleRootFromBlockHeader_spec genesisHeaderHex).1 (by decide) (by decide)).1⟩

/-- Claim C17, evaluated on the code: headers from NewBlockHeaderFromBytes and
NewBlockHeaderFromStr serialise to 80 bytes, but UnmarshalJSON checks no length: from the
JSON text with version 1, time 2, nonce 3 and three empty hex strings it returns no error
and leaves a header whose `Bytes` has 12 bytes. -/
theorem blockHeader_bytes_length :
    (∀ b h, NewBlockHeaderFromBytes b = .ok h → h.Bytes.length = 80) ∧
    (∀ s h, NewBlockHeaderFromStr s = .ok h → h.Bytes.length = 80) ∧
    (BlockHeader.UnmarshalJSON
        (fun _ => .ok { Version := 1, Time := 2, Nonce := 3, HashPrevBlock := [],
                        HashMerkleRoot := [], Bits := [] })
        { Version := 0, Time := 0, Nonce := 0, HashPrevBlock := [], HashMerkleRoot := [],
          Bits := [] }
        (str ("\x7b\"version\":1,\"time\":2,\"nonce\":3,\"hashPrevBlock\":\"\"," ++
          "\"merkleRoot\":\"\",\"bits\":\"\"\x7d"))).2 = none ∧
    (BlockHeader.UnmarshalJSON
        (fun _ => .ok { Version := 1, Time := 2, Nonce := 3, HashPrevBlock := [],
                        HashMerkleRoot := [], Bits := [] })
        { Version := 0, Time := 0, Nonce := 0, HashPrevBlock := [], HashMerkleRoot := [],
          Bits := [] }
        (str ("\x7b\"version\":1,\"time\":2,\"nonce\":3,\"hashPrevBlock\":\"\"," ++
          "\"merkleRoot\":\"\",\"bits\":\"\"\x7d"))).1.Bytes.length = 12 := by
  refine ⟨bytes_length_of_newBlockHeaderFromBytes, ?_, rfl, rfl⟩
  intro s h hh
  rcases newBlockHeaderFromStr_cases s with ⟨_, he⟩ | ⟨_, e, _, he⟩ | ⟨_, _, _, _, _, h0, hb, hs⟩
  · rw [he] at hh
    cases hh
  · rw [he] at hh
    cases hh
  · rw [hs] at hh
    cases hh
    exact bytes_length_of_newBlockHeaderFromBytes _ h hb

end Bc

namespace Bc

/-! ## The chainhash store against the string store -/

theorem bytes_hashString (x : List Nat) (hx : IsBytes x) :
    BytesFromStringReverse (hashString x) = x := by
  unfold BytesFromStringReverse hashString ReverseBytes
  rw [hexDecodeString_hexEncodeToString _ (isBytes_reverse x hx)]
  exact List.reverse_reverse x

theorem hashString_lower (x : List Nat) (hx : IsBytes x) : IsLowerHexStr (hashString x) :=
  hexEncodeToString_lower _ (isBytes_reverse x hx)

theorem hashString_ne_nil (x : List Nat) (hx : x.length = 32) : hashString x ≠ [] := by
  intro h
  have hl : (hashString x).length = 64 := by
    unfold hashString ReverseBytes
    rw [hexEncodeToString_length, List.length_reverse, hx]
  rw [h] at hl
  cases hl

theorem merkleTreeParentBytes_good (l r : List Nat) :
    (MerkleTreeParentBytes l r).length = 32 ∧ IsBytes (MerkleTreeParentBytes l r) :=
  ⟨sha256_length _, sha256_isBytes _⟩

/-- The string parent of two display strings is the display string of the byte parent. -/
theorem merkleTreeParentStr_hashString (l r : List Nat) (hl : IsBytes l) (hr : IsBytes r) :
    MerkleTreeParentStr (hashString l) (hashString r) =
      .ok (hashString (MerkleTreeParentBytes l r)) := by
  rw [merkleTreeParentStr_ok _ _ (decode_ok_of_lower _ (hashString_lower l hl))
    (decode_ok_of_lower _ (hashString_lower r hr))]
  unfold parentStr
  rw [bytes_hashString l hl, bytes_hashString r hr]
  rfl

theorem index_map {α β : Type} (f : α → β) (xs : List α) (i : Nat) :
    index (xs.map f) i = (index xs i).map f := by
  unfold index
  rw [List.getElem?_map]
  cases xs[i]? <;> rfl

theorem setIndex_map {α β : Type} (f : α → β) (xs : List α) (i : Nat) (v : α) :
    setIndex (xs.map f) i (f v) = (setIndex xs i v).map (List.map f) := by
  unfold setIndex
  rw [List.length_map]
  by_cases h : i < xs.length
  · rw [if_pos h, if_pos h, ← List.map_set]
    rfl
  · rw [if_neg h, if_neg h]
    rfl

/-- The two loops run in lock step: on slots that are nil or a 32-byte hash, the string
loop on the display strings gives the display strings of what the chainhash loop gives,
or fails the same way. -/
theorem buildLoop_chainHash (size : Nat) : ∀ (fuel i offset : Nat)
    (mc : List (Option (List Nat))),
    (∀ h, some h ∈ mc → h.length = 32 ∧ IsBytes h) →
    buildLoop size fuel i offset (mc.map slotString) =
      (buildLoopChainHash size fuel i offset mc).map (List.map slotString) ∧
    ∀ mc', buildLoopChainHash size fuel i offset mc = .ok mc' →
      ∀ h, some h ∈ mc' → h.length = 32 ∧ IsBytes h := by
  intro fuel
  induction fuel with
  | zero =>
    intro i offset mc hgood
    rw [buildLoop, buildLoopChainHash]
    by_cases hc : i < size - 1
    · rw [if_pos hc, if_pos hc]
      exact ⟨rfl, fun mc' h => by cases h⟩
    · rw [if_neg hc, if_neg hc]
      refine ⟨rfl, fun mc' h => ?_⟩
      cases h
      exact hgood
  | succ fuel ih =>
    intro i offset mc hgood
    rw [buildLoop, buildLoopChainHash]
    by_cases hc : i < size - 1
    · rw [if_pos hc, if_pos hc, index_map]
      have hset : ∀ v : Option (List Nat), (∀ h, v = some h → h.length = 32 ∧ IsBytes h) →
          ((setIndex (mc.map slotString) offset (slotString v) >>= fun m =>
              buildLoop size fuel (i + 2) (offset + 1) m) =
            ((setIndex mc offset v >>= fun m =>
              buildLoopChainHash size fuel (i + 2) (offset + 1) m).map (List.map slotString))) ∧
          ∀ mc', (setIndex mc offset v >>= fun m =>
              buildLoopChainHash size fuel (i + 2) (offset + 1) m) = .ok mc' →
            ∀ h, some h ∈ mc' → h.length = 32 ∧ IsBytes h := by
        intro v hv
        rw [setIndex_map]
        unfold setIndex
        by_cases hlt : offset < mc.length
        · simp only [if_pos hlt, bind, Except.bind, Except.map]
          have hg : ∀ h, some h ∈ mc.set offset v → h.length = 32 ∧ IsBytes h := by
            intro h hm
            rcases List.mem_or_eq_of_mem_set hm with hm | hm
            · exact hgood h hm
            · exact hv h hm.symm
          exact ih (i + 2) (offset + 1) (mc.set offset v) hg
        · rw [if_neg hlt]
          exact ⟨rfl, fun mc' h => by cases h⟩
      cases hleft : mc[i]? with
      | none =>
        have hi : index mc i = .error (.panic "index out of range") := by
          unfold index; rw [hleft]
        rw [hi]
        exact ⟨rfl, fun mc' h => by cases h⟩
      | some left =>
        have hi : index mc i = .ok left := index_of_getElem? mc i left hleft
        rw [hi]
        cases left with
        | none =>
          simp only [Except.map, bind, Except.bind, slotString, if_true]
          exact hset none (fun h hh => by cases hh)
        | some l =>
          have hl := hgood l (List.getElem?_mem hleft)
          have hne : slotString (some l) ≠ [] := hashString_ne_nil l hl.1
          simp only [Except.map, bind, Except.bind, hne, if_false, index_map]
          cases hright : mc[i + 1]? with
          | none =>
            have hi2 : index mc (i + 1) = .error (.panic "index out of range") := by
              unfold index; rw [hright]
            rw [hi2]
            exact ⟨rfl, fun mc' h => by cases h⟩
          | some right =>
            have hi2 : index mc (i + 1) = .ok right := index_of_getElem? mc _ right hright
            rw [hi2]
            cases right with
            | none =>
              simp only [Except.map, slotString, if_true]
              have hp := merkleTreeParentStr_hashString l l hl.2 hl.2
              rw [hp]
              exact hset (some (MerkleTreeParentBytes l l))
                (fun h hh => by cases hh; exact merkleTreeParentBytes_good l l)
            | some r =>
              have hr := hgood r (List.getElem?_mem hright)
              have hne2 : slotString (some r) ≠ [] := hashString_ne_nil r hr.1
              simp only [Except.map, hne2, if_false]
              have hp := merkleTreeParentStr_hashString l r hl.2 hr.2
              simp only [slotString]
              rw [hp]
              exact hset (some (MerkleTreeParentBytes l r))
                (fun h hh => by cases hh; exact merkleTreeParentBytes_good l r)
    · rw [if_neg hc, if_neg hc]
      refine ⟨rfl, fun mc' h => ?_⟩
      cases h
      exact hgood

/-- The two builders on corresponding inputs: the string store is the image of the
chainhash store, or both fail the same way. -/
theorem buildMerkleTreeStore_chainHash (mc : List (Option (List Nat)))
    (hgood : ∀ h, some h ∈ mc → h.length = 32 ∧ IsBytes h) :
    BuildMerkleTreeStore (mc.map slotString) =
      (BuildMerkleTreeStoreChainHash mc).map (List.map slotString) ∧
    ∀ c, BuildMerkleTreeStoreChainHash mc = .ok c →
      ∀ h, some h ∈ c → h.length = 32 ∧ IsBytes h := by
  unfold BuildMerkleTreeStore BuildMerkleTreeStoreChainHash
  simp only [List.length_map]
  by_cases hneg : ((nextPowerOfTwo mc.length : Int) * 2 - 1 < 0)
  · simp only [hneg, if_true]
    exact ⟨rfl, fun c h => by cases h⟩
  · simp only [hneg, if_false]
    have hinit : goCopy (List.replicate ((nextPowerOfTwo mc.length : Int) * 2 - 1).toNat [])
        (mc.map slotString) =
        (goCopy (List.replicate ((nextPowerOfTwo mc.length : Int) * 2 - 1).toNat none) mc).map
          slotString := by
      unfold goCopy
      simp only [List.length_replicate, List.length_map, List.map_append, List.map_take,
        List.map_drop, List.map_replicate, slotString]
    rw [hinit]
    apply buildLoop_chainHash
    intro h hm
    unfold goCopy at hm
    rcases List.mem_append.1 hm with hm | hm
    · exact hgood h (List.mem_of_mem_take hm)
    · have := List.mem_of_mem_drop hm
      rw [List.mem_replicate] at this
      cases this.2

/-- Claim C20: for every non-empty list of 32-byte hashes, BuildMerkleTreeStoreChainHash
returns an array of the same length as BuildMerkleTreeStore applied to the reversed-hex
strings of the hashes, with a nil slot exactly where the string store has the empty string
and otherwise the 32-byte hash whose reversed-hex string is the slot of the string store. -/
theorem buildMerkleTreeStoreChainHash_refines (H : List (List Nat)) (hne : H ≠ [])
    (hH : ∀ h ∈ H, h.length = 32 ∧ IsBytes h) :
    ∃ cs s, BuildMerkleTreeStoreChainHash (H.map some) = .ok cs ∧
      BuildMerkleTreeStore (H.map hashString) = .ok s ∧
      cs.length = s.length ∧
      ∀ t, t < cs.length →
        (cs[t]? = some none ↔ s[t]? = some []) ∧
        (∀ h, cs[t]? = some (some h) → s[t]? = some (hashString h) ∧ h.length = 32) := by
  have hgood : ∀ h, some h ∈ H.map some → h.length = 32 ∧ IsBytes h := by
    intro h hm
    obtain ⟨x, hx, hxe⟩ := List.mem_map.1 hm
    cases hxe
    exact hH h hx
  have hmap : (H.map some).map slotString = H.map hashString := by
    rw [List.map_map]
    rfl
  obtain ⟨hsim, hout⟩ := buildMerkleTreeStore_chainHash (H.map some) hgood
  rw [hmap] at hsim
  obtain ⟨s, hs⟩ := buildMerkleTreeStore_ok (H.map hashString)
    (by rw [List.length_map]; exact List.length_pos.2 hne)
    (by
      intro x hx
      obtain ⟨h, hh, rfl⟩ := List.mem_map.1 hx
      exact hashString_lower h (hH h hh).2)
  cases hc : BuildMerkleTreeStoreChainHash (H.map some) with
  | error f =>
    rw [hc, hs] at hsim
    cases hsim
  | ok cs =>
    rw [hc, hs] at hsim
    have hsc : s = cs.map slotString := by
      cases hsim
      rfl
    refine ⟨cs, s, rfl, hs, by rw [hsc, List.length_map], ?_⟩
    intro t _
    rw [hsc, List.getElem?_map]
    constructor
    · constructor
      · intro h
        rw [h]
        rfl
      · intro h
        cases hct : cs[t]? with
        | none => rw [hct] at h; cases h
        | some x =>
          rw [hct] at h
          cases x with
          | none => rfl
          | some y =>
            have hy := hout cs hc y (List.getElem?_mem hct)
            have : slotString (some y) = [] := by
              simp only [Option.map_some', Option.some.injEq] at h
              exact h
            exact absurd this (hashString_ne_nil y hy.1)
    · intro h hct
      rw [hct]
      exact ⟨rfl, (hout cs hc h (List.getElem?_mem hct)).1⟩

set_option maxRecDepth 100000 in
/-- Witness of C20: the natural-order hashes of the first five test txids. -/
theorem buildMerkleTreeStoreChainHash_refines_witness :
    (testTxids.take 5).map BytesFromStringReverse ≠ [] ∧
    (∀ h ∈ (testTxids.take 5).map BytesFromStringReverse, h.length = 32 ∧ IsBytes h) ∧
    ∃ cs s, BuildMerkleTreeStoreChainHash (((testTxids.take 5).map BytesFromStringReverse).map some)
        = .ok cs ∧
      BuildMerkleTreeStore (((testTxids.take 5).map BytesFromStringReverse).map hashString)
        = .ok s ∧
      cs.length = s.length ∧
      ∀ t, t < cs.length →
        (cs[t]? = some none ↔ s[t]? = some []) ∧
        (∀ h, cs[t]? = some (some h) → s[t]? = some (hashString h) ∧ h.length = 32) :=
  ⟨by decide, by decide,
    buildMerkleTreeStoreChainHash_refines ((testTxids.take 5).map BytesFromStringReverse)
      (by decide) (by decide)⟩

end Bc

namespace Bc

/-! ## The root from a coinbase hash -/

/-- C24: BuildMerkleRootFromCoinbase(c, branches) is the left fold
`acc := Hash256(acc ‖ decode_hex(branch))` over the branches in order, started at
`acc = c`, with the accumulator on the left; with no branches it returns `c`. -/
theorem buildMerkleRootFromCoinbase_fold (coinbaseHash : List Nat)
    (merkleBranches : List (List Nat)) :
    BuildMerkleRootFromCoinbase coinbaseHash merkleBranches =
      merkleBranches.foldl (fun acc branch => Sha256d (acc ++ (hexDecodeString branch).1))
        coinbaseHash ∧
    BuildMerkleRootFromCoinbase coinbaseHash [] = coinbaseHash := by
  refine ⟨?_, rfl⟩
  unfold BuildMerkleRootFromCoinbase
  induction merkleBranches generalizing coinbaseHash with
  | nil => rfl
  | cons b rest ih =>
    rw [List.foldl_cons, ← ih]
    rfl

/-! ## The header of block 0 -/

set_option maxRecDepth 1000000 in
/-- C25: the first 80 bytes of the test vector of TestGenesisBlockHash decode to a
header that passes the proof-of-work check, and the byte-reversed Hash256 of its
serialisation is 000000000019d6689c085ae165831e934ff763ae46a2a6c172b3f1b60a8ce26f. -/
theorem genesis_header_valid :
    (hexDecodeString genesisHeaderHex).1.length = 80 ∧
    ∃ h : BlockHeader, NewBlockHeaderFromBytes (hexDecodeString genesisHeaderHex).1 = .ok h ∧
      h.Valid ExpandTargetFromAsInt = .ok true ∧
      hexEncodeToString (ReverseBytes (Sha256d h.Bytes)) =
        str "000000000019d6689c085ae165831e934ff763ae46a2a6c172b3f1b60a8ce26f" := by
  refine ⟨by decide,
    { Version := 1, Time := 1231006505, Nonce := 2083236893,
      HashPrevBlock := List.replicate 32 0,
      HashMerkleRoot := (hexDecodeString
        (str "4a5e1e4baab89f3a32518a88c31bc87f618f76673e2cc77ab2127b7afdeda33b")).1,
      Bits := [0x1d, 0x00, 0xff, 0xff] }, by decide, by decide, by decide⟩

set_option maxRecDepth 1000000 in
/-- The target of the genesis header: the compact form `1d00ffff` expands to
`0xffff * 256 ^ 26`, and with any expansion that returns this target the header of
block 0 passes the check. -/
theorem genesis_header_target (expand : List Nat → Result Int)
    (h : expand (str "1d00ffff") = .ok ((0xffff * 256 ^ 26 : Nat) : Int)) :
    ExpandTargetFromAsInt (str "1d00ffff") = .ok ((0xffff * 256 ^ 26 : Nat) : Int) ∧
    (NewBlockHeaderFromBytes (hexDecodeString genesisHeaderHex).1).map
      (fun bh => bh.Valid expand) = .ok (.ok true) := by
  refine ⟨by decide, ?_⟩
  have e : NewBlockHeaderFromBytes (hexDecodeString genesisHeaderHex).1 = .ok
      { Version := 1, Time := 1231006505, Nonce := 2083236893,
        HashPrevBlock := List.replicate 32 0,
        HashMerkleRoot := (hexDecodeString
          (str "4a5e1e4baab89f3a32518a88c31bc87f618f76673e2cc77ab2127b7afdeda33b")).1,
        Bits := [0x1d, 0x00, 0xff, 0xff] } := by decide
  rw [e]
  simp only [Except.map, BlockHeader.Valid]
  have hb : hexEncodeToString [0x1d, 0x00, 0xff, 0xff] = str "1d00ffff" := by decide
  rw [hb, h]
  simp only [Except.ok.injEq, decide_eq_true_eq]
  decide

/-! ## UInt32ToBytes -/

/-- C26: for every 32-bit unsigned `v`, UInt32ToBytes(v) is four bytes long and
reading them as a little-endian uint32 gives back `v`. -/
theorem uInt32ToBytes_roundtrip (v : Nat) (h : v < 2 ^ 32) :
    (UInt32ToBytes v).length = 4 ∧ IsBytes (UInt32ToBytes v) ∧
    LittleEndianUint32 (UInt32ToBytes v) = v := by
  have hb : IsBytes (UInt32ToBytes v) := by
    intro x hx
    unfold UInt32ToBytes at hx
    simp only [List.mem_cons, List.mem_singleton, List.not_mem_nil, or_false] at hx
    rcases hx with rfl | rfl | rfl | rfl <;> exact Nat.mod_lt _ (by norm_num)
  refine ⟨rfl, hb, ?_⟩
  unfold UInt32ToBytes
  rw [littleEndianUint32_four _ _ _ _ (Nat.mod_lt _ (by norm_num)) (Nat.mod_lt _ (by norm_num))
    (Nat.mod_lt _ (by norm_num)) (Nat.mod_lt _ (by norm_num))]
  simp only [Nat.shiftRight_eq_div_pow]
  omega

/-- Witness of C26: the seeds of FuzzUInt32ToBytes, 0, 1, 123456 and 2^32 - 1. -/
theorem uInt32ToBytes_roundtrip_witness :
    (0 < 2 ^ 32 ∧ LittleEndianUint32 (UInt32ToBytes 0) = 0) ∧
    (1 < 2 ^ 32 ∧ LittleEndianUint32 (UInt32ToBytes 1) = 1) ∧
    (123456 < 2 ^ 32 ∧ UInt32ToBytes 123456 = [0x40, 0xe2, 0x01, 0x00] ∧
      LittleEndianUint32 (UInt32ToBytes 123456) = 123456) ∧
    (4294967295 < 2 ^ 32 ∧ (UInt32ToBytes 4294967295).length = 4 ∧
      LittleEndianUint32 (UInt32ToBytes 4294967295) = 4294967295) :=
  ⟨⟨by decide, (uInt32ToBytes_roundtrip 0 (by decide)).2.2⟩,
   ⟨by decide, (uInt32ToBytes_roundtrip 1 (by decide)).2.2⟩,
   ⟨by decide, by decide, (uInt32ToBytes_roundtrip 123456 (by decide)).2.2⟩,
   ⟨by decide, (uInt32ToBytes_roundtrip 4294967295 (by decide)).1,
    (uInt32ToBytes_roundtrip 4294967295 (by decide)).2.2⟩⟩

/-! ## ReverseHexString -/

theorem reversePairs_length : ∀ (n : Nat) (s : List Nat), s.length ≤ n →
    (reversePairs s).length = s.length := by
  intro n
  induction n using Nat.strong_induction_on with
  | _ n ih =>
    intro s hs
    match s, hs with
    | [], _ => rfl
    | [_], _ => rfl
    | a :: b :: rest, hs =>
      simp only [List.length_cons] at hs
      rw [reversePairs, List.length_append, ih (n - 2) (by omega) rest (by omega)]
      simp

theorem reversePairs_append_pair : ∀ (n : Nat) (s : List Nat) (a b : Nat), s.length ≤ n →
    s.length % 2 = 0 → reversePairs (s ++ [a, b]) = a :: b :: reversePairs s := by
  intro n
  induction n using Nat.strong_induction_on with
  | _ n ih =>
    intro s a b hs he
    match s, hs, he with
    | [], _, _ => rfl
    | [_], _, he => simp at he
    | x :: y :: rest, hs, he =>
      simp only [List.length_cons] at hs he
      rw [List.cons_append, List.cons_append, reversePairs,
        ih (n - 2) (by omega) rest a b (by omega) (by omega), reversePairs]
      rfl

theorem reversePairs_involutive : ∀ (n : Nat) (s : List Nat), s.length ≤ n →
    s.length % 2 = 0 → reversePairs (reversePairs s) = s := by
  intro n
  induction n using Nat.strong_induction_on with
  | _ n ih =>
    intro s hs he
    match s, hs, he with
    | [], _, _ => rfl
    | [_], _, he => simp at he
    | x :: y :: rest, hs, he =>
      simp only [List.length_cons] at hs he
      rw [reversePairs, reversePairs_append_pair _ _ x y (le_refl _)
        (by rw [reversePairs_length _ rest (le_refl _)]; omega),
        ih (n - 2) (by omega) rest (by omega) (by omega)]

theorem reversePairs_getElem : ∀ (n : Nat) (s : List Nat), s.length ≤ n →
    s.length % 2 = 0 → ∀ i, i < s.length / 2 →
      (reversePairs s)[2 * i]? = s[s.length - 2 - 2 * i]? ∧
      (reversePairs s)[2 * i + 1]? = s[s.length - 1 - 2 * i]? := by
  intro n
  induction n using Nat.strong_induction_on with
  | _ n ih =>
    intro s hs he i hi
    match s, hs, he, hi with
    | [], _, _, hi => simp at hi
    | [_], _, he, _ => simp at he
    | x :: y :: rest, hs, he, hi =>
      simp only [List.length_cons] at hs he hi
      have hl := reversePairs_length _ rest (le_refl _)
      rw [reversePairs]
      by_cases hlt : i < rest.length / 2
      · have h := ih (n - 2) (by omega) rest (by omega) (by omega) i hlt
        rw [List.getElem?_append_left (by omega), List.getElem?_append_left (by omega),
          h.1, h.2]
        simp only [List.length_cons]
        have e1 : rest.length + 1 + 1 - 2 - 2 * i = (rest.length - 2 - 2 * i) + 1 + 1 := by omega
        have e2 : rest.length + 1 + 1 - 1 - 2 * i = (rest.length - 1 - 2 * i) + 1 + 1 := by omega
        rw [e1, e2]
        simp only [List.getElem?_cons_succ, and_self]
      · have hi2 : 2 * i = rest.length := by omega
        rw [List.getElem?_append_right (by omega), List.getElem?_append_right (by omega)]
        simp only [List.length_cons]
        have e1 : rest.length + 1 + 1 - 2 - 2 * i = 0 := by omega
        have e2 : rest.length + 1 + 1 - 1 - 2 * i = 1 := by omega
        have e3 : 2 * i - (reversePairs rest).length = 0 := by omega
        have e4 : 2 * i + 1 - (reversePairs rest).length = 1 := by omega
        rw [e1, e2, e3, e4]
        simp

/-- C27: on a string of even length ReverseHexString reverses two characters, one byte,
at a time (the pair at position `i` of the result is the pair at position `i` from the
end of the argument), it keeps the length, and applying it twice returns the string. -/
theorem reverseHexString_even (s : List Nat) (h : s.length % 2 = 0) :
    (ReverseHexString s).length = s.length ∧
    (∀ i, i < s.length / 2 →
      (ReverseHexString s)[2 * i]? = s[s.length - 2 - 2 * i]? ∧
      (ReverseHexString s)[2 * i + 1]? = s[s.length - 1 - 2 * i]?) ∧
    ReverseHexString (ReverseHexString s) = s := by
  have e : ReverseHexString s = reversePairs s := by
    unfold ReverseHexString
    rw [if_neg (by omega)]
  have hl := reversePairs_length _ s (le_refl _)
  refine ⟨by rw [e, hl], fun i hi => ?_, ?_⟩
  · rw [e]
    exact reversePairs_getElem _ s (le_refl _) h i hi
  · rw [e]
    unfold ReverseHexString
    rw [if_neg (by omega)]
    exact reversePairs_involutive _ s (le_refl _) h

/-- Witness of C27: the even-length fixtures of TestReverseHexString. -/
theorem reverseHexString_even_witness :
    (str "1039").length % 2 = 0 ∧ ReverseHexString (str "1039") = str "3910" ∧
    ReverseHexString (str "3124125109711245") = str "4512710951122431" ∧
    ReverseHexString (ReverseHexString (str "1039")) = str "1039" ∧
    ReverseHexString (ReverseHexString (str "3124125109711245")) = str "3124125109711245" :=
  ⟨by decide, by decide, by decide, (reverseHexString_even (str "1039") (by decide)).2.2,
    (reverseHexString_even (str "3124125109711245") (by decide)).2.2⟩

/-- C28, counterexample: the odd-length fixture `41039` of TestReverseHexString gives
`391004`, which is one character longer, and a second application gives `041039`. -/
theorem reverseHexString_odd_counterexample :
    (str "41039").length % 2 = 1 ∧
    ReverseHexString (str "41039") = str "391004" ∧
    (ReverseHexString (str "41039")).length ≠ (str "41039").length ∧
    ReverseHexString (ReverseHexString (str "41039")) = str "041039" ∧
    ReverseHexString (ReverseHexString (str "41039")) ≠ str "41039" := by
  decide

/-- C28, amended: on a string of odd length ReverseHexString gives the reversal of the
string completed with a leading `0`: the result is one character longer, its last two
characters are `0` and the first character of the argument, the characters before them
are the reversal of the rest, and applying it twice returns the completed string. -/
theorem reverseHexString_odd (s : List Nat) (h : s.length % 2 = 1) :
    (ReverseHexString s).length = s.length + 1 ∧
    ReverseHexString s = ReverseHexString s.tail ++ [0x30] ++ s.take 1 ∧
    ReverseHexString (ReverseHexString s) = 0x30 :: s := by
  have e : ReverseHexString s = reversePairs (0x30 :: s) := by
    unfold ReverseHexString
    rw [if_pos (by omega)]
  have hl := reversePairs_length _ (0x30 :: s) (le_refl _)
  have h2 : (0x30 :: s).length % 2 = 0 := by simp only [List.length_cons]; omega
  refine ⟨by rw [e, hl]; rfl, ?_, ?_⟩
  · match s, h with
    | [], h => simp at h
    | a :: t, h =>
      simp only [List.length_cons] at h
      rw [e, reversePairs]
      simp only [List.tail_cons, List.take_succ_cons, List.take_zero, List.append_assoc,
        List.singleton_append]
      unfold ReverseHexString
      rw [if_neg (by omega)]
  · rw [e]
    unfold ReverseHexString
    rw [if_neg (by omega)]
    exact reversePairs_involutive _ _ (le_refl _) h2

/-- Witness of C28 as amended: the odd-length fixture. -/
theorem reverseHexString_odd_witness :
    (str "41039").length % 2 = 1 ∧
    (ReverseHexString (str "41039")).length = 6 ∧
    ReverseHexString (ReverseHexString (str "41039")) = str "041039" :=
  ⟨by decide, (reverseHexString_odd (str "41039") (by decide)).1,
    (reverseHexString_odd (str "41039") (by decide)).2.2⟩

end Bc

namespace Bc

/-! ## Merchant API callbacks -/

/-- The text `Bytes` writes for a MapiCallback starts with the name of the first field,
whatever the callback holds. -/
theorem mapiCallback_bytes_take (quote : List Nat → List Nat) (m : MapiCallback) :
    (MapiCallback.Bytes quote (some m)).take 19 = str "\x7b\"callbackPayload\":" := by
  unfold MapiCallback.Bytes
  simp only [List.append_assoc]
  rw [List.take_left' (by decide)]

/-- The callback with empty strings and height 0, what `json.Unmarshal` leaves of a JSON
object without members, is written with all eight members. -/
theorem mapiCallback_bytes_zero :
    MapiCallback.Bytes quotePlain (some ⟨[], [], [], [], [], 0, [], []⟩) =
      str ("\x7b\"callbackPayload\":\"\",\"apiVersion\":\"\",\"timestamp\":\"\",\"minerId\":\"\","
        ++ "\"blockHash\":\"\",\"blockHeight\":0,\"callbackTxId\":\"\",\"callbackReason\":\"\"\x7d") := by
  decide

/-- C23: `Bytes` does not return the bytes the callback was read from. For every input
`b` that NewMapiCallbackFromBytes accepts and that does not start with the nineteen
characters of the first member name, such as the object without members or an object
with its members in another order, `Bytes` of the returned callback differs from `b`:
it is a fresh `json.Marshal` of the eight fields. -/
theorem mapiCallback_bytes_not_blob (jsonUnmarshal : List Nat → Except GoError MapiCallback)
    (quote : List Nat → List Nat) (b : List Nat) (m : MapiCallback)
    (hm : NewMapiCallbackFromBytes jsonUnmarshal b = .ok m)
    (hb : b.take 19 ≠ str "\x7b\"callbackPayload\":") :
    jsonUnmarshal b = .ok m ∧ MapiCallback.Bytes quote (some m) ≠ b := by
  refine ⟨?_, fun h => hb (by rw [← h]; exact mapiCallback_bytes_take quote m)⟩
  unfold NewMapiCallbackFromBytes at hm
  split at hm
  · cases hm
  · rename_i heq
    cases hm
    exact heq

/-- Witness of C23: the object without members, for which `json.Unmarshal` returns the
zero callback. -/
theorem mapiCallback_bytes_not_blob_witness :
    NewMapiCallbackFromBytes unmarshalEmptyObject (str "\x7b\x7d") =
      .ok ⟨[], [], [], [], [], 0, [], []⟩ ∧
    (str "\x7b\x7d").take 19 ≠ str "\x7b\"callbackPayload\":" ∧
    MapiCallback.Bytes quotePlain (some ⟨[], [], [], [], [], 0, [], []⟩) ≠ str "\x7b\x7d" :=
  ⟨by decide, by decide, (mapiCallback_bytes_not_blob unmarshalEmptyObject quotePlain
    (str "\x7b\x7d") ⟨[], [], [], [], [], 0, [], []⟩ (by decide) (by decide)).2⟩

/-! ## The binary form of the ancestors -/

theorem mapiResponsesBytes_eq (quote : List Nat → List Nat) (rs : List (Option MapiCallback))
    (acc : List Nat) :
    mapiResponsesBytes quote rs acc = acc ++ rs.flatMap (fun r =>
      VarInt.Bytes (MapiCallback.Bytes quote r).length ++ MapiCallback.Bytes quote r) := by
  induction rs generalizing acc with
  | nil => simp [mapiResponsesBytes]
  | cons r rest ih =>
    rw [mapiResponsesBytes, ih]
    simp only [List.flatMap_cons, List.append_assoc]

theorem ancestorsBytes_eq (quote : List Nat → List Nat)
    (proofBytes : MerkleProof → Result (List Nat)) (pb : MerkleProof → List Nat)
    (j : List TSCAncestryJSON) (acc : List Nat)
    (hraw : ∀ a ∈ j, (hexDecodeString a.RawTx).2 = none)
    (hp : ∀ a ∈ j, ∀ p, a.Proof = some p → proofBytes p = .ok (pb p)) :
    ancestorsBytes quote proofBytes j acc = .ok (acc ++ j.flatMap (ancestorSection quote pb)) := by
  induction j generalizing acc with
  | nil => simp [ancestorsBytes]
  | cons a rest ih =>
    have h1 := hraw a (List.mem_cons_self _ _)
    have h2 := hp a (List.mem_cons_self _ _)
    have ih2 := fun acc => ih acc (fun x hx => hraw x (List.mem_cons_of_mem _ hx))
      (fun x hx => hp x (List.mem_cons_of_mem _ hx))
    rw [ancestorsBytes]
    have e : hexDecodeString a.RawTx = ((hexDecodeString a.RawTx).1, none) := by
      rw [← h1]
    rw [e]
    simp only [bind, Except.bind, pure, Except.pure, flagTx, flagProof, flagMapi]
    cases hpr : a.Proof with
    | none =>
      simp only [ih2, mapiResponsesBytes_eq, List.flatMap_cons, ancestorSection, hpr]
      by_cases hm : a.MapiResponses.length = 0
      · simp [hm]
      · simp [hm, Nat.pos_of_ne_zero hm]
    | some p =>
      simp only [h2 p hpr, ih2, mapiResponsesBytes_eq, List.flatMap_cons, ancestorSection, hpr]
      by_cases hm : a.MapiResponses.length = 0
      · simp [hm]
      · simp [hm, Nat.pos_of_ne_zero hm]

/-- C21: for every list of ancestors whose raw transactions are valid hex (and whose
proofs serialise), `Bytes` is the version byte 1 followed by the section of each
ancestor in list order; the empty list encodes to the single byte 1. -/
theorem tscAncestriesJSON_bytes_layout (quote : List Nat → List Nat)
    (proofBytes : MerkleProof → Result (List Nat)) (pb : MerkleProof → List Nat)
    (j : List TSCAncestryJSON)
    (hraw : ∀ a ∈ j, (hexDecodeString a.RawTx).2 = none)
    (hp : ∀ a ∈ j, ∀ p, a.Proof = some p → proofBytes p = .ok (pb p)) :
    TSCAncestriesJSON.Bytes quote proofBytes j =
      .ok ([0x01] ++ j.flatMap (ancestorSection quote pb)) ∧
    TSCAncestriesJSON.Bytes quote proofBytes [] = .ok [0x01] := by
  refine ⟨?_, rfl⟩
  unfold TSCAncestriesJSON.Bytes
  exact ancestorsBytes_eq quote proofBytes pb j _ hraw hp

set_option maxRecDepth 100000 in
/-- Witness of C21: an ancestor with a proof and two mapi responses, one of them nil, and
an ancestor with a raw transaction only. -/
theorem tscAncestriesJSON_bytes_layout_witness :
    (∀ a ∈ sampleAncestors, (hexDecodeString a.RawTx).2 = none) ∧
    TSCAncestriesJSON.Bytes quotePlain sampleProofBytes sampleAncestors =
      .ok ([0x01] ++ sampleAncestors.flatMap
        (ancestorSection quotePlain (fun p => [0x00] ++ VarInt.Bytes p.Index))) ∧
    TSCAncestriesJSON.Bytes quotePlain sampleProofBytes sampleAncestors =
      .ok ([0x01, 0x01, 0x02, 0xab, 0xcd, 0x02, 0x02, 0x00, 0x07, 0x03, 0x02, 135]
        ++ str ("\x7b\"callbackPayload\":\"\",\"apiVersion\":\"\",\"timestamp\":\"\","
          ++ "\"minerId\":\"\",\"blockHash\":\"\",\"blockHeight\":0,\"callbackTxId\":\"\","
          ++ "\"callbackReason\":\"\"\x7d")
        ++ [0x04] ++ str "null" ++ [0x01, 0x01, 0xff]) :=
  ⟨by decide,
    (tscAncestriesJSON_bytes_layout quotePlain sampleProofBytes
      (fun p => [0x00] ++ VarInt.Bytes p.Index) sampleAncestors (by decide)
      (fun _ _ _ _ => rfl)).1,
    by decide⟩

/-! ## Decoding the ancestors -/

theorem newAncestryLoop_proofs {τ : Type} (txString : τ → List Nat)
    (parseBinaryMerkleProof : List Nat → Result merkleProofBinary)
    (ancestry : List (Ancestor τ)) (acc out : List TSCAncestryJSON)
    (h : newAncestryLoop txString parseBinaryMerkleProof ancestry acc = .ok out)
    (hacc : ∀ a ∈ acc, ∀ p, a.Proof = some p →
      p.TargetType = [] ∧ ∃ flags, p.ProofType = flagProofType flags) :
    ∀ a ∈ out, ∀ p, a.Proof = some p →
      p.TargetType = [] ∧ ∃ flags, p.ProofType = flagProofType flags := by
  induction ancestry generalizing acc with
  | nil =>
    rw [newAncestryLoop] at h
    cases h
    exact hacc
  | cons x rest ih =>
    rw [newAncestryLoop] at h
    split at h
    · split at h
      · cases h
      · refine ih _ h ?_
        intro a ha p hp
        rw [List.mem_append, List.mem_singleton] at ha
        rcases ha with ha | rfl
        · exact hacc a ha p hp
        · simp only [Option.some.injEq] at hp
          subst hp
          exact ⟨rfl, _, rfl⟩
    · refine ih _ h ?_
      intro a ha p hp
      rw [List.mem_append, List.mem_singleton] at ha
      rcases ha with ha | rfl
      · exact hacc a ha p hp
      · cases hp

theorem flagProofType_cases (flags : Nat) :
    flagProofType flags = str "blockhash" ∨ flagProofType flags = str "header" ∨
      flagProofType flags = [] := by
  unfold flagProofType
  simp only []
  split_ifs
  · exact Or.inl rfl
  · exact Or.inr (Or.inl rfl)
  · exact Or.inr (Or.inr rfl)

/-- C22: the decoder does not restore the target type. Whatever `parseAncestry` and
`parseBinaryMerkleProof` read, every proof in a list that NewAncestryJSONFromBytes
returns has the empty `TargetType`, and its `ProofType` is one of the three results of
flagProofType, `blockhash`, `header` or the empty string. -/
theorem newAncestryJSONFromBytes_targetType_lost {τ : Type}
    (parseAncestry : List Nat → Result (List (Ancestor τ))) (txString : τ → List Nat)
    (parseBinaryMerkleProof : List Nat → Result merkleProofBinary) (b : List Nat)
    (out : List TSCAncestryJSON)
    (h : NewAncestryJSONFromBytes parseAncestry txString parseBinaryMerkleProof b = .ok out) :
    ∀ a ∈ out, ∀ p, a.Proof = some p →
      p.TargetType = [] ∧
      (p.ProofType = str "blockhash" ∨ p.ProofType = str "header" ∨ p.ProofType = []) := by
  unfold NewAncestryJSONFromBytes at h
  split at h
  · cases h
  · intro a ha p hp
    obtain ⟨g1, flags, g2⟩ := newAncestryLoop_proofs txString parseBinaryMerkleProof _ [] out h
      (fun a ha => absurd ha (List.not_mem_nil a)) a ha p hp
    exact ⟨g1, g2 ▸ flagProofType_cases flags⟩

/-- The round trip fails on the proof of the genesis coinbase against the header of
block 0: with any parsers, no input decodes to this list, in particular not its own
`Bytes`, because its proof has the target type `header`. -/
theorem newAncestryJSONFromBytes_genesis {τ : Type}
    (parseAncestry : List Nat → Result (List (Ancestor τ))) (txString : τ → List Nat)
    (parseBinaryMerkleProof : List Nat → Result merkleProofBinary) (b : List Nat) :
    NewAncestryJSONFromBytes parseAncestry txString parseBinaryMerkleProof b ≠
      .ok genesisAncestors := by
  intro h
  have g := newAncestryJSONFromBytes_targetType_lost parseAncestry txString
    parseBinaryMerkleProof b _ h genesisAncestor (List.mem_singleton.mpr rfl) genesisProof rfl
  exact absurd g.1 (by decide)

set_option maxRecDepth 100000 in
/-- Witness of C22: a parsed ancestor whose proof has the flags 2 (target type header)
is returned with the word `header` in `ProofType` and the empty `TargetType`. -/
theorem newAncestryJSONFromBytes_targetType_lost_witness :
    NewAncestryJSONFromBytes (fun _ => .ok [⟨str "00", some [2, 7], []⟩]) hexEncodeToString
        (fun _ => .ok ⟨7, str "aa", str "bb", [], 2⟩) [1, 1, 2, 0x30, 0x30, 2, 2, 2, 7] =
      .ok [⟨str "3030", some ⟨7, str "aa", str "bb", [], [], str "header"⟩, []⟩] ∧
    ∀ a ∈ [(⟨str "3030", some ⟨7, str "aa", str "bb", [], [], str "header"⟩, []⟩ :
        TSCAncestryJSON)], ∀ p, a.Proof = some p →
      p.TargetType = [] ∧
      (p.ProofType = str "blockhash" ∨ p.ProofType = str "header" ∨ p.ProofType = []) :=
  ⟨by decide, newAncestryJSONFromBytes_targetType_lost
    (fun _ => .ok [⟨str "00", some [2, 7], []⟩]) hexEncodeToString
    (fun _ => .ok ⟨7, str "aa", str "bb", [], 2⟩) [1, 1, 2, 0x30, 0x30, 2, 2, 2, 7] _
    (by decide)⟩

end Bc

namespace Bc

/-! ## BUMP from a tree and an index -/

theorem ceilLog2_two_pow (k : Nat) : ceilLog2 (2 ^ k) = k := by
  unfold ceilLog2
  rw [if_pos ((and_pred_eq_zero_iff _ (Nat.two_pow_pos _)).2 ⟨k, rfl⟩),
    floorLog2_eq_log2 _ _ (le_refl _), Nat.log2_two_pow]

/-- The walk over the levels stays inside the flat array and emits one sibling per
level. -/
theorem bumpSiblings_ok (tree : List (Option (List Nat))) (idx : Nat) :
    ∀ (levels height levelOffset : Nat), idx >>> height < 2 ^ levels →
      levelOffset + 2 ^ (levels + 1) - 1 = tree.length →
      ∃ sibs, bumpSiblings tree idx levels height levelOffset (2 ^ levels) = .ok sibs ∧
        sibs.length = levels := by
  intro levels
  induction levels with
  | zero =>
    intro height levelOffset _ _
    exact ⟨[], rfl, rfl⟩
  | succ l ih =>
    intro height levelOffset hx hlen
    have hpos : 0 < 2 ^ l := Nat.two_pow_pos _
    have h2 : 2 ^ (l + 1) = 2 * 2 ^ l := by rw [pow_succ]; omega
    have h3 : 2 ^ (l + 1 + 1) = 4 * 2 ^ l := by rw [pow_succ, pow_succ]; omega
    have hoff : (idx >>> height) ^^^ 1 < 2 ^ (l + 1) :=
      Nat.xor_lt_two_pow hx (by omega)
    obtain ⟨slot, hslot⟩ := getElem?_of_lt tree (levelOffset + ((idx >>> height) ^^^ 1))
      (by omega)
    have hnext : idx >>> (height + 1) < 2 ^ l := by
      rw [Nat.shiftRight_succ]
      omega
    obtain ⟨rest, hrest, hrl⟩ := ih (height + 1) (levelOffset + 2 ^ (l + 1)) hnext (by omega)
    have hdiv : 2 ^ (l + 1) / 2 = 2 ^ l := by omega
    rw [bumpSiblings]
    simp only [bind, Except.bind, pure, Except.pure, index_of_getElem? _ _ _ hslot, hdiv, hrest]
    exact ⟨_, rfl, by rw [List.length_cons, hrl]⟩

/-- On an array of `2 * 2 ^ k - 1` slots with `k ≥ 1` and a present leaf at the index,
NewBUMPFromMerkleTreeAndIndex returns a BUMP with `k` levels and `k + 1` leaves. -/
theorem newBUMP_of_tree (blockHeight : Nat) (tree : List (Option (List Nat))) (idx k : Nat)
    (h : List Nat) (hk : 1 ≤ k) (hlen : tree.length = 2 * 2 ^ k - 1) (hidx : idx < 2 ^ k)
    (hleaf : tree[idx]? = some (some h)) :
    ∃ bump, NewBUMPFromMerkleTreeAndIndex blockHeight tree idx = .ok bump ∧
      bump.totalHashes = k + 1 ∧ bump.Path.length = k ∧ bump.BlockHeight = blockHeight := by
  have hpos : 0 < 2 ^ k := Nat.two_pow_pos _
  have hcount : (tree.length + 1) / 2 = 2 ^ k := by omega
  obtain ⟨sibs, hs, hsl⟩ := bumpSiblings_ok tree idx k 0 0 (by simpa using hidx)
    (by rw [pow_succ]; omega)
  unfold NewBUMPFromMerkleTreeAndIndex
  rw [if_neg (by omega)]
  simp only [bind, Except.bind, pure, Except.pure, index_of_getElem? _ _ _ hleaf, hcount,
    ceilLog2_two_pow, hs]
  match sibs, hsl with
  | [], hsl => simp only [List.length_nil] at hsl; omega
  | s :: rest, hsl =>
    simp only [List.length_cons] at hsl
    refine ⟨_, rfl, ?_, ?_, rfl⟩
    · unfold BUMP.totalHashes
      simp only [List.map_cons, List.map_map, List.sum_cons]
      have e : (List.map (List.length ∘ fun l => [l]) rest).sum = rest.length := by
        clear hsl hs
        induction rest with
        | nil => rfl
        | cons a r ih => simp only [List.map_cons, List.sum_cons, ih, Function.comp,
            List.length_cons, List.length_nil]; omega
      rw [e]
      split_ifs <;> simp only [List.length_cons, List.length_nil] <;> omega
    · simp only [List.length_cons, List.length_map]
      omega

/-- The store of at least one 32-byte hash exists, has `2 * P - 1` slots and keeps the
hashes in its first slots. -/
theorem chainHashStore_facts (H : List (List Nat)) (hne : 0 < H.length)
    (hH : ∀ h ∈ H, h.length = 32 ∧ IsBytes h) :
    ∃ cs, BuildMerkleTreeStoreChainHash (H.map some) = .ok cs ∧
      cs.length = 2 * nextPowerOfTwo H.length - 1 ∧
      ∀ t, t < H.length → ∃ h, cs[t]? = some (some h) := by
  have hgood : ∀ h, some h ∈ H.map some → h.length = 32 ∧ IsBytes h := by
    intro h hm
    obtain ⟨x, hx, hxe⟩ := List.mem_map.1 hm
    cases hxe
    exact hH h hx
  have hmap : (H.map some).map slotString = H.map hashString := by
    rw [List.map_map]
    rfl
  obtain ⟨hsim, hout⟩ := buildMerkleTreeStore_chainHash (H.map some) hgood
  rw [hmap] at hsim
  obtain ⟨s, hs⟩ := buildMerkleTreeStore_ok (H.map hashString)
    (by rw [List.length_map]; exact hne)
    (by
      intro x hx
      obtain ⟨h, hh, rfl⟩ := List.mem_map.1 hx
      exact hashString_lower h (hH h hh).2)
  obtain ⟨-, ⟨hlen, -⟩, hleaves, -⟩ := buildMerkleTreeStore_rel _ _ hs
  rw [List.length_map] at hlen hleaves
  have hP := nextPowerOfTwo_ge H.length hne
  cases hc : BuildMerkleTreeStoreChainHash (H.map some) with
  | error f =>
    rw [hc, hs] at hsim
    cases hsim
  | ok cs =>
    rw [hc, hs] at hsim
    have hsc : s = cs.map slotString := by
      cases hsim
      rfl
    have hcl : cs.length = 2 * nextPowerOfTwo H.length - 1 := by
      rw [← hlen, hsc, List.length_map]
    refine ⟨cs, rfl, hcl, ?_⟩
    intro t ht
    obtain ⟨x, hx⟩ := getElem?_of_lt cs t (by omega)
    have h1 := hleaves t ht
    rw [hsc, List.getElem?_map, hx, List.getElem?_map, List.getElem?_eq_getElem ht] at h1
    cases x with
    | some y => exact ⟨y, hx⟩
    | none =>
      simp only [Option.map_some', Option.some.injEq, slotString] at h1
      exact absurd h1.symm (hashString_ne_nil _ (hH _ (List.getElem_mem ht)).1)

/-- C29: for every block of `n ≥ 2` hashes and every index below `n`,
NewBUMPFromMerkleTreeAndIndex on the store of BuildMerkleTreeStoreChainHash returns a
BUMP with one level per tree level below the root, `k = ceil(log2(n))` of them, and
`k + 1` leaves in total: one sibling per level and the txid itself. -/
theorem newBUMPFromMerkleTreeAndIndex_count (blockHeight : Nat) (H : List (List Nat))
    (idx : Nat) (hn : 2 ≤ H.length) (hH : ∀ h ∈ H, h.length = 32 ∧ IsBytes h)
    (hidx : idx < H.length) :
    ∃ tree bump k, BuildMerkleTreeStoreChainHash (H.map some) = .ok tree ∧
      NewBUMPFromMerkleTreeAndIndex blockHeight tree idx = .ok bump ∧
      (H.length ≤ 2 ^ k ∧ ∀ j, H.length ≤ 2 ^ j → k ≤ j) ∧
      bump.totalHashes = k + 1 ∧ bump.Path.length = k ∧ bump.BlockHeight = blockHeight := by
  obtain ⟨cs, hcs, hlen, hleaf⟩ := chainHashStore_facts H (by omega) hH
  obtain ⟨k, hk, hle, hmin⟩ := nextPowerOfTwo_spec H.length (by omega)
  obtain ⟨h, hh⟩ := hleaf idx hidx
  have hk1 : 1 ≤ k := by
    rcases Nat.eq_zero_or_pos k with h0 | h0
    · rw [h0] at hle
      simp only [pow_zero] at hle
      omega
    · exact h0
  rw [hk] at hlen
  obtain ⟨bump, hb, g1, g2, g3⟩ := newBUMP_of_tree blockHeight cs idx k h hk1 hlen (by omega) hh
  exact ⟨cs, bump, k, hcs, hb, ⟨hle, hmin⟩, g1, g2, g3⟩

/-- The block of the benchmark: with 100000 hashes every index gives 18 leaves. -/
theorem newBUMP_benchmark (H : List (List Nat)) (idx : Nat) (hn : H.length = 100000)
    (hH : ∀ h ∈ H, h.length = 32 ∧ IsBytes h) (hidx : idx < 100000) :
    ∃ tree bump, BuildMerkleTreeStoreChainHash (H.map some) = .ok tree ∧
      NewBUMPFromMerkleTreeAndIndex 850000 tree idx = .ok bump ∧ bump.totalHashes = 18 := by
  obtain ⟨cs, hcs, hlen, hleaf⟩ := chainHashStore_facts H (by omega) hH
  obtain ⟨k, hk, hle, hmin⟩ := nextPowerOfTwo_spec H.length (by omega)
  obtain ⟨h, hh⟩ := hleaf idx (by omega)
  have hk17 : k = 17 := by
    rw [hn] at hle hmin
    have h1 := hmin 17 (by norm_num)
    have h2 : ¬ k ≤ 16 := by
      intro hc
      have := Nat.pow_le_pow_right (by norm_num : 0 < 2) hc
      omega
    omega
  subst hk17
  rw [hk] at hlen
  obtain ⟨bump, hb, g1, -, -⟩ := newBUMP_of_tree 850000 cs idx 17 h (by norm_num) hlen
    (by norm_num; omega) hh
  exact ⟨cs, bump, hcs, hb, g1⟩

set_option maxRecDepth 1000000 in
/-- Witness of C29: the first five test txids at index 4, whose sibling at level 0 is a
duplicate: three levels and four leaves. -/
theorem newBUMPFromMerkleTreeAndIndex_count_witness :
    2 ≤ ((testTxids.take 5).map BytesFromStringReverse).length ∧
    4 < ((testTxids.take 5).map BytesFromStringReverse).length ∧
    ∃ tree bump k,
      BuildMerkleTreeStoreChainHash (((testTxids.take 5).map BytesFromStringReverse).map some)
        = .ok tree ∧
      NewBUMPFromMerkleTreeAndIndex 850000 tree 4 = .ok bump ∧
      (((testTxids.take 5).map BytesFromStringReverse).length ≤ 2 ^ k ∧
        ∀ j, ((testTxids.take 5).map BytesFromStringReverse).length ≤ 2 ^ j → k ≤ j) ∧
      bump.totalHashes = k + 1 ∧ bump.Path.length = k ∧ bump.BlockHeight = 850000 :=
  ⟨by decide, by decide,
    newBUMPFromMerkleTreeAndIndex_count 850000 ((testTxids.take 5).map BytesFromStringReverse)
      4 (by decide) (by decide) (by decide)⟩

set_option maxRecDepth 1000000 in
/-- The BUMP of the fifth of five test txids: at level 0 the txid with flag 2 and a
duplicate, at level 1 a duplicate, at level 2 a real hash. -/
theorem testBUMPFromOddTree :
    ((BuildMerkleTreeStoreChainHash
        (((testTxids.take 5).map BytesFromStringReverse).map some)).bind
      (fun tree => NewBUMPFromMerkleTreeAndIndex 850000 tree 4)).map
      (fun b => b.Path.map (fun level => level.map (fun l => (l.offset, l.flags, l.hash.isSome))))
    = .ok [[(4, 2, true), (5, 1, false)], [(3, 1, false)], [(0, 0, true)]] := by
  decide

end Bc

namespace Bc

/-! ## The walk of the envelope creator -/

/-- One step of the walk on a non-empty queue: it ends with the error of a failed
lookup of the head, or it goes on with a longer queue and more visited ancestors, the
head among them, and keeps the invariant. -/
theorem ancestryWalk_step (getTx : List Nat → Except (List Nat) (Option Tx))
    (getProof : List Nat → Except (List Nat) (Option MerkleProof)) (tip : Tx)
    (t : List Nat) (q : List (List Nat)) (v : List AncestryNode)
    (hinv : WalkInv getTx getProof tip (t :: q) v) :
    (∃ f, f ≠ .fuel ∧ LookupFailure getTx getProof t f ∧
      ∀ m, ancestryWalk getTx getProof (m + 1) (t :: q) v = .error f) ∨
    (∃ e w, (∀ m, ancestryWalk getTx getProof (m + 1) (t :: q) v =
        ancestryWalk getTx getProof m (q ++ e) (v ++ w)) ∧
      t ∈ (v ++ w).map AncestryNode.TxID ∧ WalkInv getTx getProof tip (q ++ e) (v ++ w)) := by
  obtain ⟨hgood, hclosed, hanc⟩ := hinv
  have hq : ∀ x ∈ q, IsAncestor getTx getProof tip x :=
    fun x hx => hanc x (List.mem_cons_of_mem _ hx)
  by_cases hvis : t ∈ v.map AncestryNode.TxID
  · refine Or.inr ⟨[], [], fun m => ?_, by simpa using hvis, ?_⟩
    · rw [ancestryWalk, if_pos hvis, List.append_nil, List.append_nil]
    · rw [List.append_nil, List.append_nil]
      refine ⟨hgood, fun n hn hp p hpm => ?_, hq⟩
      rcases hclosed n hn hp p hpm with h | h
      · exact Or.inl h
      · rcases List.mem_cons.1 h with rfl | h
        · exact Or.inl hvis
        · exact Or.inr h
  · cases htx : getTx t with
    | error err =>
      refine Or.inl ⟨_, ?_, Or.inr (Or.inl ⟨err, htx, rfl⟩), fun m => ?_⟩
      · intro h; cases h
      · rw [ancestryWalk, if_neg hvis, htx]
    | ok otx =>
      cases otx with
      | none =>
        refine Or.inl ⟨errorf (str "could not find tx " ++ t ++ str ": tx not found"), ?_,
          Or.inl ⟨htx, rfl⟩, fun m => ?_⟩
        · intro h; cases h
        · rw [ancestryWalk, if_neg hvis, htx]
          simp only [List.append_assoc]
          rfl
      | some tx =>
        cases hpr : getProof t with
        | error err =>
          refine Or.inl ⟨_, ?_, Or.inr (Or.inr ⟨err, hpr, rfl⟩), fun m => ?_⟩
          · intro h; cases h
          · rw [ancestryWalk, if_neg hvis, htx]
            simp only [hpr]
        | ok op =>
          cases op with
          | some proof =>
            refine Or.inr ⟨[], [(⟨t, tx.Raw, some proof, []⟩ : AncestryNode)], fun m => ?_, by simp, ?_⟩
            · rw [ancestryWalk, if_neg hvis, htx]
              simp only [hpr, List.append_nil]
            · rw [List.append_nil]
              refine ⟨fun n hn => ?_, fun n hn hp p hpm => ?_, hq⟩
              · rcases List.mem_append.1 hn with h | h
                · exact hgood n h
                · rw [List.mem_singleton] at h
                  subst h
                  exact ⟨tx, htx, rfl, hpr, fun h => by cases h⟩
              · rcases List.mem_append.1 hn with h | h
                · rcases hclosed n h hp p hpm with h2 | h2
                  · exact Or.inl (by rw [List.map_append]; exact List.mem_append_left _ h2)
                  · rcases List.mem_cons.1 h2 with rfl | h2
                    · exact Or.inl (by simp)
                    · exact Or.inr h2
                · rw [List.mem_singleton] at h
                  subst h
                  cases hp
          | none =>
            refine Or.inr ⟨tx.Inputs, [(⟨t, tx.Raw, none, tx.Inputs⟩ : AncestryNode)], fun m => ?_, by simp, ?_⟩
            · rw [ancestryWalk, if_neg hvis, htx]
              simp only [hpr]
            · refine ⟨fun n hn => ?_, fun n hn hp p hpm => ?_, fun x hx => ?_⟩
              · rcases List.mem_append.1 hn with h | h
                · exact hgood n h
                · rw [List.mem_singleton] at h
                  subst h
                  exact ⟨tx, htx, rfl, hpr, fun _ => rfl⟩
              · rcases List.mem_append.1 hn with h | h
                · rcases hclosed n h hp p hpm with h2 | h2
                  · exact Or.inl (by rw [List.map_append]; exact List.mem_append_left _ h2)
                  · rcases List.mem_cons.1 h2 with rfl | h2
                    · exact Or.inl (by simp)
                    · exact Or.inr (List.mem_append_left _ h2)
                · rw [List.mem_singleton] at h
                  subst h
                  exact Or.inr (List.mem_append_right _ hpm)
              · rcases List.mem_append.1 hx with h | h
                · exact hq x h
                · exact IsAncestor.parent t x tx (hanc t (List.mem_cons_self _ _)) htx hpr h

theorem ancestryWalk_nil (getTx : List Nat → Except (List Nat) (Option Tx))
    (getProof : List Nat → Except (List Nat) (Option MerkleProof)) (n : Nat)
    (v : List AncestryNode) : ancestryWalk getTx getProof n [] v = .ok v := by
  rw [ancestryWalk]

/-- An error of the walk is the missing fuel or names an ancestor whose lookup failed. -/
theorem ancestryWalk_error (getTx : List Nat → Except (List Nat) (Option Tx))
    (getProof : List Nat → Except (List Nat) (Option MerkleProof)) (tip : Tx) :
    ∀ (fuel : Nat) (q : List (List Nat)) (v : List AncestryNode) (f : Fault),
      WalkInv getTx getProof tip q v → ancestryWalk getTx getProof fuel q v = .error f →
      f = .fuel ∨ ∃ t, IsAncestor getTx getProof tip t ∧ LookupFailure getTx getProof t f := by
  intro fuel
  induction fuel with
  | zero =>
    intro q v f _ h
    cases q with
    | nil => rw [ancestryWalk_nil] at h; cases h
    | cons t q => rw [ancestryWalk] at h; cases h; exact Or.inl rfl
  | succ n ih =>
    intro q v f hinv h
    cases q with
    | nil => rw [ancestryWalk_nil] at h; cases h
    | cons t q =>
      rcases ancestryWalk_step getTx getProof tip t q v hinv with ⟨f2, -, hl, hw⟩ | ⟨e, w, hw, -, hi⟩
      · rw [hw n] at h
        cases h
        exact Or.inr ⟨t, hinv.2.2 t (List.mem_cons_self _ _), hl⟩
      · rw [hw n] at h
        exact ih _ _ f hi h

/-- A walk that returns has visited the queue, and what it visited agrees with the
getters and is closed under the parents of the ancestors without proof. -/
theorem ancestryWalk_ok (getTx : List Nat → Except (List Nat) (Option Tx))
    (getProof : List Nat → Except (List Nat) (Option MerkleProof)) (tip : Tx) :
    ∀ (fuel : Nat) (q : List (List Nat)) (v out : List AncestryNode),
      WalkInv getTx getProof tip q v → ancestryWalk getTx getProof fuel q v = .ok out →
      (∀ n ∈ out, NodeGood getTx getProof n) ∧
      (∀ n ∈ out, n.Proof = none → ∀ p ∈ n.Parents, p ∈ out.map AncestryNode.TxID) ∧
      (∀ t ∈ q, t ∈ out.map AncestryNode.TxID) ∧ (∀ n ∈ v, n ∈ out) := by
  have hnil : ∀ (v out : List AncestryNode), WalkInv getTx getProof tip [] v →
      Except.ok v = (Except.ok out : Result (List AncestryNode)) →
      (∀ n ∈ out, NodeGood getTx getProof n) ∧
      (∀ n ∈ out, n.Proof = none → ∀ p ∈ n.Parents, p ∈ out.map AncestryNode.TxID) ∧
      (∀ t ∈ ([] : List (List Nat)), t ∈ out.map AncestryNode.TxID) ∧ (∀ n ∈ v, n ∈ out) := by
    intro v out hinv h
    cases h
    refine ⟨hinv.1, fun n hn hp p hpm => ?_, fun t ht => absurd ht (List.not_mem_nil t),
      fun n hn => hn⟩
    rcases hinv.2.1 n hn hp p hpm with h | h
    · exact h
    · exact absurd h (List.not_mem_nil p)
  intro fuel
  induction fuel with
  | zero =>
    intro q v out hinv h
    cases q with
    | nil => rw [ancestryWalk_nil] at h; exact hnil v out hinv h
    | cons t q => rw [ancestryWalk] at h; cases h
  | succ n ih =>
    intro q v out hinv h
    cases q with
    | nil => rw [ancestryWalk_nil] at h; exact hnil v out hinv h
    | cons t q =>
      rcases ancestryWalk_step getTx getProof tip t q v hinv with ⟨f2, -, -, hw⟩ | ⟨e, w, hw, ht, hi⟩
      · rw [hw n] at h
        cases h
      · rw [hw n] at h
        obtain ⟨g1, g2, g3, g4⟩ := ih _ _ out hi h
        refine ⟨g1, g2, fun x hx => ?_, fun x hx => g4 x (List.mem_append_left _ hx)⟩
        rcases List.mem_cons.1 hx with rfl | hx
        · obtain ⟨nd, hnd, rfl⟩ := List.mem_map.1 ht
          exact List.mem_map.2 ⟨nd, g4 nd hnd, rfl⟩
        · exact g3 x (List.mem_append_left _ hx)

/-- The walk works off a prefix of its queue in finitely many steps, unless a lookup
fails on the way. -/
theorem ancestryWalk_front (getTx : List Nat → Except (List Nat) (Option Tx))
    (getProof : List Nat → Except (List Nat) (Option MerkleProof)) (tip : Tx) :
    ∀ (q1 q2 : List (List Nat)) (v : List AncestryNode),
      WalkInv getTx getProof tip (q1 ++ q2) v →
      ∃ n, (∃ f, f ≠ Fault.fuel ∧
          ∀ m, ancestryWalk getTx getProof (m + n) (q1 ++ q2) v = .error f) ∨
        (∃ e w, (∀ m, ancestryWalk getTx getProof (m + n) (q1 ++ q2) v =
            ancestryWalk getTx getProof m (q2 ++ e) (v ++ w)) ∧
          (∀ t ∈ q1, t ∈ (v ++ w).map AncestryNode.TxID) ∧
          WalkInv getTx getProof tip (q2 ++ e) (v ++ w)) := by
  intro q1
  induction q1 with
  | nil =>
    intro q2 v hinv
    refine ⟨0, Or.inr ⟨[], [], fun m => ?_, fun t ht => absurd ht (List.not_mem_nil t), ?_⟩⟩
    · simp only [List.nil_append, List.append_nil, Nat.add_zero]
    · simpa using hinv
  | cons t q1 ih =>
    intro q2 v hinv
    rw [List.cons_append] at hinv
    rcases ancestryWalk_step getTx getProof tip t (q1 ++ q2) v hinv with
      ⟨f, hf, -, hw⟩ | ⟨e0, w0, hw, ht, hi⟩
    · exact ⟨1, Or.inl ⟨f, hf, fun m => hw m⟩⟩
    · rw [List.append_assoc] at hi hw
      obtain ⟨n, hn⟩ := ih (q2 ++ e0) (v ++ w0) hi
      refine ⟨n + 1, ?_⟩
      rcases hn with ⟨f, hf, hn⟩ | ⟨e, w, hn, hmem, hi2⟩
      · refine Or.inl ⟨f, hf, fun m => ?_⟩
        rw [List.cons_append, ← Nat.add_assoc, hw, hn]
      · refine Or.inr ⟨e0 ++ e, w0 ++ w, fun m => ?_, fun x hx => ?_, ?_⟩
        · rw [List.cons_append, ← Nat.add_assoc, hw, hn, List.append_assoc, List.append_assoc]
        · rw [← List.append_assoc]
          rcases List.mem_cons.1 hx with rfl | hx
          · rw [List.map_append]
            exact List.mem_append_left _ ht
          · exact hmem x hx
        · rw [← List.append_assoc, ← List.append_assoc]
          exact hi2

theorem walkInv_init (getTx : List Nat → Except (List Nat) (Option Tx))
    (getProof : List Nat → Except (List Nat) (Option MerkleProof)) (tip : Tx) :
    WalkInv getTx getProof tip tip.Inputs [] :=
  ⟨fun n hn => absurd hn (List.not_mem_nil n), fun n hn => absurd hn (List.not_mem_nil n),
    fun t ht => IsAncestor.input t ht⟩

/-- Every ancestor is visited after finitely many steps, unless a lookup fails on the
way. -/
theorem ancestryWalk_reaches (getTx : List Nat → Except (List Nat) (Option Tx))
    (getProof : List Nat → Except (List Nat) (Option MerkleProof)) (tip : Tx) (t : List Nat)
    (h : IsAncestor getTx getProof tip t) :
    ∃ n, (∃ f, f ≠ Fault.fuel ∧
        ∀ m, ancestryWalk getTx getProof (m + n) tip.Inputs [] = .error f) ∨
      (∃ q v, (∀ m, ancestryWalk getTx getProof (m + n) tip.Inputs [] =
          ancestryWalk getTx getProof m q v) ∧
        WalkInv getTx getProof tip q v ∧ t ∈ v.map AncestryNode.TxID) := by
  induction h with
  | input t hmem =>
    obtain ⟨s, r, hs⟩ := List.append_of_mem hmem
    have hs2 : tip.Inputs = (s ++ [t]) ++ r := by rw [hs]; simp
    have hinv := walkInv_init getTx getProof tip
    rw [hs2] at hinv ⊢
    obtain ⟨n, hn⟩ := ancestryWalk_front getTx getProof tip (s ++ [t]) r [] hinv
    refine ⟨n, ?_⟩
    rcases hn with hn | ⟨e, w, hw, hmem2, hi⟩
    · exact Or.inl hn
    · exact Or.inr ⟨_, _, hw, hi, hmem2 t (by simp)⟩
  | parent c t tx _ htx hpr hmem ih =>
    obtain ⟨n, hn⟩ := ih
    rcases hn with hn | ⟨q, v, hw, hi, hc⟩
    · exact ⟨n, Or.inl hn⟩
    · obtain ⟨nd, hnd, hndc⟩ := List.mem_map.1 hc
      obtain ⟨tx2, h1, -, h3, h4⟩ := hi.1 nd hnd
      rw [hndc, htx] at h1
      rw [hndc, hpr] at h3
      have hp : nd.Proof = none := by
        simp only [Except.ok.injEq] at h3
        exact h3.symm
      have htx2 : tx2 = tx := by
        simp only [Except.ok.injEq, Option.some.injEq] at h1
        exact h1.symm
      have hpar : t ∈ nd.Parents := by rw [h4 hp, htx2]; exact hmem
      rcases hi.2.1 nd hnd hp t hpar with hv | hq
      · exact ⟨n, Or.inr ⟨q, v, hw, hi, hv⟩⟩
      · obtain ⟨s, r, hs⟩ := List.append_of_mem hq
        have hs2 : q = (s ++ [t]) ++ r := by rw [hs]; simp
        rw [hs2] at hi hw
        obtain ⟨n2, hn2⟩ := ancestryWalk_front getTx getProof tip (s ++ [t]) r v hi
        refine ⟨n2 + n, ?_⟩
        rcases hn2 with ⟨f, hf, hn2⟩ | ⟨e, w, hw2, hmem2, hi2⟩
        · refine Or.inl ⟨f, hf, fun m => ?_⟩
          rw [← Nat.add_assoc, hw, hn2]
        · refine Or.inr ⟨_, _, fun m => ?_, hi2, hmem2 t (by simp)⟩
          rw [← Nat.add_assoc, hw, hw2]

theorem isAncestor_inputs (getTx : List Nat → Except (List Nat) (Option Tx))
    (getProof : List Nat → Except (List Nat) (Option MerkleProof)) (tip : Tx) (t : List Nat)
    (h : IsAncestor getTx getProof tip t) : tip.Inputs ≠ [] := by
  induction h with
  | input t hmem => exact List.ne_nil_of_mem hmem
  | parent _ _ _ _ _ _ _ ih => exact ih

/-- C30: CreateTxAncestry reports lookup failures with the txid they pertain to. An
error that it returns is, besides ErrNoTxInputs, one of the texts
`could not find tx <txid>: tx not found`, `failed to get tx <txid>: <e>` and
`failed to get merkle proof for tx <txid>: <e>` for an ancestor `txid` whose lookup
failed in that way; when it returns an ancestry, the transaction and the proof lookup
of every ancestor, at any depth, have succeeded; and when a lookup of some ancestor
fails, every sufficiently long walk returns such an error and no ancestry. -/
theorem createTxAncestry_lookup_errors (getTx : List Nat → Except (List Nat) (Option Tx))
    (getProof : List Nat → Except (List Nat) (Option MerkleProof)) (tip : Tx) :
    (∀ fuel f, CreateTxAncestry getTx getProof fuel tip = .error f →
      f = .fuel ∨ f = .error (.new errNoTxInputsMsg) ∨
      ∃ txid, IsAncestor getTx getProof tip txid ∧ LookupFailure getTx getProof txid f) ∧
    (∀ fuel a, CreateTxAncestry getTx getProof fuel tip = .ok a →
      ∀ txid, IsAncestor getTx getProof tip txid →
        txid ∈ a.Ancestors.map AncestryNode.TxID ∧
        ∃ tx p, getTx txid = .ok (some tx) ∧ getProof txid = .ok p) ∧
    (∀ txid, IsAncestor getTx getProof tip txid →
      ¬ (∃ tx p, getTx txid = .ok (some tx) ∧ getProof txid = .ok p) →
      ∃ n f, f ≠ Fault.fuel ∧
        (∃ t, IsAncestor getTx getProof tip t ∧ LookupFailure getTx getProof t f) ∧
        ∀ m, CreateTxAncestry getTx getProof (m + n) tip = .error f) := by
  have hinit := walkInv_init getTx getProof tip
  refine ⟨fun fuel f h => ?_, fun fuel a h => ?_, fun txid hanc hfail => ?_⟩
  · unfold CreateTxAncestry at h
    split at h
    · cases h
      exact Or.inr (Or.inl rfl)
    · split at h
      · rename_i f2 heq
        cases h
        rcases ancestryWalk_error getTx getProof tip _ _ _ _ hinit heq with h1 | h1
        · exact Or.inl h1
        · exact Or.inr (Or.inr h1)
      · cases h
  · unfold CreateTxAncestry at h
    split at h
    · cases h
    · split at h
      · cases h
      · rename_i out heq
        cases h
        obtain ⟨g1, g2, g3, -⟩ := ancestryWalk_ok getTx getProof tip _ _ _ _ hinit heq
        have key : ∀ txid, IsAncestor getTx getProof tip txid →
            txid ∈ out.map AncestryNode.TxID := by
          intro txid hanc
          induction hanc with
          | input t hmem => exact g3 t hmem
          | parent c t tx _ htx hpr hmem ih =>
            obtain ⟨nd, hnd, hndc⟩ := List.mem_map.1 ih
            obtain ⟨tx2, h1, -, h3, h4⟩ := g1 nd hnd
            rw [hndc, htx] at h1
            rw [hndc, hpr] at h3
            have hp : nd.Proof = none := by
              simp only [Except.ok.injEq] at h3
              exact h3.symm
            have htx2 : tx2 = tx := by
              simp only [Except.ok.injEq, Option.some.injEq] at h1
              exact h1.symm
            exact g2 nd hnd hp t (by rw [h4 hp, htx2]; exact hmem)
        intro txid hanc
        refine ⟨key txid hanc, ?_⟩
        obtain ⟨nd, hnd, hndc⟩ := List.mem_map.1 (key txid hanc)
        obtain ⟨tx2, h1, -, h3, -⟩ := g1 nd hnd
        rw [hndc] at h1 h3
        exact ⟨tx2, nd.Proof, h1, h3⟩
  · obtain ⟨n, hn⟩ := ancestryWalk_reaches getTx getProof tip txid hanc
    have hne := isAncestor_inputs getTx getProof tip txid hanc
    rcases hn with ⟨f, hf, hw⟩ | ⟨q, v, -, hi, hv⟩
    · have hc : ∀ m, CreateTxAncestry getTx getProof (m + n) tip = .error f := by
        intro m
        unfold CreateTxAncestry
        rw [if_neg hne, hw m]
      refine ⟨n, f, hf, ?_, hc⟩
      have h0 := hw 0
      rcases ancestryWalk_error getTx getProof tip _ _ _ _ hinit h0 with h1 | h1
      · exact absurd h1 hf
      · exact h1
    · exfalso
      obtain ⟨nd, hnd, hndc⟩ := List.mem_map.1 hv
      obtain ⟨tx2, h1, -, h3, -⟩ := hi.1 nd hnd
      rw [hndc] at h1 h3
      exact hfail ⟨tx2, nd.Proof, h1, h3⟩

set_option maxRecDepth 1000000 in
/-- The overrides of TestSPVEnvelopeCreateEnvelope two layers below the tip: a missing
transaction, an error of the transaction getter and an error of the proof getter give
the three texts with the txid; without a failure the six ancestors are returned. -/
theorem testCreateTxAncestry :
    CreateTxAncestry (sampleGetTx 0) (sampleGetProof 0) 10 sampleTip =
      .error (.error (.new ("could not find tx "
        ++ "a8e760210a8e3646ded829860745c60a2ade443d6998465dd0da5ae5f37b3b8e: tx not found"))) ∧
    CreateTxAncestry (sampleGetTx 1) (sampleGetProof 1) 10 sampleTip =
      .error (.error (.new ("failed to get tx "
        ++ "8fff14aabcad6ebd1da2ce7737751e1e1e4c9c0d4c5b8abfef7e7914556d7965: "
        ++ "close but no cigar"))) ∧
    CreateTxAncestry (sampleGetTx 2) (sampleGetProof 2) 10 sampleTip =
      .error (.error (.new ("failed to get merkle proof for tx "
        ++ "3fa9a1a20c1f4dbd2c3dd5866749621ebe15c7290c13080ba0d45ab9c649cc15: oh no"))) ∧
    (CreateTxAncestry (sampleGetTx 3) (sampleGetProof 3) 10 sampleTip).map
        (fun a => a.Ancestors.map (fun n => (n.TxID.length, n.Proof.isSome))) =
      .ok [(2, false), (2, true), (2, false), (64, true), (64, true), (64, true)] := by
  decide

set_option maxRecDepth 1000000 in
/-- Witness of C30: in the example with the missing transaction two layers below the
tip, the missing txid is an ancestor, and a walk of four steps or more returns an
error that names a failed lookup and no ancestry. -/
theorem createTxAncestry_lookup_errors_witness :
    IsAncestor (sampleGetTx 0) (sampleGetProof 0) sampleTip
      (str "a8e760210a8e3646ded829860745c60a2ade443d6998465dd0da5ae5f37b3b8e") ∧
    (∃ n f, f ≠ Fault.fuel ∧
      (∃ t, IsAncestor (sampleGetTx 0) (sampleGetProof 0) sampleTip t ∧
        LookupFailure (sampleGetTx 0) (sampleGetProof 0) t f) ∧
      ∀ m, CreateTxAncestry (sampleGetTx 0) (sampleGetProof 0) (m + n) sampleTip = .error f) :=
  have h1 : IsAncestor (sampleGetTx 0) (sampleGetProof 0) sampleTip (str "t1") :=
    IsAncestor.input _ (by decide)
  have h3 : IsAncestor (sampleGetTx 0) (sampleGetProof 0) sampleTip (str "t3") :=
    IsAncestor.parent (str "t1") _ ⟨str "01", [str "t3"]⟩ h1 (by decide) (by decide) (by decide)
  have h4 : IsAncestor (sampleGetTx 0) (sampleGetProof 0) sampleTip
      (str "a8e760210a8e3646ded829860745c60a2ade443d6998465dd0da5ae5f37b3b8e") :=
    IsAncestor.parent (str "t3") _ ⟨str "03",
      [str "a8e760210a8e3646ded829860745c60a2ade443d6998465dd0da5ae5f37b3b8e",
       str "8fff14aabcad6ebd1da2ce7737751e1e1e4c9c0d4c5b8abfef7e7914556d7965",
       str "3fa9a1a20c1f4dbd2c3dd5866749621ebe15c7290c13080ba0d45ab9c649cc15"]⟩
      h3 (by decide) (by decide) (by decide)
  ⟨h4, (createTxAncestry_lookup_errors (sampleGetTx 0) (sampleGetProof 0) sampleTip).2.2 _ h4
    (by
      rintro ⟨tx, p, h, -⟩
      have e : sampleGetTx 0
          (str "a8e760210a8e3646ded829860745c60a2ade443d6998465dd0da5ae5f37b3b8e") =
          .ok none := by decide
      rw [e] at h
      cases h)⟩

end Bc

namespace Bc

/-! ## nextPowerOfTwo -/

/-- C40: for every `n` with `1 ≤ n < 2 ^ 31`, nextPowerOfTwo(n) is the smallest power of
two that is at least `n`: `n` itself when `n` is a power of two, and otherwise the power
of two `p` with `n < p < 2 * n`; it does not exceed `2 ^ 31`. -/
theorem nextPowerOfTwo_smallest (n : Nat) (h1 : 1 ≤ n) (h2 : n < 2 ^ 31) :
    (∃ k, nextPowerOfTwo n = 2 ^ k ∧ n ≤ 2 ^ k ∧ ∀ j, n ≤ 2 ^ j → k ≤ j) ∧
    ((∃ k, n = 2 ^ k) → nextPowerOfTwo n = n) ∧
    ((¬ ∃ k, n = 2 ^ k) → n < nextPowerOfTwo n ∧ nextPowerOfTwo n < 2 * n) ∧
    nextPowerOfTwo n ≤ 2 ^ 31 := by
  obtain ⟨k, hk, hle, hmin⟩ := nextPowerOfTwo_spec n h1
  refine ⟨⟨k, hk, hle, hmin⟩, ?_, ?_, ?_⟩
  · intro hp
    unfold nextPowerOfTwo
    rw [if_pos ((and_pred_eq_zero_iff n h1).2 hp)]
  · intro hnp
    rw [hk]
    have hne : n ≠ 2 ^ k := fun e => hnp ⟨k, e⟩
    refine ⟨by omega, ?_⟩
    rcases Nat.eq_zero_or_pos k with h0 | h0
    · rw [h0] at hle hne
      simp only [pow_zero] at hle hne
      omega
    · obtain ⟨j, rfl⟩ : ∃ j, k = j + 1 := ⟨k - 1, by omega⟩
      have hj : ¬ n ≤ 2 ^ j := fun hc => by have := hmin j hc; omega
      rw [pow_succ]
      omega
  · rw [hk]
    exact Nat.pow_le_pow_right (by norm_num) (hmin 31 (by omega))

/-- Witness of C40: 8 is a power of two and is returned; 5 and 100000 are not. -/
theorem nextPowerOfTwo_smallest_witness :
    1 ≤ 8 ∧ 8 < 2 ^ 31 ∧ nextPowerOfTwo 8 = 8 ∧ nextPowerOfTwo 5 = 8 ∧
    nextPowerOfTwo 100000 = 131072 ∧ nextPowerOfTwo 1 = 1 :=
  ⟨by decide, by decide, (nextPowerOfTwo_smallest 8 (by decide) (by decide)).2.1 ⟨3, rfl⟩,
    by decide, by decide, by decide⟩

/-! ## flagProofType -/

/-- The result of flagProofType depends on bits 1 and 2 of the flags only. -/
theorem flagProofType_mask (flags : Nat) :
    flagProofType flags = flagProofType (flags &&& 6) := by
  unfold flagProofType targetTypeFlags
  simp only [Nat.and_assoc, Nat.and_self]

/-- C32: flagProofType does not tell a merkle root from a block hash. The flags with
bit 2 alone among bits 1 and 2 give the word `blockhash`, as the flags with neither bit
do, and a proof that `parseBinaryMerkleProof` reads with such flags is returned by
NewAncestryJSONFromBytes with `blockhash` in its `ProofType` and an empty
`TargetType`. -/
theorem flagProofType_merkleRoot {τ : Type}
    (parseAncestry : List Nat → Result (List (Ancestor τ))) (txString : τ → List Nat)
    (parseBinaryMerkleProof : List Nat → Result merkleProofBinary) (b : List Nat) (tx : τ)
    (proof : List Nat) (mapi : List (Option MapiCallback)) (mpb : merkleProofBinary)
    (ha : parseAncestry b = .ok [⟨tx, some proof, mapi⟩])
    (hp : parseBinaryMerkleProof proof = .ok mpb) (hf : mpb.flags &&& 6 = 4) :
    flagProofType mpb.flags = str "blockhash" ∧
    flagProofType mpb.flags = flagProofType 0 ∧
    NewAncestryJSONFromBytes parseAncestry txString parseBinaryMerkleProof b =
      .ok [⟨txString tx,
        some ⟨mpb.index, mpb.txOrID, mpb.target, mpb.nodes, [], str "blockhash"⟩, mapi⟩] := by
  have e : flagProofType mpb.flags = str "blockhash" := by
    rw [flagProofType_mask, hf]
    decide
  refine ⟨e, by rw [e]; decide, ?_⟩
  unfold NewAncestryJSONFromBytes
  rw [ha]
  simp only [newAncestryLoop, hp, e, List.nil_append]

set_option maxRecDepth 100000 in
/-- Witness of C32: the three values of bits 1 and 2 that flagProofType meets, and a
parsed proof with flags 4. -/
theorem flagProofType_merkleRoot_witness :
    flagProofType 0 = str "blockhash" ∧ flagProofType 2 = str "header" ∧
    flagProofType 4 = str "blockhash" ∧ flagProofType 6 = [] ∧
    NewAncestryJSONFromBytes (fun _ => .ok [⟨str "00", some [4, 7], []⟩]) hexEncodeToString
        (fun _ => .ok ⟨7, str "aa", str "bb", [], 4⟩) [1, 1, 2, 0x30, 0x30, 2, 2, 4, 7] =
      .ok [⟨str "3030", some ⟨7, str "aa", str "bb", [], [], str "blockhash"⟩, []⟩] :=
  ⟨by decide, by decide, by decide, by decide,
    (flagProofType_merkleRoot (fun _ => .ok [⟨str "00", some [4, 7], []⟩]) hexEncodeToString
      (fun _ => .ok ⟨7, str "aa", str "bb", [], 4⟩) [1, 1, 2, 0x30, 0x30, 2, 2, 4, 7]
      (str "00") [4, 7] [] ⟨7, str "aa", str "bb", [], 4⟩ rfl rfl (by decide)).2.2⟩

/-! ## NewMerklePathFromBytes on short input -/

theorem sliceChecked_no_error (b : List Nat) (lo hi : Nat) (e : GoError) :
    sliceChecked b lo hi ≠ .error (.error e) := by
  unfold sliceChecked
  split_ifs <;> intro h <;> cases h

theorem newVarIntFromBytes_no_error (bb : List Nat) (e : GoError) :
    NewVarIntFromBytes bb ≠ .error (.error e) := by
  intro h
  unfold NewVarIntFromBytes at h
  simp only [bind, Except.bind, pure, Except.pure] at h
  split at h
  · rename_i f heq
    cases h
    exact index_no_error bb 0 e heq
  · repeat' split at h
    all_goals first
      | (cases h; done)
      | (cases h; rename_i heq; exact sliceChecked_no_error _ _ _ e heq)

theorem parseLeaves_no_error : ∀ (k : Nat) (bytes : List Nat) (offset : Nat)
    (path : List (List Nat)) (e : GoError),
    parseLeaves k bytes offset path ≠ .error (.error e) := by
  intro k
  induction k with
  | zero =>
    intro bytes offset path e h
    rw [parseLeaves] at h
    cases h
  | succ k ih =>
    intro bytes offset path e h
    rw [parseLeaves] at h
    simp only [bind, Except.bind] at h
    split at h
    · rename_i f heq
      cases h
      exact sliceChecked_no_error _ _ _ e heq
    · exact ih _ _ _ e h

/-- C34: NewMerklePathFromBytes is not total. On the empty slice it panics at the first
index, on a slice that ends before the leaf count it panics as well, and on a slice
whose leaf count announces a leaf that is not there it panics at the slice expression;
and on no input at all does it return an error value. -/
theorem newMerklePathFromBytes_panics :
    NewMerklePathFromBytes [] = .error (.panic "index out of range") ∧
    NewMerklePathFromBytes [0x00] = .error (.panic "index out of range") ∧
    NewMerklePathFromBytes [0x00, 0x01] = .error (.panic "slice bounds out of range") ∧
    (∀ b e, NewMerklePathFromBytes b ≠ .error (.error e)) := by
  refine ⟨by decide, by decide, by decide, ?_⟩
  intro b e h
  unfold NewMerklePathFromBytes at h
  simp only [bind, Except.bind, pure, Except.pure] at h
  repeat' split at h
  all_goals first
    | (cases h; done)
    | (cases h; rename_i heq; first
        | exact sliceChecked_no_error _ _ _ e heq
        | exact newVarIntFromBytes_no_error _ e heq
        | exact parseLeaves_no_error _ _ _ _ e heq)

end Bc

namespace Bc

/-! ## UnmarshalJSON of a block header -/

set_option maxRecDepth 100000 in
/-- C38, counterexample: with a JSON text whose `bits` is not hex, UnmarshalJSON returns
the error of `hex.DecodeString` and has already overwritten Version, Nonce and Time of
the receiver, here the header of block 0. -/
theorem unmarshalJSON_not_atomic_counterexample :
    (BlockHeader.UnmarshalJSON
        (fun _ => .ok { Version := 2, Time := 3, Nonce := 4, HashPrevBlock := str "00",
                        HashMerkleRoot := str "00", Bits := str "zz" })
        genesisHeader
        (str ("\x7b\"version\":2,\"time\":3,\"nonce\":4,\"hashPrevBlock\":\"00\"," ++
          "\"merkleRoot\":\"00\",\"bits\":\"zz\"\x7d"))) =
      ({ genesisHeader with Version := 2, Time := 3, Nonce := 4 },
        some (.invalidByte 122)) ∧
    ({ genesisHeader with Version := 2, Time := 3, Nonce := 4 } : BlockHeader) ≠
      genesisHeader := by
  decide

/-- C38, amended: when UnmarshalJSON returns an error, the receiver is unchanged if the
error comes from `json.Unmarshal`; if it comes from a hex value, Version, Nonce and Time
have been overwritten with the values of the JSON text, the hex fields decoded before
the failing one have been overwritten too (bits, then hashPrevBlock), and the failing
field and those after it, the merkle root always, are as before the call. -/
theorem unmarshalJSON_error_state (jsonUnmarshal : List Nat → Except GoError bhJSON)
    (bh : BlockHeader) (b : List Nat) (err : GoError)
    (h : (BlockHeader.UnmarshalJSON jsonUnmarshal bh b).2 = some err) :
    (jsonUnmarshal b = .error err ∧ (BlockHeader.UnmarshalJSON jsonUnmarshal bh b).1 = bh) ∨
    (∃ bhj, jsonUnmarshal b = .ok bhj ∧
      (BlockHeader.UnmarshalJSON jsonUnmarshal bh b).1.Version = bhj.Version ∧
      (BlockHeader.UnmarshalJSON jsonUnmarshal bh b).1.Nonce = bhj.Nonce ∧
      (BlockHeader.UnmarshalJSON jsonUnmarshal bh b).1.Time = bhj.Time ∧
      (BlockHeader.UnmarshalJSON jsonUnmarshal bh b).1.HashMerkleRoot = bh.HashMerkleRoot ∧
      (((hexDecodeString bhj.Bits).2 = some err ∧
          (BlockHeader.UnmarshalJSON jsonUnmarshal bh b).1.Bits = bh.Bits ∧
          (BlockHeader.UnmarshalJSON jsonUnmarshal bh b).1.HashPrevBlock = bh.HashPrevBlock) ∨
        ((hexDecodeString bhj.Bits).2 = none ∧
          (hexDecodeString bhj.HashPrevBlock).2 = some err ∧
          (BlockHeader.UnmarshalJSON jsonUnmarshal bh b).1.Bits =
            (hexDecodeString bhj.Bits).1 ∧
          (BlockHeader.UnmarshalJSON jsonUnmarshal bh b).1.HashPrevBlock = bh.HashPrevBlock) ∨
        ((hexDecodeString bhj.Bits).2 = none ∧
          (hexDecodeString bhj.HashPrevBlock).2 = none ∧
          (hexDecodeString bhj.HashMerkleRoot).2 = some err ∧
          (BlockHeader.UnmarshalJSON jsonUnmarshal bh b).1.Bits =
            (hexDecodeString bhj.Bits).1 ∧
          (BlockHeader.UnmarshalJSON jsonUnmarshal bh b).1.HashPrevBlock =
            (hexDecodeString bhj.HashPrevBlock).1))) := by
  unfold BlockHeader.UnmarshalJSON at h ⊢
  cases hj : jsonUnmarshal b with
  | error e =>
    rw [hj] at h
    simp only [Option.some.injEq] at h
    subst h
    exact Or.inl ⟨rfl, rfl⟩
  | ok bhj =>
    rw [hj] at h
    refine Or.inr ⟨bhj, rfl, ?_⟩
    simp only
    rcases hb : hexDecodeString bhj.Bits with ⟨bits, _ | e1⟩
    · rcases hp : hexDecodeString bhj.HashPrevBlock with ⟨prev, _ | e2⟩
      · rcases hm : hexDecodeString bhj.HashMerkleRoot with ⟨root, _ | e3⟩
        · simp only [hb, hp, hm] at h
          cases h
        · simp only [hb, hp, hm, Option.some.injEq] at h
          subst h
          exact ⟨rfl, rfl, rfl, rfl, Or.inr (Or.inr ⟨rfl, rfl, rfl, rfl, rfl⟩)⟩
      · simp only [hb, hp, Option.some.injEq] at h
        subst h
        exact ⟨rfl, rfl, rfl, rfl, Or.inr (Or.inl ⟨rfl, rfl, rfl, rfl⟩)⟩
    · simp only [hb, Option.some.injEq] at h
      subst h
      exact ⟨rfl, rfl, rfl, rfl, Or.inl ⟨rfl, rfl, rfl⟩⟩

set_option maxRecDepth 100000 in
/-- Witness of C38 as amended: the JSON text with `bits` that is not hex, on the header
of block 0. -/
theorem unmarshalJSON_error_state_witness :
    (BlockHeader.UnmarshalJSON
        (fun _ => .ok { Version := 2, Time := 3, Nonce := 4, HashPrevBlock := str "00",
                        HashMerkleRoot := str "00", Bits := str "zz" })
        genesisHeader (str "\x7b\"bits\":\"zz\"\x7d")).2 = some (.invalidByte 122) ∧
    ((BlockHeader.UnmarshalJSON
        (fun _ => .ok { Version := 2, Time := 3, Nonce := 4, HashPrevBlock := str "00",
                        HashMerkleRoot := str "00", Bits := str "zz" })
        genesisHeader (str "\x7b\"bits\":\"zz\"\x7d")).1.Version = 2 ∧
      (BlockHeader.UnmarshalJSON
        (fun _ => .ok { Version := 2, Time := 3, Nonce := 4, HashPrevBlock := str "00",
                        HashMerkleRoot := str "00", Bits := str "zz" })
        genesisHeader (str "\x7b\"bits\":\"zz\"\x7d")).1.HashMerkleRoot =
          genesisHeader.HashMerkleRoot) :=
  ⟨by decide,
    (unmarshalJSON_error_state
      (fun _ => .ok { Version := 2, Time := 3, Nonce := 4, HashPrevBlock := str "00",
                      HashMerkleRoot := str "00", Bits := str "zz" })
      genesisHeader (str "\x7b\"bits\":\"zz\"\x7d") (.invalidByte 122) (by decide)).elim
      (fun h => by cases h.1)
      (fun ⟨_, hj, hv, _, _, hr, _⟩ => by
        simp only [Except.ok.injEq] at hj
        exact ⟨by rw [hv, ← hj], hr⟩)⟩

/-! ## The JSON form of a block header round-trips -/

theorem jsonPlainByte_of_lowerHex (c : Nat) (h : isLowerHex c = true) :
    jsonPlainByte c = true := by
  unfold isLowerHex at h
  unfold jsonPlainByte
  simp only [Bool.or_eq_true, Bool.and_eq_true, decide_eq_true_eq] at h
  simp only [Bool.and_eq_true, decide_eq_true_eq, Bool.not_eq_true', Bool.or_eq_false_iff,
    decide_eq_false_iff_not]
  omega

theorem jsonString_hex (b : List Nat) (hb : IsBytes b) :
    jsonString (hexEncodeToString b) = some ([0x22] ++ hexEncodeToString b ++ [0x22]) := by
  unfold jsonString
  rw [if_pos]
  rw [List.all_eq_true]
  intro c hc
  exact jsonPlainByte_of_lowerHex c ((hexEncodeToString_lower b hb).2 c hc)

/-- C39: the JSON form of a header round-trips. MarshalJSON writes the three numbers in
decimal and the three byte fields as lowercase hex of the stored bytes under the keys
hashPrevBlock, merkleRoot and bits; and UnmarshalJSON on this text, with a
`json.Unmarshal` that reads back what `json.Marshal` wrote, returns no error and leaves
the receiver equal to the header, whatever it held before. -/
theorem blockHeader_json_roundtrip (jsonUnmarshal : List Nat → Except GoError bhJSON)
    (h bh0 : BlockHeader) (hp : IsBytes h.HashPrevBlock) (hm : IsBytes h.HashMerkleRoot)
    (hb : IsBytes h.Bits)
    (hjson : ∀ out, h.MarshalJSON = some out → jsonUnmarshal out = .ok h.toJSON) :
    ∃ out, h.MarshalJSON = some out ∧
      out = str "\x7b\"version\":" ++ (Nat.toDigits 10 h.Version).map Char.toNat
        ++ str ",\"time\":" ++ (Nat.toDigits 10 h.Time).map Char.toNat
        ++ str ",\"nonce\":" ++ (Nat.toDigits 10 h.Nonce).map Char.toNat
        ++ str ",\"hashPrevBlock\":\"" ++ hexEncodeToString h.HashPrevBlock
        ++ str "\",\"merkleRoot\":\"" ++ hexEncodeToString h.HashMerkleRoot
        ++ str "\",\"bits\":\"" ++ hexEncodeToString h.Bits ++ str "\"\x7d" ∧
      IsLowerHexStr (hexEncodeToString h.HashPrevBlock) ∧
      IsLowerHexStr (hexEncodeToString h.HashMerkleRoot) ∧
      IsLowerHexStr (hexEncodeToString h.Bits) ∧
      BlockHeader.UnmarshalJSON jsonUnmarshal bh0 out = (h, none) := by
  have e : h.MarshalJSON = some (str "\x7b\"version\":" ++ (Nat.toDigits 10 h.Version).map Char.toNat
        ++ str ",\"time\":" ++ (Nat.toDigits 10 h.Time).map Char.toNat
        ++ str ",\"nonce\":" ++ (Nat.toDigits 10 h.Nonce).map Char.toNat
        ++ str ",\"hashPrevBlock\":\"" ++ hexEncodeToString h.HashPrevBlock
        ++ str "\",\"merkleRoot\":\"" ++ hexEncodeToString h.HashMerkleRoot
        ++ str "\",\"bits\":\"" ++ hexEncodeToString h.Bits ++ str "\"\x7d") := by
    unfold BlockHeader.MarshalJSON bhJSON.Marshal BlockHeader.toJSON BlockHeader.BitsStr
      BlockHeader.HashMerkleRootStr BlockHeader.HashPrevBlockStr
    simp only [jsonString_hex _ hp, jsonString_hex _ hm, jsonString_hex _ hb]
    have q1 : str ",\"hashPrevBlock\":\"" = str ",\"hashPrevBlock\":" ++ [0x22] := by decide
    have q2 : str "\",\"merkleRoot\":\"" = [0x22] ++ str ",\"merkleRoot\":" ++ [0x22] := by
      decide
    have q3 : str "\",\"bits\":\"" = [0x22] ++ str ",\"bits\":" ++ [0x22] := by decide
    have q4 : str "\"\x7d" = [0x22] ++ str "\x7d" := by decide
    rw [q1, q2, q3, q4]
    simp only [List.append_assoc]
  refine ⟨_, e, rfl, hexEncodeToString_lower _ hp, hexEncodeToString_lower _ hm,
    hexEncodeToString_lower _ hb, ?_⟩
  unfold BlockHeader.UnmarshalJSON
  rw [hjson _ e]
  simp only [BlockHeader.toJSON, BlockHeader.BitsStr, BlockHeader.HashMerkleRootStr,
    BlockHeader.HashPrevBlockStr, hexDecodeString_hexEncodeToString _ hp,
    hexDecodeString_hexEncodeToString _ hm, hexDecodeString_hexEncodeToString _ hb]

set_option maxRecDepth 1000000 in
/-- The JSON text of the header of block 0. -/
theorem testGenesisMarshalJSON :
    genesisHeader.MarshalJSON = some (str ("\x7b\"version\":1,\"time\":1231006505,"
      ++ "\"nonce\":2083236893,\"hashPrevBlock\":"
      ++ "\"0000000000000000000000000000000000000000000000000000000000000000\","
      ++ "\"merkleRoot\":\"4a5e1e4baab89f3a32518a88c31bc87f618f76673e2cc77ab2127b7afdeda33b\","
      ++ "\"bits\":\"1d00ffff\"\x7d")) := by
  decide

set_option maxRecDepth 1000000 in
/-- Witness of C39: the header of block 0, read back into an empty header by a
`json.Unmarshal` that is given for the JSON text of this header. -/
theorem blockHeader_json_roundtrip_witness :
    IsBytes genesisHeader.HashPrevBlock ∧ IsBytes genesisHeader.HashMerkleRoot ∧
    IsBytes genesisHeader.Bits ∧
    ∃ out, genesisHeader.MarshalJSON = some out ∧
      BlockHeader.UnmarshalJSON
        (fun b => if some b = genesisHeader.MarshalJSON then .ok genesisHeader.toJSON
          else .error (.new "not covered"))
        { Version := 0, Time := 0, Nonce := 0, HashPrevBlock := [], HashMerkleRoot := [],
          Bits := [] } out = (genesisHeader, none) := by
  refine ⟨by decide, by decide, by decide, ?_⟩
  obtain ⟨out, he, -, -, -, -, hu⟩ := blockHeader_json_roundtrip
    (fun b => if some b = genesisHeader.MarshalJSON then .ok genesisHeader.toJSON
      else .error (.new "not covered"))
    genesisHeader
    { Version := 0, Time := 0, Nonce := 0, HashPrevBlock := [], HashMerkleRoot := [],
      Bits := [] }
    (by decide) (by decide) (by decide)
    (fun out ho => by simp only [ho, if_true])
  exact ⟨out, he, hu⟩

end Bc

namespace Bc

/-! ## The elements of a path, level by level -/

theorem xor_one_eq (i : Nat) : i ^^^ 1 = if i % 2 = 0 then i + 1 else i - 1 := by
  have h1 : (i ^^^ 1) / 2 = i / 2 := by rw [Nat.xor_div_two]; simp
  have h2 : (i ^^^ 1) % 2 = (i + 1) % 2 := Nat.xor_mod_two_eq
  split_ifs <;> omega

theorem levelStart_zero (K : Nat) : levelStart K 0 = 0 := by
  unfold levelStart
  simp

theorem levelStart_succ (K k : Nat) (h : k ≤ K) :
    levelStart (K + 1) (k + 1) = 2 ^ (K + 1) + levelStart K k := by
  unfold levelStart
  have h1 : 2 ^ (K - k) ≤ 2 ^ K := Nat.pow_le_pow_right (by norm_num) (by omega)
  have h2 : 2 ^ (K + 1) = 2 * 2 ^ K := by rw [pow_succ]; omega
  rw [Nat.add_sub_add_right, h2]
  omega

/-- The positions of a level lie inside the array: level `k` has `2 ^ (K - k)` slots. -/
theorem levelStart_add_lt (K k j : Nat) (h : k ≤ K) (hj : j < 2 ^ (K - k)) :
    levelStart K k + j < 2 * 2 ^ K - 1 := by
  unfold levelStart
  have h1 : 2 ^ (K - k) ≤ 2 ^ K := Nat.pow_le_pow_right (by norm_num) (by omega)
  have h2 : 1 ≤ 2 ^ (K - k) := Nat.one_le_two_pow
  omega

theorem getD_of_getElem? (m : List (List Nat)) (j : Nat) (x : List Nat) (h : m[j]? = some x) :
    m.getD j [] = x := by
  rw [List.getD_eq_getElem?_getD, h]
  rfl

theorem getElem?_getD (m : List (List Nat)) (j : Nat) (h : j < m.length) :
    m[j]? = some (m.getD j []) := by
  obtain ⟨x, hx⟩ := getElem?_of_lt m j h
  rw [getD_of_getElem? m j x hx, hx]

/-- One level of getPathElements on an array with an even number of leaf slots: the
element is the slot of the sibling `i xor 1`, or the slot `i` when that is empty. -/
theorem getPathElements_sibling (fuel i P : Nat) (m : List (List Nat))
    (hlen : m.length = 2 * P - 1) (hPe : P % 2 = 0) (hi : i < P) :
    getPathElements (fuel + 1) i m =
      if m.length = 3 then
        .ok [if m.getD (i ^^^ 1) [] = [] then m.getD i [] else m.getD (i ^^^ 1) []]
      else (getPathElements fuel (i / 2) (m.drop P) >>= fun rest =>
        .ok ((if m.getD (i ^^^ 1) [] = [] then m.getD i [] else m.getD (i ^^^ 1) []) :: rest)) := by
  have hdrop : (m.length + 1) / 2 = P := by omega
  have hself := getElem?_getD m i (by omega)
  have hx := xor_one_eq i
  have hsib := getElem?_getD m (i ^^^ 1) (by rw [hx]; split_ifs <;> omega)
  rw [getPathElements, hdrop]
  by_cases hev : i % 2 = 0
  · rw [if_pos hev] at hx
    rw [hx] at hsib ⊢
    simp only [hev, if_true, index_of_getElem? m _ _ hsib, bind, Except.bind]
    by_cases hrn : m.getD (i + 1) [] = []
    · simp only [hrn, if_true, index_of_getElem? m _ _ hself, pure, Except.pure,
        List.singleton_append]
    · simp only [hrn, if_false, pure, Except.pure, List.singleton_append]
  · rw [if_neg hev] at hx
    rw [hx] at hsib ⊢
    simp only [hev, if_false, index_of_getElem? m _ _ hsib, bind, Except.bind]
    by_cases hln : m.getD (i - 1) [] = []
    · simp only [hln, if_true, index_of_getElem? m _ _ hself, pure, Except.pure,
        List.singleton_append]
    · simp only [hln, if_false, pure, Except.pure, List.singleton_append]

theorem pathEntry_zero (m : List (List Nat)) (K i : Nat) :
    pathEntry m K i 0 = if m.getD (i ^^^ 1) [] = [] then m.getD i [] else m.getD (i ^^^ 1) [] := by
  unfold pathEntry
  simp only [levelStart_zero, Nat.zero_add, Nat.shiftRight_zero]

theorem getD_drop (m : List (List Nat)) (P j : Nat) :
    (m.drop P).getD j [] = m.getD (P + j) [] := by
  rw [List.getD_eq_getElem?_getD, List.getD_eq_getElem?_getD, List.getElem?_drop]

theorem pathEntry_succ (m : List (List Nat)) (K i k : Nat) (h : k ≤ K) :
    pathEntry m (K + 1) i (k + 1) = pathEntry (m.drop (2 ^ (K + 1))) K (i / 2) k := by
  unfold pathEntry
  rw [levelStart_succ K k h, Nat.shiftRight_succ_inside]
  simp only [getD_drop, Nat.add_assoc]

theorem range_map_succ {α : Type} (f : Nat → α) (n : Nat) :
    (List.range (n + 1)).map f = f 0 :: (List.range n).map (fun k => f (k + 1)) := by
  rw [List.range_succ_eq_map, List.map_cons, List.map_map]
  rfl

/-- On an array of `2 * 2 ^ (K + 1) - 1` slots and an index below `2 ^ (K + 1)`,
getPathElements returns, for every sufficient fuel, the elements of the levels
`0, …, K`. -/
theorem getPathElements_entries : ∀ (K : Nat) (m : List (List Nat)) (i fuel : Nat),
    m.length = 2 * 2 ^ (K + 1) - 1 → i < 2 ^ (K + 1) → K + 1 ≤ fuel →
    getPathElements fuel i m = .ok ((List.range (K + 1)).map (pathEntry m (K + 1) i)) := by
  intro K
  induction K with
  | zero =>
    intro m i fuel hlen hi hfuel
    obtain ⟨fuel, rfl⟩ : ∃ f, fuel = f + 1 := ⟨fuel - 1, by omega⟩
    have h3 : m.length = 3 := by rw [hlen]; norm_num
    rw [getPathElements_sibling fuel i (2 ^ (0 + 1)) m hlen (by norm_num) hi, if_pos h3]
    rw [range_map_succ (pathEntry m (0 + 1) i) 0, pathEntry_zero]
    rfl
  | succ K ih =>
    intro m i fuel hlen hi hfuel
    obtain ⟨fuel, rfl⟩ : ∃ f, fuel = f + 1 := ⟨fuel - 1, by omega⟩
    have hpow : 2 ^ (K + 1 + 1) = 2 * 2 ^ (K + 1) := by rw [pow_succ]; omega
    have hpos : 2 ≤ 2 ^ (K + 1) := by
      have h1 : 2 ^ (K + 1) = 2 * 2 ^ K := by rw [pow_succ]; omega
      have h2 : 1 ≤ 2 ^ K := Nat.one_le_two_pow
      omega
    have h3 : ¬ m.length = 3 := by omega
    rw [getPathElements_sibling fuel i (2 ^ (K + 1 + 1)) m hlen (by omega) hi, if_neg h3,
      ih (m.drop (2 ^ (K + 1 + 1))) (i / 2) fuel (by rw [List.length_drop]; omega) (by omega)
        (by omega)]
    simp only [bind, Except.bind]
    rw [range_map_succ (pathEntry m (K + 1 + 1) i) (K + 1), pathEntry_zero]
    congr 2
    apply List.map_congr_left
    intro k hk
    rw [List.mem_range] at hk
    rw [pathEntry_succ m (K + 1) i k (by omega)]

/-- GetTxMerklePath on an array of `2 * 2 ^ K - 1` slots, `K ≥ 1`. -/
theorem getTxMerklePath_entries (K : Nat) (m : List (List Nat)) (i : Nat) (hK : 1 ≤ K)
    (hlen : m.length = 2 * 2 ^ K - 1) (hi : i < 2 ^ K) :
    GetTxMerklePath i m =
      .ok { Index := i % 2 ^ 64, Path := some ((List.range K).map (pathEntry m K i)) } := by
  obtain ⟨K, rfl⟩ : ∃ J, K = J + 1 := ⟨K - 1, by omega⟩
  have h1 : K < 2 ^ K := Nat.lt_two_pow K
  have h2 : 2 ^ (K + 1) = 2 * 2 ^ K := by rw [pow_succ]; omega
  unfold GetTxMerklePath
  rw [if_pos (by omega), getPathElements_entries K m i (m.length + 1) hlen hi (by omega)]
  rfl

/-- The store of at least one txid: it exists, it has `2 * 2 ^ K - 1` slots with
`K = ceil(log2(n))`, its relation between children and parents holds, and it keeps the
txids in its first slots, followed by empty slots. -/
theorem store_facts (T : List (List Nat)) (htx : ∀ x ∈ T, IsTxid x) (hn : 1 ≤ T.length) :
    ∃ m K, BuildMerkleTreeStore T = .ok m ∧ nextPowerOfTwo T.length = 2 ^ K ∧
      (2 ≤ T.length → 1 ≤ K) ∧
      (T.length ≤ 2 ^ K ∧ ∀ j, T.length ≤ 2 ^ j → K ≤ j) ∧
      m.length = 2 * 2 ^ K - 1 ∧ TreeRel (2 ^ K) m ∧ LevelOK (2 ^ K) m ∧
      (∀ t, t < T.length → m[t]? = T[t]?) ∧
      (∀ t, T.length ≤ t → t < 2 ^ K → m[t]? = some []) := by
  obtain ⟨m, hm⟩ := buildMerkleTreeStore_ok T (by omega)
    (fun x hx => isLowerHexStr_of_isTxid x (htx x hx))
  obtain ⟨-, hrel, hleaf, hpad⟩ := buildMerkleTreeStore_rel T m hm
  have hok := buildMerkleTreeStore_levelOK T m htx hm
  obtain ⟨K, hk, hle, hmin⟩ := nextPowerOfTwo_spec T.length (by omega)
  rw [hk] at hrel hok hpad
  have hK : 2 ≤ T.length → 1 ≤ K := by
    intro h2
    rcases Nat.eq_zero_or_pos K with h0 | h0
    · rw [h0] at hle
      simp only [pow_zero] at hle
      omega
    · exact h0
  exact ⟨m, K, hm, hk, hK, ⟨hle, hmin⟩, hrel.1, hrel, hok, hleaf, hpad⟩

/-- C31: for a tree built from `n ≥ 2` txids and a leaf index `i < n`, element `k` of
the path of GetTxMerklePath is the slot of the sibling of the ancestor of `i` at level
`k`, at position `(i >> k) xor 1` of the level, or the slot of the ancestor itself, at
position `i >> k`, when the sibling slot is the empty sentinel; the path has one element
per level below the root, and the returned Index is `i`. -/
theorem getTxMerklePath_siblings (T : List (List Nat)) (i : Nat)
    (htx : ∀ x ∈ T, IsTxid x) (hn : 2 ≤ T.length) (hlen : T.length < 2 ^ 63)
    (hi : i < T.length) :
    ∃ tree path K, BuildMerkleTreeStore T = .ok tree ∧
      tree.length = 2 * 2 ^ K - 1 ∧ nextPowerOfTwo T.length = 2 ^ K ∧
      GetTxMerklePath i tree = .ok { Index := i, Path := some path } ∧
      path.length = K ∧
      ∀ k, k < K →
        path[k]? = some
          (if tree.getD (levelStart K k + ((i >>> k) ^^^ 1)) [] = [] then
            tree.getD (levelStart K k + (i >>> k)) []
          else tree.getD (levelStart K k + ((i >>> k) ^^^ 1)) []) := by
  obtain ⟨m, K, hm, hk, hK, ⟨hle, -⟩, hl, -, -, -, -⟩ := store_facts T htx (by omega)
  have h := getTxMerklePath_entries K m i (hK hn) hl (by omega)
  rw [Nat.mod_eq_of_lt (by omega)] at h
  refine ⟨m, _, K, hm, hl, hk, h, by simp, ?_⟩
  intro k hkK
  rw [List.getElem?_map, List.getElem?_range hkK]
  rfl

set_option maxRecDepth 1000000 in
/-- Witness of C31: the first five test txids at index 4: the siblings at levels 0 and 1
are empty slots, so the path holds the txid itself and its parent, then the sibling at
level 2. -/
theorem getTxMerklePath_siblings_witness :
    2 ≤ (testTxids.take 5).length ∧ 4 < (testTxids.take 5).length ∧
    BuildMerkleTreeStore (testTxids.take 5) = .ok testTreeOdd ∧
    GetTxMerklePath 4 testTreeOdd =
      .ok { Index := 4, Path := some [testTreeOdd.getD 4 [], testTreeOdd.getD 10 [],
        testTreeOdd.getD 12 []] } ∧
    ∃ tree path K, BuildMerkleTreeStore (testTxids.take 5) = .ok tree ∧
      tree.length = 2 * 2 ^ K - 1 ∧ nextPowerOfTwo (testTxids.take 5).length = 2 ^ K ∧
      GetTxMerklePath 4 tree = .ok { Index := 4, Path := some path } ∧
      path.length = K ∧
      ∀ k, k < K →
        path[k]? = some
          (if tree.getD (levelStart K k + ((4 >>> k) ^^^ 1)) [] = [] then
            tree.getD (levelStart K k + (4 >>> k)) []
          else tree.getD (levelStart K k + ((4 >>> k) ^^^ 1)) []) :=
  ⟨by decide, by decide, buildMerkleTreeStore_testTxids_odd, by decide,
    getTxMerklePath_siblings (testTxids.take 5) 4 (by decide) (by decide) (by decide)
      (by decide)⟩

end Bc

namespace Bc

/-! ## Termination and bounds of getPathElements -/

/-- C36: for every array of `2 * P - 1` slots with `P = 2 ^ K ≥ 2` and every index
`i < P`, the recursion of getPathElements ends, with the same path for every fuel of at
least `K`, and GetTxMerklePath returns this path, which has exactly `K` entries; for an
array built from `n ≥ 2` txids `K` is `ceil(log2(n))`. -/
theorem getTxMerklePath_terminates (K : Nat) (tree : List (List Nat)) (i : Nat)
    (hK : 1 ≤ K) (hlen : tree.length = 2 * 2 ^ K - 1) (hi : i < 2 ^ K) :
    ∃ path, path.length = K ∧
      (∀ fuel, K ≤ fuel → getPathElements fuel i tree = .ok path) ∧
      GetTxMerklePath i tree = .ok { Index := i % 2 ^ 64, Path := some path } ∧
      (∀ T, 2 ≤ T.length → BuildMerkleTreeStore T = .ok tree →
        T.length ≤ 2 ^ K ∧ ∀ j, T.length ≤ 2 ^ j → K ≤ j) := by
  refine ⟨(List.range K).map (pathEntry tree K i), by simp, ?_,
    getTxMerklePath_entries K tree i hK hlen hi, ?_⟩
  · intro fuel hf
    obtain ⟨J, rfl⟩ : ∃ J, K = J + 1 := ⟨K - 1, by omega⟩
    exact getPathElements_entries J tree i fuel hlen hi hf
  · intro T hT hb
    obtain ⟨-, ⟨hl, -⟩, -, -⟩ := buildMerkleTreeStore_rel T tree hb
    obtain ⟨k, hk, hle, hmin⟩ := nextPowerOfTwo_spec T.length (by omega)
    have hpos : 0 < 2 ^ K := Nat.two_pow_pos K
    have hpk : 0 < 2 ^ k := Nat.two_pow_pos k
    have he : 2 ^ k = 2 ^ K := by
      rw [hk] at hl
      omega
    have hkK : k = K := Nat.pow_right_injective (le_refl 2) he
    subst hkK
    exact ⟨hle, hmin⟩

set_option maxRecDepth 1000000 in
/-- Witness of C36: the array of the first five test txids, with eight leaf slots, at the
index 6 of an empty leaf slot: the path has three entries. -/
theorem getTxMerklePath_terminates_witness :
    testTreeOdd.length = 2 * 2 ^ 3 - 1 ∧ 6 < 2 ^ 3 ∧
    ∃ path, path.length = 3 ∧
      (∀ fuel, 3 ≤ fuel → getPathElements fuel 6 testTreeOdd = .ok path) ∧
      GetTxMerklePath 6 testTreeOdd = .ok { Index := 6 % 2 ^ 64, Path := some path } ∧
      (∀ T, 2 ≤ T.length → BuildMerkleTreeStore T = .ok testTreeOdd →
        T.length ≤ 2 ^ 3 ∧ ∀ j, T.length ≤ 2 ^ j → 3 ≤ j) :=
  ⟨by decide, by decide,
    getTxMerklePath_terminates 3 testTreeOdd 6 (by decide) (by decide) (by decide)⟩

theorem shiftRight_lt (i K k : Nat) (hi : i < 2 ^ K) (hk : k ≤ K) : i >>> k < 2 ^ (K - k) := by
  rw [Nat.shiftRight_eq_div_pow, Nat.div_lt_iff_lt_mul (Nat.two_pow_pos k), ← pow_add,
    Nat.sub_add_cancel hk]
  exact hi

/-- C37: for every list of txids and every index `i` below its length, the store is
built and GetTxMerklePath on it returns without an access out of range; no entry of the
returned path is the empty sentinel; and at every level below the root the positions of
the ancestor of `i` and of its sibling, and the start of the next level, lie inside the
array. -/
theorem getTxMerklePath_in_bounds (T : List (List Nat)) (i : Nat)
    (htx : ∀ x ∈ T, IsTxid x) (hi : i < T.length) :
    ∃ tree mp, BuildMerkleTreeStore T = .ok tree ∧ GetTxMerklePath i tree = .ok mp ∧
      (∀ e ∈ sliceElems mp.Path, e ≠ []) ∧
      ∀ K, tree.length = 2 * 2 ^ K - 1 → ∀ k, k < K →
        levelStart K k + ((i >>> k) ^^^ 1) < tree.length ∧
        levelStart K k + (i >>> k) < tree.length ∧
        levelStart K (k + 1) < tree.length := by
  have hn : 0 < T.length := by omega
  obtain ⟨m, hm⟩ := buildMerkleTreeStore_ok T hn
    (fun x hx => isLowerHexStr_of_isTxid x (htx x hx))
  obtain ⟨-, hrel, hleaf, -⟩ := buildMerkleTreeStore_rel T m hm
  have hok := buildMerkleTreeStore_levelOK T m htx hm
  obtain ⟨k, hk, hle, -⟩ := nextPowerOfTwo_spec T.length hn
  have hsi : m[i]? = some T[i] := by rw [hleaf i hi, List.getElem?_eq_getElem hi]
  have htxi : IsTxid T[i] := htx _ (List.getElem_mem hi)
  rw [hk] at hrel hok
  have hbounds : ∀ K, m.length = 2 * 2 ^ K - 1 → ∀ j, j < K →
      levelStart K j + ((i >>> j) ^^^ 1) < m.length ∧
      levelStart K j + (i >>> j) < m.length ∧ levelStart K (j + 1) < m.length := by
    intro K hK j hj
    have hpos : 0 < 2 ^ K := Nat.two_pow_pos K
    have hpk : 0 < 2 ^ k := Nat.two_pow_pos k
    have he : 2 ^ k = 2 ^ K := by
      rw [hrel.1] at hK
      omega
    have hiK : i < 2 ^ K := by omega
    have h1 := shiftRight_lt i K j hiK (by omega)
    have h2 : (i >>> j) ^^^ 1 < 2 ^ (K - j) :=
      Nat.xor_lt_two_pow h1 (Nat.one_lt_two_pow (by omega))
    rw [hK]
    refine ⟨levelStart_add_lt K j _ (by omega) h2, levelStart_add_lt K j _ (by omega) h1, ?_⟩
    have h3 := levelStart_add_lt K (j + 1) 0 (by omega) (Nat.two_pow_pos _)
    simpa using h3
  cases k with
  | zero =>
    have hlen1 : m.length = 1 := by rw [hrel.1]; norm_num
    refine ⟨m, { Index := i % 2 ^ 64, Path := none }, hm, ?_, ?_, hbounds⟩
    · unfold GetTxMerklePath
      rw [if_neg (by rw [hlen1]; simp)]
      rfl
    · intro e he
      simp only [sliceElems, Option.getD_none, List.not_mem_nil] at he
  | succ k =>
    have hfuel : k + 1 ≤ m.length + 1 := by
      have h1 : k < 2 ^ k := Nat.lt_two_pow k
      have h2 : 2 ^ (k + 1) = 2 * 2 ^ k := by rw [pow_succ]; omega
      rw [hrel.1]
      omega
    have h2P : 2 ≤ 2 ^ (k + 1) := by
      have h1 : 1 ≤ 2 ^ k := Nat.one_le_two_pow
      have h2 : 2 ^ (k + 1) = 2 * 2 ^ k := by rw [pow_succ]; omega
      omega
    obtain ⟨path, root, q1, -, -, -, -, q6, -, -⟩ :=
      path_replay k m i T[i] i (m.length + 1) hrel hok (by omega) hsi
        (ne_nil_of_isTxid _ htxi) (Nat.mod_eq_of_lt (by omega)) hfuel
    refine ⟨m, { Index := i % 2 ^ 64, Path := some path }, hm, ?_, ?_, hbounds⟩
    · unfold GetTxMerklePath
      rw [if_pos (by rw [hrel.1]; omega), q1]
      rfl
    · intro e he
      simp only [sliceElems, Option.getD_some] at he
      exact q6 e he

set_option maxRecDepth 1000000 in
/-- Witness of C37: the first five test txids at index 4, where two siblings are empty
slots. -/
theorem getTxMerklePath_in_bounds_witness :
    4 < (testTxids.take 5).length ∧
    ∃ tree mp, BuildMerkleTreeStore (testTxids.take 5) = .ok tree ∧
      GetTxMerklePath 4 tree = .ok mp ∧ (∀ e ∈ sliceElems mp.Path, e ≠ []) ∧
      ∀ K, tree.length = 2 * 2 ^ K - 1 → ∀ k, k < K →
        levelStart K k + ((4 >>> k) ^^^ 1) < tree.length ∧
        levelStart K k + (4 >>> k) < tree.length ∧
        levelStart K (k + 1) < tree.length :=
  ⟨by decide, getTxMerklePath_in_bounds (testTxids.take 5) 4 (by decide) (by decide)⟩

end Bc

namespace Bc

/-! ## Present and empty slots of a level -/

theorem merkleTreeParentStr_ne_nil (a b p : List Nat) (h : MerkleTreeParentStr a b = .ok p) :
    p ≠ [] := by
  unfold MerkleTreeParentStr at h
  split at h
  · cases h
  · split at h
    · cases h
    · cases h
      intro he
      have hl := congrArg List.length he
      unfold ReverseBytes merkleParent Sha256d at hl
      rw [hexEncodeToString_length, List.length_reverse, sha256_length] at hl
      cases hl

/-- A parent slot is present exactly when its left child is. -/
theorem parentSlot_ne_nil (l r p : List Nat) (h : parentSlot l r = .ok p) :
    p ≠ [] ↔ l ≠ [] := by
  unfold parentSlot at h
  by_cases hl : l = []
  · rw [if_pos hl] at h
    cases h
    simp [hl]
  · rw [if_neg hl] at h
    constructor
    · intro _
      exact hl
    · intro _
      split at h
      · exact merkleTreeParentStr_ne_nil _ _ _ h
      · exact merkleTreeParentStr_ne_nil _ _ _ h

theorem ceilDiv_succ (n k : Nat) :
    (n + 2 ^ (k + 1) - 1) / 2 ^ (k + 1) = ((n + 2 ^ k - 1) / 2 ^ k + 1) / 2 := by
  have ha : 0 < 2 ^ k := Nat.two_pow_pos k
  have h1 : n + 2 ^ (k + 1) - 1 = (n + 2 ^ k - 1) + 2 ^ k := by rw [pow_succ]; omega
  rw [h1, pow_succ, ← Nat.div_div_eq_div_mul, Nat.add_div_right _ ha]

/-- Level by level: the slot `j` of level `k` is present exactly when
`j < ceil(n / 2 ^ k)`. -/
theorem level_present (T m : List (List Nat)) (K : Nat) (htx : ∀ x ∈ T, IsTxid x)
    (hrel : TreeRel (2 ^ K) m)
    (hleaf : ∀ t, t < T.length → m[t]? = T[t]?)
    (hpad : ∀ t, T.length ≤ t → t < 2 ^ K → m[t]? = some []) :
    ∀ k, k ≤ K → ∀ j, j < 2 ^ (K - k) →
      ∃ s, m[levelStart K k + j]? = some s ∧
        (s ≠ [] ↔ j < (T.length + 2 ^ k - 1) / 2 ^ k) := by
  intro k
  induction k with
  | zero =>
    intro _ j hj
    rw [levelStart_zero, Nat.zero_add]
    simp only [Nat.sub_zero, pow_zero, Nat.add_sub_cancel, Nat.div_one] at hj ⊢
    by_cases hjn : j < T.length
    · refine ⟨T[j], by rw [hleaf j hjn, List.getElem?_eq_getElem hjn], ?_⟩
      exact ⟨fun _ => hjn, fun _ => ne_nil_of_isTxid _ (htx _ (List.getElem_mem hjn))⟩
    · refine ⟨[], hpad j (by omega) hj, ?_⟩
      exact ⟨fun h => absurd rfl h, fun h => absurd h hjn⟩
  | succ k ih =>
    intro hk j hj
    have hB : 0 < 2 ^ (K - (k + 1)) := Nat.two_pow_pos _
    have h2B : 2 ^ (K - k) = 2 * 2 ^ (K - (k + 1)) := by
      have e : K - k = (K - (k + 1)) + 1 := by omega
      rw [e, pow_succ]
      omega
    have hBA : 2 ^ (K - k) ≤ 2 ^ K := Nat.pow_le_pow_right (by norm_num) (by omega)
    obtain ⟨s, hs, hiff⟩ := ih (by omega) (2 * j) (by omega)
    have hstart : levelStart K k = 2 * 2 ^ K - 2 * 2 ^ (K - k) := rfl
    have hnext : levelStart K (k + 1) = 2 * 2 ^ K - 2 * 2 ^ (K - (k + 1)) := rfl
    obtain ⟨l, r, p, h1, -, h3, h4⟩ := hrel.2 (2 ^ K - 2 ^ (K - k) + j) (by omega)
    have e1 : 2 * (2 ^ K - 2 ^ (K - k) + j) = levelStart K k + 2 * j := by omega
    have e3 : 2 ^ K + (2 ^ K - 2 ^ (K - k) + j) = levelStart K (k + 1) + j := by omega
    rw [e1, hs] at h1
    cases h1
    rw [e3] at h3
    refine ⟨p, h3, ?_⟩
    rw [parentSlot_ne_nil _ _ _ h4, hiff, ceilDiv_succ]
    omega

/-- C35: in the store built from `n ≥ 1` txids, the present slots of each level form a
prefix: the slot `j` of level `k` is present exactly when `j < ceil(n / 2 ^ k)`, a
number that does not exceed the size `2 ^ (K - k)` of the level; in particular the root
slot, the last one, is present. -/
theorem buildMerkleTreeStore_level_prefix (T : List (List Nat))
    (htx : ∀ x ∈ T, IsTxid x) (hn : 1 ≤ T.length) :
    ∃ tree K, BuildMerkleTreeStore T = .ok tree ∧ nextPowerOfTwo T.length = 2 ^ K ∧
      tree.length = 2 * 2 ^ K - 1 ∧
      (∀ k, k ≤ K → ∀ j, j < 2 ^ (K - k) →
        (tree.getD (levelStart K k + j) [] ≠ [] ↔ j < (T.length + 2 ^ k - 1) / 2 ^ k)) ∧
      (∀ k, k ≤ K → (T.length + 2 ^ k - 1) / 2 ^ k ≤ 2 ^ (K - k)) ∧
      levelStart K K = tree.length - 1 ∧ tree.getD (tree.length - 1) [] ≠ [] := by
  obtain ⟨m, K, hm, hk, -, ⟨hle, -⟩, hl, hrel, -, hleaf, hpad⟩ := store_facts T htx hn
  have key := level_present T m K htx hrel hleaf hpad
  have hroot : levelStart K K = m.length - 1 := by
    unfold levelStart
    rw [hl, Nat.sub_self, pow_zero]
    have := Nat.two_pow_pos K
    omega
  refine ⟨m, K, hm, hk, hl, ?_, ?_, hroot, ?_⟩
  · intro k hkK j hj
    obtain ⟨s, hs, hiff⟩ := key k hkK j hj
    rw [getD_of_getElem? m _ s hs]
    exact hiff
  · intro k hkK
    have ha : 0 < 2 ^ k := Nat.two_pow_pos k
    have e : 2 ^ K = 2 ^ (K - k) * 2 ^ k := by rw [← pow_add, Nat.sub_add_cancel hkK]
    have hlt : (T.length + 2 ^ k - 1) / 2 ^ k < 2 ^ (K - k) + 1 := by
      rw [Nat.div_lt_iff_lt_mul ha, Nat.add_mul, ← e]
      omega
    omega
  · obtain ⟨s, hs, hiff⟩ := key K (le_refl K) 0 (Nat.two_pow_pos _)
    rw [Nat.add_zero, hroot] at hs
    rw [getD_of_getElem? m _ s hs]
    refine hiff.2 ?_
    have ha : 0 < 2 ^ K := Nat.two_pow_pos K
    exact Nat.div_pos (by omega) ha

set_option maxRecDepth 1000000 in
/-- Witness of C35: the store of the first five test txids has 5, 3, 2 and 1 present
slots at the levels 0 to 3. -/
theorem buildMerkleTreeStore_level_prefix_witness :
    1 ≤ (testTxids.take 5).length ∧
    testTreeOdd.map (fun s => decide (s ≠ [])) =
      [true, true, true, true, true, false, false, false,
       true, true, true, false, true, true, true] ∧
    ∃ tree K, BuildMerkleTreeStore (testTxids.take 5) = .ok tree ∧
      nextPowerOfTwo (testTxids.take 5).length = 2 ^ K ∧
      tree.length = 2 * 2 ^ K - 1 ∧
      (∀ k, k ≤ K → ∀ j, j < 2 ^ (K - k) →
        (tree.getD (levelStart K k + j) [] ≠ [] ↔
          j < ((testTxids.take 5).length + 2 ^ k - 1) / 2 ^ k)) ∧
      (∀ k, k ≤ K → ((testTxids.take 5).length + 2 ^ k - 1) / 2 ^ k ≤ 2 ^ (K - k)) ∧
      levelStart K K = tree.length - 1 ∧ tree.getD (tree.length - 1) [] ≠ [] :=
  ⟨by decide, by decide,
    buildMerkleTreeStore_level_prefix (testTxids.take 5) (by decide) (by decide)⟩

end Bc

namespace Bc

/-! ## Two lists with one root -/

/-- Above the leaves, the store of a list of odd length `n ≥ 3` and the store of the
list with its last txid repeated hold the same slots. -/
theorem stores_agree (T m m2 : List (List Nat)) (last : List Nat) (K : Nat)
    (hK : 1 ≤ K) (hodd : T.length % 2 = 1) (hlt : T.length < 2 ^ K)
    (hlast : T[T.length - 1]? = some last) (hne : last ≠ [])
    (hrel : TreeRel (2 ^ K) m) (hrel2 : TreeRel (2 ^ K) m2)
    (hleaf : ∀ t, t < T.length → m[t]? = T[t]?)
    (hpad : ∀ t, T.length ≤ t → t < 2 ^ K → m[t]? = some [])
    (hleaf2 : ∀ t, t < T.length + 1 → m2[t]? = (T ++ [last])[t]?)
    (hpad2 : ∀ t, T.length + 1 ≤ t → t < 2 ^ K → m2[t]? = some []) :
    ∀ t, 2 ^ K ≤ t → t < 2 * 2 ^ K - 1 → m[t]? = m2[t]? := by
  have hPe : 2 ^ K % 2 = 0 := by
    obtain ⟨J, rfl⟩ : ∃ J, K = J + 1 := ⟨K - 1, by omega⟩
    rw [pow_succ]
    omega
  intro t
  induction t using Nat.strong_induction_on with
  | _ t ih =>
    intro h1 h2
    obtain ⟨u, rfl⟩ : ∃ u, t = 2 ^ K + u := ⟨t - 2 ^ K, by omega⟩
    obtain ⟨l, r, p, a1, a2, a3, a4⟩ := hrel.2 u (by omega)
    obtain ⟨l2, r2, p2, b1, b2, b3, b4⟩ := hrel2.2 u (by omega)
    rw [a3, b3]
    have key : parentSlot l r = parentSlot l2 r2 := by
      by_cases hup : 2 ^ K ≤ 2 * u
      · have c1 := ih (2 * u) (by omega) hup (by omega)
        have c2 := ih (2 * u + 1) (by omega) (by omega) (by omega)
        rw [a1, b1] at c1
        rw [a2, b2] at c2
        cases c1
        cases c2
        rfl
      · by_cases hc1 : 2 * u + 1 < T.length
        · have d1 := hleaf (2 * u) (by omega)
          have d2 := hleaf (2 * u + 1) hc1
          have d3 := hleaf2 (2 * u) (by omega)
          have d4 := hleaf2 (2 * u + 1) (by omega)
          rw [List.getElem?_append_left (by omega)] at d3 d4
          rw [a1, ← d3, b1] at d1
          rw [a2, ← d4, b2] at d2
          cases d1
          cases d2
          rfl
        · by_cases hc2 : 2 * u + 1 = T.length
          · have e0 : 2 * u = T.length - 1 := by omega
            have e1 : 2 * u + 1 - T.length = 0 := by omega
            have f1 : m[2 * u]? = some last := by
              rw [hleaf (2 * u) (by omega), e0, hlast]
            have f2 : m[2 * u + 1]? = some [] := hpad (2 * u + 1) (by omega) (by omega)
            have f3 : m2[2 * u]? = some last := by
              rw [hleaf2 (2 * u) (by omega), List.getElem?_append_left (by omega), e0, hlast]
            have f4 : m2[2 * u + 1]? = some last := by
              rw [hleaf2 (2 * u + 1) (by omega), List.getElem?_append_right (by omega), e1]
              rfl
            have g1 := a1.symm.trans f1
            have g2 := a2.symm.trans f2
            have g3 := b1.symm.trans f3
            have g4 := b2.symm.trans f4
            simp only [Option.some.injEq] at g1 g2 g3 g4
            subst g1 g2 g3 g4
            unfold parentSlot
            rw [if_neg hne, if_neg hne, if_pos rfl, if_neg hne]
          · have d1 := hpad (2 * u) (by omega) (by omega)
            have d3 := hpad2 (2 * u) (by omega) (by omega)
            rw [a1] at d1
            rw [b1] at d3
            cases d1
            cases d3
            unfold parentSlot
            rw [if_pos rfl, if_pos rfl]
    rw [a4, b4] at key
    cases key
    rfl

/-- C33: two different txid lists can have the same Merkle root. For every list of
txids of odd length `n ≥ 3`, appending a copy of the last txid gives another list with
the same root; for a single txid `x` the root is `x`, and the root of the list with `x`
twice is the parent of `x` and `x`. -/
theorem buildMerkleRoot_duplicate_last (T : List (List Nat)) (last : List Nat)
    (htx : ∀ x ∈ T, IsTxid x) (hodd : T.length % 2 = 1) (hn : 3 ≤ T.length)
    (hlast : T[T.length - 1]? = some last) :
    T ++ [last] ≠ T ∧
    (∃ root, BuildMerkleRoot T = .ok root ∧ BuildMerkleRoot (T ++ [last]) = .ok root) ∧
    (∀ x, IsTxid x → BuildMerkleRoot [x] = .ok x ∧
      BuildMerkleRoot [x, x] = MerkleTreeParentStr x x) := by
  have hlm : last ∈ T := List.getElem?_mem hlast
  have htx2 : ∀ x ∈ T ++ [last], IsTxid x := by
    intro x hx
    rcases List.mem_append.1 hx with h | h
    · exact htx x h
    · rw [List.mem_singleton] at h
      rw [h]
      exact htx last hlm
  refine ⟨?_, ?_, ?_⟩
  · intro h
    have := congrArg List.length h
    simp at this
  · obtain ⟨m, K, hm, -, hK, ⟨hle, hmin⟩, hl, hrel, -, hleaf, hpad⟩ :=
      store_facts T htx (by omega)
    obtain ⟨m2, K2, hm2, -, -, ⟨hle2, hmin2⟩, hl2, hrel2, -, hleaf2, hpad2⟩ :=
      store_facts (T ++ [last]) htx2 (by simp)
    rw [List.length_append, List.length_singleton] at hle2 hmin2 hleaf2 hpad2
    have hK1 := hK (by omega)
    have hlt : T.length < 2 ^ K := by
      obtain ⟨J, rfl⟩ : ∃ J, K = J + 1 := ⟨K - 1, by omega⟩
      rw [pow_succ] at hle ⊢
      omega
    have hKK : K2 = K := by
      have h1 := hmin2 K (by omega)
      have h2 := hmin K2 (by omega)
      omega
    subst hKK
    have hP : 2 ≤ 2 ^ K2 := by omega
    have hagree := stores_agree T m m2 last K2 hK1 hodd hlt hlast
      (ne_nil_of_isTxid _ (htx last hlm)) hrel hrel2 hleaf hpad hleaf2 hpad2
      (2 * 2 ^ K2 - 2) (by omega) (by omega)
    obtain ⟨root, hroot⟩ := getElem?_of_lt m (m.length - 1) (by omega)
    have e1 : m.length - 1 = 2 * 2 ^ K2 - 2 := by omega
    have e2 : m2.length - 1 = 2 * 2 ^ K2 - 2 := by omega
    refine ⟨root, ?_, ?_⟩
    · unfold BuildMerkleRoot
      rw [hm]
      exact index_of_getElem? m _ root hroot
    · unfold BuildMerkleRoot
      rw [hm2]
      refine index_of_getElem? m2 _ root ?_
      rw [e2, ← hagree, ← e1]
      exact hroot
  · intro x hx
    constructor
    · have h1 : BuildMerkleTreeStore [x] = .ok [x] := by
        rw [buildMerkleTreeStore_eq [x] (by simp)]
        have hP : nextPowerOfTwo 1 = 1 := by decide
        rw [List.length_singleton, hP]
        exact buildLoop_exit 1 0 1 [x] (by omega)
      unfold BuildMerkleRoot
      rw [h1]
      rfl
    · have hxx : ∀ y ∈ [x, x], IsTxid y := by
        intro y hy
        simp only [List.mem_cons, List.mem_singleton, List.not_mem_nil, or_false, or_self] at hy
        rw [hy]
        exact hx
      obtain ⟨m, K, hm, hk, -, -, hl, hrel, -, hleaf, -⟩ := store_facts [x, x] hxx (by simp)
      have hP : nextPowerOfTwo 2 = 2 := by decide
      have hk2 : 2 ^ K = 2 := by
        rw [← hk]
        exact hP
      rw [hk2] at hrel hl
      obtain ⟨l, r, p, a1, a2, a3, a4⟩ := hrel.2 0 (by omega)
      have d1 := hleaf 0 (by simp)
      have d2 := hleaf 1 (by simp)
      simp only [Nat.mul_zero, Nat.zero_add, Nat.add_zero] at a1 a2 a3
      rw [a1] at d1
      rw [a2] at d2
      simp only [List.getElem?_cons_zero, List.getElem?_cons_succ, Option.some.injEq] at d1 d2
      subst d1 d2
      have hne := ne_nil_of_isTxid _ hx
      unfold parentSlot at a4
      rw [if_neg hne, if_neg hne] at a4
      unfold BuildMerkleRoot
      rw [hm, a4]
      refine index_of_getElem? m _ p ?_
      rw [hl]
      exact a3

set_option maxRecDepth 1000000 in
/-- Witness of C33: the first five test txids, and the six txids that repeat the
fifth. -/
theorem buildMerkleRoot_duplicate_last_witness :
    (testTxids.take 5).length % 2 = 1 ∧ 3 ≤ (testTxids.take 5).length ∧
    BuildMerkleRoot (testTxids.take 5) = .ok (testTreeOdd.getD 14 []) ∧
    ∃ root, BuildMerkleRoot (testTxids.take 5) = .ok root ∧
      BuildMerkleRoot (testTxids.take 5 ++ [testTxids.getD 4 []]) = .ok root :=
  ⟨by decide, by decide, by decide,
    (buildMerkleRoot_duplicate_last (testTxids.take 5) (testTxids.getD 4 []) (by decide)
      (by decide) (by decide) (by decide)).2.1⟩

end Bc
